import Mathlib

/-! MyTerminal: command executor, line parser and session job controller.

A shallow embedding of the process-orchestration core of MyTerminal
(`src/core/CommandExecutor.cpp`, `src/gui/TerminalWindow.cpp`, `include/gui/Tab.hpp`,
`src/core/History.cpp`).

Conventions of the embedding:

* a `std::string` is a `List Char` (`Str`); one `Char` stands for one `char` of the string;
* a `for` loop over the characters of a string is a structural recursion over the list,
  the loop's local variables being the accumulator arguments;
* `pid_t` and file descriptors are `Int`;
* the operating system (results of `pipe`, `openpty`, `fork`, `chdir`, `kill`, the environment)
  is an explicit record `Sys` inside the state, and every system call the parent process makes
  is appended to an event log.
-/

namespace MyTerm

/-- A `std::string`: the list of its characters. -/
abbrev Str := List Char

/-! ## Line parser (`CommandExecutor.cpp`) -/

/-- The C library `isspace` in the "C" locale: space, `\t`, `\n`, `\v`, `\f`, `\r`. -/
def isspace (c : Char) : Bool :=
  c == ' ' || (9 ≤ c.toNat && c.toNat ≤ 13)

/-- `TerminalWindow::isWhitespaceOnly`: every character is `isspace`. -/
def isWhitespaceOnly : Str → Bool
  | [] => true
  | c :: rest => if !isspace c then false else isWhitespaceOnly rest

/-- The `for` loop of `TerminalWindow::splitArgs`; `out`, `cur`, `inSingle`, `inDouble` are the
locals of the C++ function, the end of the list is the code after the loop. -/
def splitArgsLoop : Str → List Str → Str → Bool → Bool → List Str
  | [], out, cur, _, _ => if !cur.isEmpty then out ++ [cur] else out
  | c :: rest, out, cur, inSingle, inDouble =>
    if c == '"' && !inSingle then splitArgsLoop rest out cur inSingle (!inDouble)
    else if c == '\'' && !inDouble then splitArgsLoop rest out cur (!inSingle) inDouble
    else if !inSingle && !inDouble && (c == ' ' || c == '\t') then
      if !cur.isEmpty then splitArgsLoop rest (out ++ [cur]) [] inSingle inDouble
      else splitArgsLoop rest out cur inSingle inDouble
    else splitArgsLoop rest out (cur ++ [c]) inSingle inDouble

/-- `TerminalWindow::splitArgs`. -/
def splitArgs (s : Str) : List Str :=
  splitArgsLoop s [] [] false false

/-- The `for` loop of `splitPipeline`. -/
def splitPipelineLoop : Str → List Str → Str → Bool → Bool → List Str
  | [], parts, cur, _, _ => if !cur.isEmpty then parts ++ [cur] else parts
  | c :: rest, parts, cur, inS, inD =>
    if c == '"' && !inS then splitPipelineLoop rest parts cur inS (!inD)
    else if c == '\'' && !inD then splitPipelineLoop rest parts cur (!inS) inD
    else if !inS && !inD && c == '|' then
      if !cur.isEmpty then splitPipelineLoop rest (parts ++ [cur]) [] inS inD
      else splitPipelineLoop rest parts cur inS inD
    else splitPipelineLoop rest parts (cur ++ [c]) inS inD

/-- `splitPipeline`. -/
def splitPipeline (s : Str) : List Str :=
  splitPipelineLoop s [] [] false false

/-- `struct Redir` with its default member initialisers. -/
structure Redir where
  «in» : Str := []
  out : Str := []
  append : Bool := false
  errOut : Str := []
  errAppend : Bool := false
  deriving DecidableEq, Repr

/-- The `for` loop of `splitArgsLoose`; `out`, `cur`, `inS`, `inD` are its locals.  The extra
`++i` of the `>>` case is the flag `skip`: when it is set the next iteration passes over its
character (`s[i+1]`, already consumed) without looking at it. -/
def splitArgsLooseLoop : Str → List Str → Str → Bool → Bool → Bool → List Str
  | [], out, cur, _, _, _ => if !cur.isEmpty then out ++ [cur] else out
  | c :: rest, out, cur, inS, inD, skip =>
    if skip then splitArgsLooseLoop rest out cur inS inD false
    else if c == '"' && !inS then splitArgsLooseLoop rest out cur inS (!inD) false
    else if c == '\'' && !inD then splitArgsLooseLoop rest out cur (!inS) inD false
    else if !inS && !inD && (c == ' ' || c == '\t') then
      splitArgsLooseLoop rest (if !cur.isEmpty then out ++ [cur] else out)
        (if !cur.isEmpty then [] else cur) inS inD false
    else if !inS && !inD && (c == '<' || c == '>') then
      let out1 := if !cur.isEmpty then out ++ [cur] else out
      if c == '>' && rest.head? == some '>' then
        splitArgsLooseLoop rest (out1 ++ [['>', '>']]) [] inS inD true
      else splitArgsLooseLoop rest (out1 ++ [[c]]) [] inS inD false
    else splitArgsLooseLoop rest out (cur ++ [c]) inS inD false

/-- `splitArgsLoose`. -/
def splitArgsLoose (s : Str) : List Str :=
  splitArgsLooseLoop s [] [] false false false

/-- The `for` loop of `parseCmdWithRedir` over the tokens; `argv` and `r` are its locals.  The
`++i` that consumes the target `tokens[i+1]` of a redirection is the flag `skip`: when it is set
the next iteration passes over its token. -/
def parseCmdLoop : List Str → List Str → Redir → Bool → List Str × Redir
  | [], argv, r, _ => (argv, r)
  | tok :: rest, argv, r, skip =>
    if skip then parseCmdLoop rest argv r false
    else if tok == ['>'] || tok == ['>', '>'] then
      let r1 := { r with append := (tok == ['>', '>']) }
      match rest.head? with
      | some tgt => parseCmdLoop rest argv { r1 with out := tgt } true
      | none => parseCmdLoop rest argv r1 false
    else if tok == ['2', '>'] || tok == ['2', '>', '>'] then
      let r1 := { r with errAppend := (tok == ['2', '>', '>']) }
      match rest.head? with
      | some tgt => parseCmdLoop rest argv { r1 with errOut := tgt } true
      | none => parseCmdLoop rest argv r1 false
    else if tok == ['<'] then
      match rest.head? with
      | some tgt => parseCmdLoop rest argv { r with «in» := tgt } true
      | none => parseCmdLoop rest argv r false
    else parseCmdLoop rest (argv ++ [tok]) r false

/-- `parseCmdWithRedir(s, r)`: the returned `argv` and the final value of the reference
parameter `r`. -/
def parseCmdWithRedir (s : Str) (r : Redir) : List Str × Redir :=
  parseCmdLoop (splitArgsLoose s) [] r false

/-- The loop of `quotesBalanced`: the pair is `(inS, inD)`. -/
def quotesBalancedLoop : Str → Bool → Bool → Bool × Bool
  | [], inS, inD => (inS, inD)
  | c :: rest, inS, inD =>
    if c == '"' && !inS then quotesBalancedLoop rest inS (!inD)
    else if c == '\'' && !inD then quotesBalancedLoop rest (!inS) inD
    else quotesBalancedLoop rest inS inD

/-- `quotesBalanced` of `CommandExecutor.cpp`. -/
def quotesBalanced (s : Str) : Bool :=
  let r := quotesBalancedLoop s false false
  !r.1 && !r.2

/-- The loop of `quotes_balanced_simple` (`TerminalWindow.cpp`). -/
def quotes_balanced_simple_loop : Str → Bool → Bool → Bool × Bool
  | [], inS, inD => (inS, inD)
  | c :: rest, inS, inD =>
    if c == '"' && !inS then quotes_balanced_simple_loop rest inS (!inD)
    else if c == '\'' && !inD then quotes_balanced_simple_loop rest (!inS) inD
    else quotes_balanced_simple_loop rest inS inD

/-- `quotes_balanced_simple` of `TerminalWindow.cpp`. -/
def quotes_balanced_simple (s : Str) : Bool :=
  let r := quotes_balanced_simple_loop s false false
  !r.1 && !r.2

/-! ## Session state (`Tab.hpp`, `History.hpp`) and the operating system -/

/-- `struct BackgroundJob`. -/
structure BackgroundJob where
  pid : Int
  pgid : Int
  outFd : Int
  errFd : Int
  cmd : Str
  isPty : Bool
  deriving DecidableEq, Repr

/-- The anonymous `enum` of `Tab::ansiState`. -/
inductive AnsiState where
  | ANSI_TEXT
  | ANSI_ESC
  | ANSI_CSI
  deriving DecidableEq, Repr

/-- `class Tab` with its default member initialisers (the unused `history` deque is left
out). -/
structure Tab where
  scrollback : Str := []
  input : Str := []
  cursor : Nat := 0
  scrollOffsetLines : Int := 0
  scrollOffsetTargetLines : Int := 0
  scrollToBottom : Bool := false
  childPid : Int := -1
  childPgid : Int := -1
  outFd : Int := -1
  errFd : Int := -1
  inFdWrite : Int := -1
  ansiState : AnsiState := AnsiState.ANSI_TEXT
  ansiSeq : Str := []
  contActive : Bool := false
  contBuffer : Str := []
  contJoinNoNewline : Bool := false
  pendingCmds : List (Str × Bool) := []
  backgroundJobs : List BackgroundJob := []
  watchActive : Bool := false
  savedScrollbackBeforeWatch : Str := []
  deriving DecidableEq, Repr

/-- `Tab::appendOutput(s, cap)`. -/
def Tab.appendOutput (t : Tab) (s : Str) (cap : Nat) : Tab :=
  let kept :=
    if t.scrollback.length + s.length > cap then
      let drop := t.scrollback.length + s.length - cap
      if drop ≥ t.scrollback.length then [] else t.scrollback.drop drop
    else t.scrollback
  { t with scrollback := kept ++ s, scrollToBottom := true }

/-- The default argument `cap = 1<<20` of `Tab::appendOutput`. -/
def defaultCap : Nat := 1 <<< 20

/-- `class History`: the capacity `cap_` and the deque `h_`, oldest entry first. -/
structure History where
  cap_ : Nat := 10000
  h_ : List Str := []
  deriving DecidableEq, Repr

/-- `History::add`.  (`pop_front` on an empty deque, possible only when `cap_` is 0, is taken
to leave it empty.) -/
def History.add (h : History) (cmd : Str) : History :=
  if cmd.isEmpty then h
  else if !h.h_.isEmpty && h.h_.getLast? == some cmd then h
  else { h with h_ := (if h.h_.length == h.cap_ then h.h_.drop 1 else h.h_) ++ [cmd] }

/-- `History::clear`. -/
def History.clear (h : History) : History :=
  { h with h_ := [] }

/-- How a descriptor of a child process is wired before `exec`. -/
inductive Wire where
  | inherited
  | file (path : Str) (append : Bool)
  | fd (n : Int)
  deriving DecidableEq, Repr

/-- What a forked child of the executor goes on to do (the branch `pid == 0`), as far as the
parent decides it: a pipeline stage or PTY program with its argument vector (before glob
expansion) and wiring, the multiWatch supervisor, or the helper of `spawnFdKeeperDelayed` that
keeps a duplicate of a descriptor open. -/
inductive Child where
  | stage (argv : List Str) (stdin stdout stderr : Wire) (ownGroup : Bool) (joinGroup : Int)
  | pty (argv : List Str) (slave : Int)
  | supervisor (cmds : List Str) (interval : Int) (out : Int)
  | keeper (dupFd : Int)
  deriving DecidableEq, Repr

/-- The outcome of one `read(fd, buf, sizeof(buf))`: `n > 0` bytes, `n == 0` (end of file),
`EAGAIN`/`EWOULDBLOCK`, or another error.  (`data []` is read as `n == 0`.) -/
inductive ReadResult where
  | data (bytes : Str)
  | eof
  | again
  | error
  deriving DecidableEq, Repr

/-- A system call made by the parent process, or a write to the history file. -/
inductive Event where
  | close (fd : Int)
  | chdir (path : Option Str)
  | kill (pid sig : Int)
  | killpg (pgid sig : Int)
  | setpgid (pid pgid : Int)
  | nonblock (fd : Int)
  | pipe (result : Option (Int × Int))
  | openpty (result : Option (Int × Int))
  | fork (child : Child) (result : Int)
  | saveHistory (path : Str) (entries : List Str)
  | appendHistory (path : Str) (cmd : Str)
  | dup (fd : Int) (result : Int)
  | read (fd : Int) (result : ReadResult)
  | waitpid (pid : Int) (reaped : Bool)
  deriving DecidableEq, Repr

/-- The operating system as the executor sees it: identity and environment, the directories
`chdir` accepts (with the working directory that results), the targets `kill` and `killpg`
accept, the text of `strerror(errno)` after a failed call, and the results of the successive
`pipe`, `openpty` and `fork` calls (an exhausted list is a failure; `fork` yields `some k` for
the child pid `k + 1` in the parent, `none` for `-1`).  Further: the results of the successive
`dup` calls (exhausted: `-1`) and non-blocking `read` calls (exhausted: `EAGAIN`), the children
that have exited and wait to be reaped, and the patterns for which `glob` finds path names. -/
structure Sys where
  user : Str := "user".toList
  hostname : Str := "host".toList
  cwd : Str := "/".toList
  env : List (Str × Str) := []
  pwDir : Option Str := none
  dirs : List (Str × Str) := []
  killable : List Int := []
  killablePg : List Int := []
  strerror : Str := "No such process".toList
  pipes : List (Option (Int × Int)) := []
  ptys : List (Option (Int × Int)) := []
  forks : List (Option Nat) := []
  dups : List Int := []
  reads : List ReadResult := []
  exited : List Int := []
  globs : List (Str × List Str) := []
  deriving DecidableEq, Repr

/-- `getenv(name)`. -/
def Sys.getenv (sys : Sys) (name : Str) : Option Str :=
  sys.env.lookup name

/-- The state the executor works on: the active tab, the members `history_` and `historyPath_`
of `TerminalWindow`, the operating system, the log of system calls made so far, and, as a
ghost, the value of `childPid` at every entry of `executeLineInternal`. -/
structure World where
  tab : Tab := {}
  history_ : History := {}
  historyPath_ : Str := []
  sys : Sys := {}
  log : List Event := []
  entries : List Int := []
  deriving DecidableEq, Repr

/-- `t.appendOutput(s)` with the default cap. -/
def World.appendOutput (w : World) (s : Str) : World :=
  { w with tab := w.tab.appendOutput s defaultCap }

/-- Record a system call. -/
def World.emit (w : World) (e : Event) : World :=
  { w with log := w.log ++ [e] }

/-- `close(fd)`. -/
def World.close (w : World) (fd : Int) : World :=
  w.emit (Event.close fd)

/-- `pipe(fds)`: the next result of the system. -/
def World.pipe (w : World) : World × Option (Int × Int) :=
  let r := w.sys.pipes.headD none
  ({ w with sys := { w.sys with pipes := w.sys.pipes.drop 1 }, log := w.log ++ [Event.pipe r] }, r)

/-- `openpty(&masterFd, &slaveFd, ...)`: the next result of the system. -/
def World.openpty (w : World) : World × Option (Int × Int) :=
  let r := w.sys.ptys.headD none
  ({ w with sys := { w.sys with ptys := w.sys.ptys.drop 1 }, log := w.log ++ [Event.openpty r] },
    r)

/-- `fork()` seen from the parent: the pid of the child, or `-1`. -/
def World.fork (w : World) (child : Child) : World × Int :=
  let pid : Int := match w.sys.forks.headD none with
    | some k => (k : Int) + 1
    | none => -1
  ({ w with sys := { w.sys with forks := w.sys.forks.drop 1 },
            log := w.log ++ [Event.fork child pid] }, pid)

/-- `c_str()`: the characters up to the first NUL. -/
def c_str (s : Str) : Str :=
  s.takeWhile (fun c => c != '\x00')

/-- `chdir(target)`; a null `target` fails.  Returns whether the call returned 0. -/
def World.chdir (w : World) (target : Option Str) : World × Bool :=
  let w1 := w.emit (Event.chdir target)
  match target with
  | none => (w1, false)
  | some p =>
    match w.sys.dirs.lookup (c_str p) with
    | some d => ({ w1 with sys := { w1.sys with cwd := d } }, true)
    | none => (w1, false)

/-- `kill(pid, sig) == 0`. -/
def World.kill (w : World) (pid sig : Int) : World × Bool :=
  (w.emit (Event.kill pid sig), w.sys.killable.contains pid)

/-- `killpg(pgid, sig) == 0`. -/
def World.killpg (w : World) (pgid sig : Int) : World × Bool :=
  (w.emit (Event.killpg pgid sig), w.sys.killablePg.contains pgid)

/-- `std::to_string` on an integer. -/
def to_string (n : Int) : Str :=
  (toString n).toList

/-- `cx_get_user()+"@"+cx_get_host()+":"+cx_get_cwd()+"$ "` of `CommandExecutor.cpp`. -/
def ubuntu_prompt (sys : Sys) : Str :=
  sys.user ++ "@".toList ++ sys.hostname ++ ":".toList ++ sys.cwd ++ "$ ".toList

/-- `get_cwd()` of `TerminalWindow.cpp`: the working directory with the home directory
abbreviated to `~`. -/
def get_cwd (sys : Sys) : Str :=
  let home0 : Str := match sys.getenv "HOME".toList with
    | some h => if !h.isEmpty then h else sys.pwDir.getD []
    | none => sys.pwDir.getD []
  if !home0.isEmpty then
    let home := if home0.length > 1 && home0.getLast? == some '/' then home0.dropLast else home0
    if sys.cwd == home then "~".toList
    else if (home ++ ['/']).isPrefixOf sys.cwd then '~' :: sys.cwd.drop home.length
    else sys.cwd
  else sys.cwd

/-- The prompt `get_user()+"@"+get_host()+":"+get_cwd()+"$ "` of `TerminalWindow.cpp`
(`get_host` returns the user name). -/
def ps1 (sys : Sys) : Str :=
  sys.user ++ "@".toList ++ sys.user ++ ":".toList ++ get_cwd sys ++ "$ ".toList

/-- `append_sep_if_queued`. -/
def append_sep_if_queued (w : World) : World :=
  if !w.tab.pendingCmds.isEmpty then
    w.appendOutput "-------------------------------------------------------------\n".toList
  else w

/-- `isalnum` in the "C" locale. -/
def isalnum (c : Char) : Bool :=
  c.isAlphanum

/-- The loop of `expandVars`; `i = j - 1` after a `$NAME` is the counter `skip` of characters
the following iterations pass over. -/
def expandVarsLoop (sys : Sys) : Str → Str → Nat → Str
  | [], out, _ => out
  | c :: rest, out, skip =>
    if skip > 0 then expandVarsLoop sys rest out (skip - 1)
    else if c == '$' then
      let var := rest.takeWhile (fun d => isalnum d || d == '_')
      expandVarsLoop sys rest (out ++ (sys.getenv var).getD []) var.length
    else expandVarsLoop sys rest (out ++ [c]) 0

/-- `expandVars`. -/
def expandVars (sys : Sys) (s : Str) : Str :=
  if s.head? == some '~' then (sys.getenv "HOME".toList).getD [] ++ s.drop 1
  else expandVarsLoop sys s [] 0

/-- `std::string::find(pat)` from position `i` on. -/
def findSubstr (pat : Str) : Str → Nat → Option Nat
  | [], i => if pat.isEmpty then some i else none
  | c :: rest, i => if pat.isPrefixOf (c :: rest) then some i else findSubstr pat rest (i + 1)

/-- The conversion at the heart of `strtol(s, &end, 10)`: leading white space and one sign
are skipped; `none` when no digit follows (nothing is converted), otherwise the value, clamped
to the range of `long`, and the text from `end` on. -/
def strtolCore (s : Str) : Option (Int × Str) :=
  let s1 := s.dropWhile isspace
  let neg := s1.head? == some '-'
  let s2 := if s1.head? == some '-' || s1.head? == some '+' then s1.drop 1 else s1
  let ds := s2.takeWhile Char.isDigit
  if ds.isEmpty then none
  else
    let v : Int := ds.foldl (fun a d => a * 10 + ((d.toNat - '0'.toNat : Nat) : Int)) 0
    some (if neg then max (-v) (-(2 ^ 63)) else min v (2 ^ 63 - 1), s2.dropWhile Char.isDigit)

/-- `strtol(s, &end, 10)`: the value and the text from `end` on; when nothing is converted the
value is 0 and `end` is the start of the string. -/
def strtol (s : Str) : Int × Str :=
  (strtolCore s).getD (0, s)

/-- The conversion `(pid_t)v` of a `long` to the 32-bit `pid_t`. -/
def toPidT (v : Int) : Int :=
  (v + 2 ^ 31) % 2 ^ 32 - 2 ^ 31

/-- `std::stoi(s)`: `none` when it throws (nothing converted, or out of the range of `int`). -/
def stoi (s : Str) : Option Int :=
  match strtolCore (c_str s) with
  | none => none
  | some r => if r.1 < -(2 ^ 31) || r.1 > 2 ^ 31 - 1 then none else some r.1

/-! ## Built-in commands of `executeLineInternal`

Every built-in below is the text of its `if (args[0]==...)` block.  Where a block ends with
`runNextCommand(t); return;` the call is in tail position; the functions return the state
before that call, and `executeLineBody` says whether the call is made. -/

/-- The unescape loop of the `echo` built-in; the `++i` after a recognised escape is the flag
`skip`. -/
def echoUnescapeLoop : Str → Str → Bool → Str
  | [], out, _ => out
  | c :: rest, out, skip =>
    if skip then echoUnescapeLoop rest out false
    else if c == '\\' && !rest.isEmpty then
      let n := rest.headD ' '
      if n == '\n' then echoUnescapeLoop rest out true
      else if n == 'n' then echoUnescapeLoop rest (out ++ ['\n']) true
      else if n == 't' then echoUnescapeLoop rest (out ++ "    ".toList) true
      else if n == '"' then echoUnescapeLoop rest (out ++ ['"']) true
      else if n == '\'' then echoUnescapeLoop rest (out ++ ['\'']) true
      else if n == '\\' then echoUnescapeLoop rest (out ++ ['\\']) true
      else echoUnescapeLoop rest (out ++ [c]) false
    else echoUnescapeLoop rest (out ++ [c]) false

/-- Strip one pair of matching quotes around a string of at least two characters. -/
def stripMatchingQuotes (s : Str) : Str :=
  if s.length ≥ 2 && ((s.head? == some '"' && s.getLast? == some '"') ||
      (s.head? == some '\'' && s.getLast? == some '\'')) then (s.drop 1).dropLast
  else s

/-- Built-in `echo`, up to its final `runNextCommand`. -/
def echoBuiltin (w : World) (line : Str) (args : List Str) : World :=
  let payload0 : Str := match findSubstr "echo".toList line 0 with
    | some pos => (line.drop (pos + 4)).dropWhile (fun c => c == ' ' || c == '\t')
    | none => List.intercalate [' '] (args.drop 1)
  let out := echoUnescapeLoop (stripMatchingQuotes payload0) [] false
  append_sep_if_queued (w.appendOutput (out ++ ['\n']))

/-- Built-in `history`, up to its final `runNextCommand`. -/
def historyBuiltin (w : World) (args : List Str) : World :=
  let a1 := args.getD 1 []
  if args.length ≥ 2 && (a1 == "-c".toList || a1 == "--clear".toList || a1 == "clear".toList)
  then
    let w1 := { w with history_ := w.history_.clear }
    let w2 := if !w1.historyPath_.isEmpty then
        w1.emit (Event.saveHistory w1.historyPath_ w1.history_.h_) else w1
    append_sep_if_queued (w2.appendOutput "History cleared\n".toList)
  else
    let dq := w.history_.h_
    let w1 := (dq.drop (dq.length - 1000)).foldl (fun v cmd => v.appendOutput (cmd ++ ['\n'])) w
    append_sep_if_queued w1

/-- Built-in `cd`: the state and whether the path taken ends with `runNextCommand`.  In the
`~path` branch `std::string(getenv("HOME"))` with `HOME` unset is taken as the empty string. -/
def cdBuiltin (w : World) (args : List Str) : World × Bool :=
  let home := w.sys.getenv "HOME".toList
  let a1 := args.getD 1 []
  if args.length != 1 && a1 != "~".toList && (!a1.isEmpty && a1.head? == some '~') then
    let r := w.chdir (some (home.getD [] ++ a1.drop 1))
    ((if r.2 then r.1 else r.1.appendOutput "cd: no such file or directory\n".toList), false)
  else
    let target0 : Option Str := if args.length == 1 then home
      else if a1 == "~".toList then home else none
    let target1 : Option Str := if target0.isNone && args.length ≥ 2 then some a1 else target0
    let target2 : Option Str := if target1.isNone then home else target1
    let r := w.chdir target2
    let w1 := if !r.2 then r.1.appendOutput "cd: no such file or directory\n".toList else r.1
    let w2 := if w1.tab.inFdWrite ≥ 0 then
        { (w1.close w1.tab.inFdWrite) with tab := { w1.tab with inFdWrite := -1 } } else w1
    (append_sep_if_queued w2, true)

/-- Built-in `clear`, up to its final `runNextCommand`. -/
def clearBuiltin (w : World) : World :=
  append_sep_if_queued
    { w with tab := { w.tab with scrollback := [], scrollOffsetLines := 0,
                                 scrollOffsetTargetLines := 0,
                                 ansiState := AnsiState.ANSI_TEXT, ansiSeq := [] } }

/-- Built-in `bgpids`, up to its final `runNextCommand`. -/
def bgpidsBuiltin (w : World) : World :=
  let w1 :=
    if w.tab.backgroundJobs.isEmpty then w.appendOutput "No background jobs\n".toList
    else w.tab.backgroundJobs.foldl (fun v job =>
      v.appendOutput ("PID=".toList ++ to_string job.pid ++
        (if job.pgid > 0 then " PGID=".toList ++ to_string job.pgid else []) ++
        " CMD=".toList ++ job.cmd ++ ['\n'])) w
  append_sep_if_queued w1

/-- `SIGTERM`. -/
def SIGTERM : Int := 15

/-- `SIGKILL`. -/
def SIGKILL : Int := 9

/-- The direct `kill(pid, sig)` of the built-ins with its message. -/
def signalPid (w : World) (sig pid : Int) : World :=
  let k := w.kill pid sig
  if k.2 then k.1.appendOutput ("killed pid ".toList ++ to_string pid ++
    " (sig ".toList ++ to_string sig ++ ")\n".toList)
  else k.1.appendOutput ("kill(".toList ++ to_string pid ++ ") failed: ".toList ++
    w.sys.strerror ++ ['\n'])

/-- The `killpg(pgid, sig)` of the built-ins with its message. -/
def signalGroup (w : World) (sig pgid : Int) : World :=
  let k := w.killpg pgid sig
  if k.2 then k.1.appendOutput ("killed process group ".toList ++ to_string pgid ++
    " (sig ".toList ++ to_string sig ++ ")\n".toList)
  else k.1.appendOutput ("killpg(".toList ++ to_string pgid ++ ") failed: ".toList ++
    w.sys.strerror ++ ['\n'])

/-- The branch of the job search for the matching background job `job` (the first with
`pid` or `pgid` equal to `pid`): signal its group when `pgid > 0`, else its pid, close its
descriptors and erase it. -/
def signalJob (w : World) (sig pid : Int) (job : BackgroundJob) : World :=
  let w1 := if job.pgid > 0 then signalGroup w sig job.pgid else signalPid w sig job.pid
  let w2 := if job.outFd ≥ 0 then w1.close job.outFd else w1
  let w3 := if job.errFd ≥ 0 then w2.close job.errFd else w2
  { w3 with tab := { w3.tab with backgroundJobs :=
      w3.tab.backgroundJobs.eraseP (fun j => j.pid == pid || j.pgid == pid) } }

/-- The body of the `for` loop of `kill` and `killprocess` for one argument `spid`; the two
copies in the source differ only in the command name `name` of the message. -/
def killOne (name : Str) (sig : Int) (w : World) (spid : Str) : World :=
  let r := strtol (c_str spid)
  if !spid.isEmpty && r.2.isEmpty && r.1 > 0 then
    let pid := toPidT r.1
    match w.tab.backgroundJobs.find? (fun j => j.pid == pid || j.pgid == pid) with
    | some job => signalJob w sig pid job
    | none => signalPid w sig pid
  else w.appendOutput (name ++ ": invalid pid '".toList ++ spid ++ "'\n".toList)

/-- The common text of the built-ins `kill` and `killprocess` up to the end of the `for` loop:
the state, and `false` when the usage message was printed (both copies then `return`
at once). -/
def killArgs (name : Str) (w : World) (args : List Str) : World × Bool :=
  let a1 := args.getD 1 []
  let hasSig := args.length ≥ 2 && a1.length > 1 && a1.head? == some '-'
  let sig := if hasSig && a1 == "-9".toList then SIGKILL else SIGTERM
  let i := if hasSig then 2 else 1
  if i ≥ args.length then
    (w.appendOutput ("usage: ".toList ++ name ++ " [-9] PID [PID ...]\n".toList), false)
  else ((args.drop i).foldl (killOne name sig) w, true)

/-- Built-in `killprocess`: after the loop it calls `runNextCommand`. -/
def killprocessBuiltin (w : World) (args : List Str) : World × Bool :=
  killArgs "killprocess".toList w args

/-- Built-in `kill`: after the loop it ends with `redraw(); return;`. -/
def killBuiltin (w : World) (args : List Str) : World × Bool :=
  ((killArgs "kill".toList w args).1, false)

/-- The loop that cuts the body of the list form of `multiWatch` at unquoted commas. -/
def watchListLoop : Str → List Str → Str → Bool → Bool → List Str
  | [], cmds, cur, _, _ => if !cur.isEmpty then cmds ++ [cur] else cmds
  | c :: rest, cmds, cur, inS, inD =>
    if c == '"' && !inS then watchListLoop rest cmds cur inS (!inD)
    else if c == '\'' && !inD then watchListLoop rest cmds cur (!inS) inD
    else if !inS && !inD && c == ',' then
      if !cur.isEmpty then watchListLoop rest (cmds ++ [cur]) [] inS inD
      else watchListLoop rest cmds cur inS inD
    else watchListLoop rest cmds (cur ++ [c]) inS inD

/-- Trim the white space around an item of the list and strip one pair of matching quotes. -/
def trimWatchItem (s : Str) : Str :=
  stripMatchingQuotes ((s.dropWhile isspace).reverse.dropWhile isspace).reverse

/-- The interval and the index of the first command argument of `multiWatch`. -/
def watchInterval (args : List Str) : Int × Nat :=
  if args.length > 1 then
    match stoi (args.getD 1 []) with
    | some v => if v > 0 then (v, 2) else (2, 1)
    | none => (2, 1)
  else (2, 1)

/-- The command list of `multiWatch`: the list form `[ ... ]` when it yields an item,
otherwise the remaining arguments. -/
def watchCmds (args : List Str) : List Str :=
  let argStart := (watchInterval args).2
  if args.length > argStart then
    let joined := List.intercalate [' '] (args.drop argStart)
    let listForm : List Str :=
      match joined.findIdx? (fun c => c == '['), joined.reverse.findIdx? (fun c => c == ']') with
      | some lb, some k =>
        let rb := joined.length - 1 - k
        if rb > lb then
          (watchListLoop ((joined.take rb).drop (lb + 1)) [] [] false false).map trimWatchItem
        else []
      | _, _ => []
    if listForm.isEmpty then args.drop argStart else listForm
  else []

/-- Restore the scrollback saved before `multiWatch` when starting the supervisor fails. -/
def watchRestore (w : World) : World :=
  if w.tab.watchActive then
    { w with tab := { w.tab with scrollback := w.tab.savedScrollbackBeforeWatch,
                                 watchActive := false } }
  else w

/-- Built-in `multiWatch` in the parent process; every path ends with `return`. -/
def multiWatchBuiltin (w : World) (args : List Str) : World :=
  let cmds := watchCmds args
  if cmds.isEmpty then w.appendOutput "multiWatch: no commands specified\n".toList
  else
    let w1 := if !w.tab.watchActive then
        { w with tab := { w.tab with savedScrollbackBeforeWatch := w.tab.scrollback,
                                     scrollback := [], scrollOffsetLines := 0,
                                     scrollOffsetTargetLines := 0, watchActive := true } }
      else w
    let p := w1.pipe
    match p.2 with
    | none => watchRestore (p.1.appendOutput "pipe() failed\n".toList)
    | some outPipe =>
      let f := p.1.fork (Child.supervisor cmds (watchInterval args).1 outPipe.2)
      if f.2 < 0 then
        watchRestore (((f.1.appendOutput "fork() failed\n".toList).close outPipe.1).close
          outPipe.2)
      else
        let w3 := ((f.1.emit (Event.setpgid f.2 f.2)).close outPipe.2).emit
          (Event.nonblock outPipe.1)
        { w3 with tab := { w3.tab with childPid := f.2, childPgid := f.2, outFd := outPipe.1,
                                       errFd := -1, inFdWrite := -1 } }

/-! ## Spawning a pipeline (`executeLineInternal`, from "Build pipeline without shell") -/

/-- Close every descriptor of the list that is `>= 0`. -/
def closeAll (w : World) (fds : List Int) : World :=
  fds.foldl (fun v fd => if fd ≥ 0 then v.close fd else v) w

/-- The PTY path of a single stage without redirection of stdin or stdout: `true` when the
program was started (the source then returns at once), `false` when `openpty` or `fork` failed
and the pipe-based path is taken. -/
def ptyAttempt (w : World) (argvProbe : List Str) : World × Bool :=
  let o := w.openpty
  match o.2 with
  | some fds =>
    let masterFd := fds.1
    let slaveFd := fds.2
    let f := o.1.fork (Child.pty argvProbe slaveFd)
    if f.2 > 0 then
      let w2 := (f.1.close slaveFd).emit (Event.nonblock masterFd)
      ({ w2 with tab := { w2.tab with childPid := f.2, childPgid := f.2, outFd := masterFd,
                                      errFd := -1, inFdWrite := masterFd } }, true)
    else ((f.1.close masterFd).close slaveFd, false)
  | none => (o.1, false)

/-- The loop creating the `n-1` pipes between the stages; `none` after `pipe() failed`. -/
def makePipes : Nat → World → List Int → World × Option (List Int)
  | 0, w, pipesFD => (w, some pipesFD)
  | k + 1, w, pipesFD =>
    match w.pipe.2 with
    | some fds => makePipes k w.pipe.1 (pipesFD ++ [fds.1, fds.2])
    | none => (w.pipe.1.appendOutput "pipe() failed\n".toList, none)

/-- The wiring of stage `i` of `n` decided in the child before `exec`. -/
def stageChild (n : Nat) (haveInteractiveStdin : Bool) (stdinRd : Int) (pipesFD : List Int)
    (outWr errWr firstPid : Int) (i : Nat) (argv : List Str) (rinfo : Redir) : Child :=
  let stdin : Wire :=
    if !rinfo.in.isEmpty then Wire.file rinfo.in false
    else if i == 0 && haveInteractiveStdin then Wire.fd stdinRd
    else if i > 0 then Wire.fd (pipesFD.getD ((i - 1) * 2) (-1))
    else Wire.inherited
  let stdout : Wire :=
    if !rinfo.out.isEmpty then Wire.file rinfo.out rinfo.append
    else if i + 1 < n then Wire.fd (pipesFD.getD (i * 2 + 1) (-1))
    else Wire.fd outWr
  let stderr : Wire :=
    if !rinfo.errOut.isEmpty then Wire.file rinfo.errOut rinfo.errAppend
    else Wire.fd errWr
  Child.stage argv stdin stdout stderr (i == 0) firstPid

/-- The `for` loop forking one child per stage, from stage `i` on; `firstPid` and `lastPid`
are its locals.  `none` after `invalid command` or `fork() failed` (the source returns at
once). -/
def spawnStages (n : Nat) (haveInteractiveStdin : Bool) (stdinRd : Int) (pipesFD : List Int)
    (outWr errWr : Int) : List Str → Nat → World → Int → Int → World × Option (Int × Int)
  | [], _, w, firstPid, lastPid => (w, some (firstPid, lastPid))
  | st :: rest, i, w, firstPid, _ =>
    let p := parseCmdWithRedir st {}
    if p.1.isEmpty then (w.appendOutput "invalid command\n".toList, none)
    else
      let f := w.fork
        (stageChild n haveInteractiveStdin stdinRd pipesFD outWr errWr firstPid i p.1 p.2)
      if f.2 < 0 then (f.1.appendOutput "fork() failed\n".toList, none)
      else spawnStages n haveInteractiveStdin stdinRd pipesFD outWr errWr rest (i + 1) f.1
        (if i == 0 then f.2 else firstPid) f.2

/-- The parent's code after the loop: close its copies of the pipe ends, record the job as the
foreground job and, for a background line, move it to `backgroundJobs`.  The Boolean says
whether the path ends with `runNextCommand`. -/
def registerJob (w : World) (cmd_line : Str) (background : Bool) (pipesFD : List Int)
    (stdinPipe : Option (Int × Int)) (outPipe errPipe : Int × Int) (firstPid lastPid : Int) :
    World × Bool :=
  let w1 := closeAll w pipesFD
  let stdinRd := (stdinPipe.map Prod.fst).getD (-1)
  let w2 := if stdinRd ≥ 0 then w1.close stdinRd else w1
  let w3 := (w2.close outPipe.2).close errPipe.2
  let w4 := { w3 with tab := { w3.tab with childPid := lastPid, childPgid := firstPid,
                                           outFd := outPipe.1, errFd := errPipe.1 } }
  let w5 := match stdinPipe with
    | some sp => { (w4.close sp.2) with tab := { w4.tab with inFdWrite := -1 } }
    | none => w4
  let w6 := (w5.emit (Event.nonblock w5.tab.outFd)).emit (Event.nonblock w5.tab.errFd)
  if background then
    let bj : BackgroundJob :=
      { pid := w6.tab.childPid, pgid := w6.tab.childPgid, outFd := w6.tab.outFd,
        errFd := w6.tab.errFd, cmd := cmd_line, isPty := false }
    (append_sep_if_queued
      { w6 with tab := { w6.tab with backgroundJobs := w6.tab.backgroundJobs ++ [bj],
                                     childPid := -1, childPgid := -1, outFd := -1, errFd := -1,
                                     inFdWrite := -1 } }, true)
  else (w6, false)

/-- The pipe-based path: pipes between the stages, the optional stdin pipe of stage 0, the
stdout and stderr pipes of the job, one fork per stage, then `registerJob`. -/
def pipesExec (w : World) (stages : List Str) (cmd_line : Str) (background : Bool) :
    World × Bool :=
  let n := stages.length
  let mp := makePipes (n - 1) w []
  match mp.2 with
  | none => (mp.1, false)
  | some pipesFD =>
    let r0 := (parseCmdWithRedir (stages.headD []) {}).2
    let sp : World × Option (Int × Int) := if r0.in.isEmpty then mp.1.pipe else (mp.1, none)
    let op := sp.1.pipe
    match op.2 with
    | none => (closeAll (op.1.appendOutput "pipe() failed\n".toList) pipesFD, false)
    | some outPipe =>
      let ep := op.1.pipe
      match ep.2 with
      | none => (closeAll (ep.1.appendOutput "pipe() failed\n".toList) pipesFD, false)
      | some errPipe =>
        let ss := spawnStages n sp.2.isSome ((sp.2.map Prod.fst).getD (-1)) pipesFD outPipe.2
          errPipe.2 stages 0 ep.1 (-1) (-1)
        match ss.2 with
        | none => (ss.1, false)
        | some pids =>
          registerJob ss.1 cmd_line background pipesFD sp.2 outPipe errPipe pids.1 pids.2

/-- The end of `executeLineInternal`, from "Build pipeline without shell". -/
def pipelineExec (w : World) (cmd_line : Str) (background : Bool) : World × Bool :=
  let w1 := if w.tab.inFdWrite ≥ 0 then
      { (w.close w.tab.inFdWrite) with tab := { w.tab with inFdWrite := -1 } } else w
  let stages := splitPipeline cmd_line
  if stages.isEmpty then (w1, false)
  else
    let probe := parseCmdWithRedir (stages.headD []) {}
    if stages.length == 1 && !probe.1.isEmpty && probe.2.in.isEmpty && probe.2.out.isEmpty then
      let a := ptyAttempt w1 probe.1
      if a.2 then (a.1, false) else pipesExec a.1 stages cmd_line background
    else pipesExec w1 stages cmd_line background

/-! ## `executeLineInternal`, `runNextCommand`, `submitInputLine` -/

/-- The chain `if (args[0]=="echo") ... ` of `executeLineInternal`, from `if (args.empty())
return;` on: the built-in or the pipeline that `args[0]` selects.  The Boolean says whether the
path taken ends with `runNextCommand(t)`. -/
def dispatchLine (w : World) (line : Str) (args : List Str) (background : Bool) :
    World × Bool :=
  if args.isEmpty then (w, false)
  else if args.headD [] == "echo".toList then (echoBuiltin w line args, true)
  else if args.headD [] == "history".toList then (historyBuiltin w args, true)
  else if args.headD [] == "cd".toList then cdBuiltin w args
  else if args.headD [] == "clear".toList then (clearBuiltin w, true)
  else if args.headD [] == "bgpids".toList then (bgpidsBuiltin w, true)
  else if args.headD [] == "killprocess".toList then killprocessBuiltin w args
  else if args.headD [] == "kill".toList then killBuiltin w args
  else if args.headD [] == "multiWatch".toList then (multiWatchBuiltin w args, false)
  else pipelineExec w line background

/-- The text of `executeLineInternal(line, echoPromptAndCmd)` up to the call of
`runNextCommand(t)` that ends some of its paths (always in tail position): the state reached
and whether that call is made.  The entry is recorded in the ghost `entries`. -/
def executeLineBody (w0 : World) (line : Str) (echoPromptAndCmd : Bool) : World × Bool :=
  let w := { w0 with entries := w0.entries ++ [w0.tab.childPid] }
  if isWhitespaceOnly line then (w, false)
  else
    let args0 := splitArgs line
    let background := !args0.isEmpty && args0.getLast? == some ['&']
    let args := (if background then args0.dropLast else args0).map (expandVars w.sys)
    let w1 := if echoPromptAndCmd then w.appendOutput (ubuntu_prompt w.sys ++ line ++ ['\n'])
      else w
    dispatchLine w1 line args background

/-- `runNextCommand` with the mutual recursion through `executeLineInternal` unrolled along the
queue: `fuel` bounds the number of commands dequeued in one call.  Each round removes one
command and `executeLineBody` adds none, so the length of the queue is enough fuel
(`runNextCommand_eq`). -/
def runNextCommandFuel : Nat → World → World
  | 0, w => w
  | fuel + 1, w =>
    if w.tab.childPid > 0 then w
    else
      match w.tab.pendingCmds with
      | [] => w
      | pair :: rest =>
        let r := executeLineBody { w with tab := { w.tab with pendingCmds := rest } } pair.1 pair.2
        if r.2 then runNextCommandFuel fuel r.1 else r.1

/-- `TerminalWindow::runNextCommand`. -/
def runNextCommand (w : World) : World :=
  runNextCommandFuel w.tab.pendingCmds.length w

/-- `TerminalWindow::executeLineInternal`. -/
def executeLineInternal (w : World) (line : Str) (echoPromptAndCmd : Bool) : World :=
  let r := executeLineBody w line echoPromptAndCmd
  if r.2 then runNextCommand r.1 else r.1

/-- The lambda `ends_with_backslash` of `submitInputLine`. -/
def ends_with_backslash (s : Str) : Bool :=
  !s.isEmpty && s.getLast? == some '\\'

/-- The loop of `split_lines_respecting_quotes`. -/
def splitLinesLoop : Str → List Str → Str → Bool → Bool → List Str
  | [], out, cur, _, _ => if !cur.isEmpty && !isWhitespaceOnly cur then out ++ [cur] else out
  | c :: rest, out, cur, inS, inD =>
    if c == '"' && !inS then splitLinesLoop rest out (cur ++ [c]) inS (!inD)
    else if c == '\'' && !inD then splitLinesLoop rest out (cur ++ [c]) (!inS) inD
    else if c == '\n' && !inS && !inD then
      splitLinesLoop rest (if !cur.isEmpty && !isWhitespaceOnly cur then out ++ [cur] else out)
        [] inS inD
    else splitLinesLoop rest out (cur ++ [c]) inS inD

/-- `split_lines_respecting_quotes`. -/
def split_lines_respecting_quotes (s : Str) : List Str :=
  splitLinesLoop s [] [] false false

/-- The loop of the lambda `split_by_semicolon`. -/
def splitSemicolonLoop : Str → List Str → Str → Bool → Bool → List Str
  | [], out, cur, _, _ => if !cur.isEmpty then out ++ [cur] else out
  | c :: rest, out, cur, inS, inD =>
    if c == '"' && !inS then splitSemicolonLoop rest out (cur ++ [c]) inS (!inD)
    else if c == '\'' && !inD then splitSemicolonLoop rest out (cur ++ [c]) (!inS) inD
    else if !inS && !inD && c == ';' then
      splitSemicolonLoop rest (if !cur.isEmpty then out ++ [cur] else out) [] inS inD
    else splitSemicolonLoop rest out (cur ++ [c]) inS inD

/-- The lambda `split_by_semicolon` of `submitInputLine`. -/
def split_by_semicolon (s : Str) : List Str :=
  splitSemicolonLoop s [] [] false false

/-- `TerminalWindow::addHistoryEntry`. -/
def addHistoryEntry (w : World) (cmd : Str) : World :=
  if cmd.isEmpty then w
  else if !w.history_.h_.isEmpty && w.history_.h_.getLast? == some cmd then w
  else
    let w1 := { w with history_ := w.history_.add cmd }
    if !w1.historyPath_.isEmpty then
      if w1.history_.h_.length > 10000 then
        w1.emit (Event.saveHistory w1.historyPath_ w1.history_.h_)
      else w1.emit (Event.appendHistory w1.historyPath_ cmd)
    else w1

/-- The entries `submitInputLine` queues for one command `c`: its pieces between unquoted
semicolons that are not blank, each with `echoPromptAndCmd = false`. -/
def queuedPieces (c : Str) : List (Str × Bool) :=
  ((split_by_semicolon c).filter (fun p => !isWhitespaceOnly p)).map (fun p => (p, false))

/-- The loop `for (auto& c : cmds)` of `submitInputLine`: queue the pieces of each command and
add the command to the history. -/
def queueCmds (w : World) (cmds : List Str) : World :=
  cmds.foldl (fun v c =>
    if (split_by_semicolon c).isEmpty then v
    else addHistoryEntry
      { v with tab := { v.tab with pendingCmds := v.tab.pendingCmds ++ queuedPieces c } } c) w

/-- The command list `cmds` built by `submitInputLine`: the continuation buffer as one command,
or the lines of a non-blank input. -/
def committedCmds (w : World) : List Str :=
  if w.tab.contActive then [w.tab.contBuffer]
  else if !w.tab.input.isEmpty && !isWhitespaceOnly w.tab.input then
    split_lines_respecting_quotes w.tab.input
  else []

/-- The echo of the commands of a non-continuation submit: `PS1` before the first, `> ` before
the others. -/
def echoCmds (w : World) (cmds : List Str) : World :=
  (cmds.drop 1).foldl (fun v c => v.appendOutput ("> ".toList ++ c ++ ['\n']))
    (w.appendOutput (ps1 w.sys ++ cmds.headD [] ++ ['\n']))

/-- The end of `submitInputLine`, from "Build command list" on. -/
def submitCommit (w : World) : World :=
  let cmds := committedCmds w
  let w3 :=
    if !cmds.isEmpty then
      runNextCommand (queueCmds (if !w.tab.contActive then echoCmds w cmds else w) cmds)
    else w
  { w3 with tab := { w3.tab with
      scrollOffsetLines := 0, scrollOffsetTargetLines := 0, input := [], cursor := 0,
      contActive := false,
      contBuffer := if w3.tab.contActive then [] else w3.tab.contBuffer,
      contJoinNoNewline := false } }

/-- The line just entered as it is kept: without its trailing backslash, if it has one. -/
def visibleInput (w : World) : Str :=
  if ends_with_backslash w.tab.input && !w.tab.input.isEmpty then w.tab.input.dropLast
  else w.tab.input

/-- The continuation buffer after the line just entered is added to it: joined directly when
the previous line ended with a backslash, otherwise after a newline. -/
def contAccumulated (w : World) : Str :=
  if w.tab.contJoinNoNewline then w.tab.contBuffer ++ visibleInput w
  else w.tab.contBuffer ++ ('\n' :: visibleInput w)

/-- `TerminalWindow::submitInputLine(t, triggerRedraw)` on the active tab (`redraw` only
paints). -/
def submitInputLine (w : World) : World :=
  if !w.tab.contActive then
    if (!w.tab.input.isEmpty && !isWhitespaceOnly w.tab.input) &&
        (!quotes_balanced_simple w.tab.input || ends_with_backslash w.tab.input) then
      let typed := w.tab.input
      let bscont := ends_with_backslash typed
      { w with tab := { w.tab with contActive := true,
                                   contBuffer := if bscont then typed.dropLast else typed,
                                   contJoinNoNewline := bscont,
                                   input := [], cursor := 0 } }.appendOutput
        (ps1 w.sys ++ visibleInput w ++ ['\n'])
    else submitCommit w
  else
    let bscont := ends_with_backslash w.tab.input
    let w1 := { w with tab := { w.tab with contBuffer := contAccumulated w } }.appendOutput
      ("> ".toList ++ visibleInput w ++ ['\n'])
    let w2 := { w1 with tab := { w1.tab with input := [], cursor := 0,
                                             contJoinNoNewline := bscont } }
    if !quotes_balanced_simple w2.tab.contBuffer || bscont then w2
    else submitCommit w2

/-- `TerminalWindow::executeSingleCommand`. -/
def executeSingleCommand (w : World) (line : Str) (echoPromptAndCmd : Bool) : World :=
  if line.isEmpty || isWhitespaceOnly line then w
  else runNextCommand
    { w with tab := { w.tab with pendingCmds := w.tab.pendingCmds ++ [(line, echoPromptAndCmd)] } }

/-! ## Detaching the foreground job (`handleKeyPress`, Ctrl+Z) -/

/-- `dup(fd)`: the next result of the system. -/
def World.dup (w : World) (fd : Int) : World × Int :=
  let r := w.sys.dups.headD (-1)
  ({ w with sys := { w.sys with dups := w.sys.dups.drop 1 }, log := w.log ++ [Event.dup fd r] },
    r)

/-- `spawnFdKeeperDelayed(fdToKeep)` in the parent: duplicate the descriptor and fork the
helper that owns the duplicate; the duplicate is closed again only when the fork fails. -/
def spawnFdKeeperDelayed (w : World) (fdToKeep : Int) : World :=
  if fdToKeep < 0 then w
  else
    let d := w.dup fdToKeep
    if d.2 < 0 then d.1
    else
      let f := d.1.fork (Child.keeper d.2)
      if f.2 < 0 then f.1.close d.2 else f.1

/-- The Ctrl+Z branch of `handleKeyPress` for `childPgid > 0`, up to its final
`runNextCommand(t)`: keep a PTY master alive, record the job in `backgroundJobs` when it still
has an open descriptor, and clear the foreground fields without closing anything. -/
def detachForeground (w : World) : World :=
  let isPty := decide (w.tab.inFdWrite ≥ 0) && w.tab.inFdWrite == w.tab.outFd
  let w1 := if isPty && decide (w.tab.outFd ≥ 0) then spawnFdKeeperDelayed w w.tab.outFd else w
  let jobs :=
    if w.tab.outFd ≥ 0 ∨ w.tab.errFd ≥ 0 then
      w1.tab.backgroundJobs ++
        [{ pid := w.tab.childPid, pgid := w.tab.childPgid, outFd := w.tab.outFd,
           errFd := w.tab.errFd, cmd := "[detached]".toList, isPty := isPty }]
    else w1.tab.backgroundJobs
  { w1 with tab := { w1.tab with backgroundJobs := jobs, childPid := -1, childPgid := -1,
                                 outFd := -1, errFd := -1, inFdWrite := -1 } }

/-- The Ctrl+Z branch of `handleKeyPress`. -/
def handleCtrlZ (w : World) : World :=
  if w.tab.childPgid > 0 then runNextCommand (detachForeground w) else w

/-! ## Sanitizing and pumping child output (`sanitizeAndApplyANSI`, `pumpChildOutput`) -/

/-- The lambda `clearScreen` of `sanitizeAndApplyANSI`. -/
def clearScreen (t : Tab) : Tab :=
  { t with scrollback := [], scrollOffsetLines := 0, scrollOffsetTargetLines := 0 }

/-- One iteration of the `for` loop of `sanitizeAndApplyANSI` on the byte `c`, `next` being
`data[i+1]` when `i+1 < n`: the tab afterwards and the text appended to `out`. -/
def sanitizeStep (c : Char) (next : Option Char) (t : Tab) : Tab × Str :=
  match t.ansiState with
  | AnsiState.ANSI_TEXT =>
    if c.toNat == 0x1B then ({ t with ansiState := AnsiState.ANSI_ESC, ansiSeq := [c] }, [])
    else if c == '\r' then (t, if next == some '\n' then [] else ['\n'])
    else if c == '\n' then (t, ['\n'])
    else if c == '\t' then (t, "    ".toList)
    else if c.toNat == 0x07 then (t, [])
    else if c.toNat ≥ 0x20 || c == '\n' || c == '\t' then (t, [c])
    else (t, [])
  | AnsiState.ANSI_ESC =>
    if c == '[' then ({ t with ansiSeq := t.ansiSeq ++ [c], ansiState := AnsiState.ANSI_CSI }, [])
    else ({ t with ansiSeq := [], ansiState := AnsiState.ANSI_TEXT }, t.ansiSeq ++ [c])
  | AnsiState.ANSI_CSI =>
    if c.toNat == 0x07 then
      ({ t with ansiSeq := [], ansiState := AnsiState.ANSI_TEXT }, t.ansiSeq ++ [c])
    else if '@'.toNat ≤ c.toNat && c.toNat ≤ '~'.toNat then
      let t1 := if c == 'J' && (t.ansiSeq ++ [c]).contains '2' then clearScreen t else t
      ({ t1 with ansiSeq := [], ansiState := AnsiState.ANSI_TEXT }, t.ansiSeq ++ [c])
    else ({ t with ansiSeq := t.ansiSeq ++ [c] }, [])

/-- The `for` loop of `sanitizeAndApplyANSI`; `out` is its local. -/
def sanitizeLoop : Str → Tab → Str → Tab × Str
  | [], t, out => (t, out)
  | c :: rest, t, out =>
    sanitizeLoop rest (sanitizeStep c rest.head? t).1 (out ++ (sanitizeStep c rest.head? t).2)

/-- `TerminalWindow::sanitizeAndApplyANSI(t, data, n)`: the tab afterwards and the returned
string. -/
def sanitizeAndApplyANSI (t : Tab) (data : Str) : Tab × Str :=
  sanitizeLoop data t []

/-- `is_x_shutdown_noise`. -/
def is_x_shutdown_noise (s : Str) : Bool :=
  (findSubstr "X connection to ".toList s 0).isSome &&
    (findSubstr "broken (explicit kill or server shutdown)".toList s 0).isSome

/-- Consume one result of `read` from the system and record the call. -/
def World.didRead (w : World) (fd : Int) (r : ReadResult) (rest : List ReadResult) : World :=
  { w with sys := { w.sys with reads := rest }, log := w.log ++ [Event.read fd r] }

/-- The end-of-file branch of the read loop of `pumpChildOutput`: close the descriptor and set
the field it came from (`outFd` for `fdIdx == 0`, else `errFd`) to `-1`. -/
def pumpEof (isOut : Bool) (fd : Int) (w : World) : World :=
  let w1 := w.close fd
  if isOut then { w1 with tab := { w1.tab with outFd := -1 } }
  else { w1 with tab := { w1.tab with errFd := -1 } }

/-- The loop `while (true) { ssize_t n = read(fd, ...); ... }` of `pumpChildOutput` for one
descriptor, along the results the system gives to the successive reads; the Boolean is
`readSomething`. -/
def pumpReadLoop (isOut : Bool) (fd : Int) : List ReadResult → World → Bool → World × Bool
  | [], w, readSomething => (w.didRead fd ReadResult.again [], readSomething)
  | ReadResult.data bytes :: rest, w, readSomething =>
    if bytes.isEmpty then (pumpEof isOut fd (w.didRead fd (ReadResult.data bytes) rest),
      readSomething)
    else
      let w1 := w.didRead fd (ReadResult.data bytes) rest
      let r := sanitizeAndApplyANSI w1.tab bytes
      let w2 := { w1 with tab := r.1 }
      let w3 := if !r.2.isEmpty && !is_x_shutdown_noise r.2 then w2.appendOutput r.2 else w2
      pumpReadLoop isOut fd rest w3 true
  | ReadResult.eof :: rest, w, readSomething =>
    (pumpEof isOut fd (w.didRead fd ReadResult.eof rest), readSomething)
  | ReadResult.again :: rest, w, readSomething =>
    (w.didRead fd ReadResult.again rest, readSomething)
  | ReadResult.error :: rest, w, readSomething =>
    (w.didRead fd ReadResult.error rest, readSomething)

/-- `waitpid(pid, &status, WNOHANG) == pid`: the child has exited and is reaped now. -/
def World.waitpid (w : World) (pid : Int) : World × Bool :=
  let r := w.sys.exited.contains pid
  ({ w with sys := { w.sys with exited := w.sys.exited.erase pid },
            log := w.log ++ [Event.waitpid pid r] }, r)

/-- The part "Reap if finished" of `pumpChildOutput` once `waitpid` has returned the
foreground pid, up to its final `runNextCommand(t)`. -/
def reapForeground (w : World) : World :=
  let w1 := { w with tab := { w.tab with childPid := -1, childPgid := -1 } }
  let w2 := if w1.tab.inFdWrite ≥ 0 then
      { (w1.close w1.tab.inFdWrite) with tab := { w1.tab with inFdWrite := -1 } } else w1
  let w3 := append_sep_if_queued w2
  if w3.tab.watchActive then
    { w3 with tab := { w3.tab with scrollback := w3.tab.savedScrollbackBeforeWatch,
                                   watchActive := false, scrollOffsetLines := 0,
                                   scrollOffsetTargetLines := 0 } }
  else w3

/-- `pumpChildOutput` up to the reaping: both read loops and the scroll update. -/
def pumpReads (w : World) : World :=
  let a := if w.tab.outFd < 0 then (w, false) else pumpReadLoop true w.tab.outFd w.sys.reads w false
  let b := if a.1.tab.errFd < 0 then a
    else pumpReadLoop false a.1.tab.errFd a.1.sys.reads a.1 a.2
  if b.2 then
    { b.1 with tab := { b.1.tab with scrollOffsetTargetLines := b.1.tab.scrollOffsetLines } }
  else b.1

/-- `TerminalWindow::pumpChildOutput` on the active tab. -/
def pumpChildOutput (w : World) : World :=
  let w1 := pumpReads w
  if w1.tab.childPid > 0 then
    let r := w1.waitpid w1.tab.childPid
    if r.2 then runNextCommand (reapForeground r.1) else r.1
  else w1

/-! ## What the children execute (`expandGlobs`, `execvp`) -/

/-- `expandGlobs`: every argument is replaced by the path names `glob` finds for it; without a
match (`GLOB_NOCHECK` gives the pattern back) or on failure the argument itself is kept. -/
def expandGlobs (sys : Sys) (args : List Str) : List Str :=
  args.flatMap (fun arg =>
    match sys.globs.lookup (c_str arg) with
    | some (m :: ms) => m :: ms
    | _ => [arg])

/-- The argument vector a forked child hands to `execvp`: `expandGlobs` of the `argv` the
parent built for it (nothing for the helpers that do not `exec`). -/
def Child.execArgv (sys : Sys) : Child → List Str
  | Child.stage argv _ _ _ _ _ => expandGlobs sys argv
  | Child.pty argv _ => expandGlobs sys argv
  | Child.supervisor _ _ _ => []
  | Child.keeper _ => []

/-- The children forked so far, in order, as recorded in the log. -/
def forkedChildren : List Event → List Child
  | [] => []
  | Event.fork child _ :: rest => child :: forkedChildren rest
  | _ :: rest => forkedChildren rest

/-- The wiring of stdin and stdout of a pipeline stage (nothing for the other children). -/
def Child.wires : Child → Option (Wire × Wire)
  | Child.stage _ stdin stdout _ _ _ => some (stdin, stdout)
  | _ => none

/-! ## The watch supervisor: framing of one channel (`multiWatch`, the `poll` loop) -/

/-- The separator literal `sep` of the supervisor, the same at its six occurrences. -/
def watchSep : Str :=
  "----------------------------------------------------\n".toList

/-- The header built in the branches "first data on `POLLIN`", "end of file on `POLLIN`" and
"hang-up without output". -/
def watchHeader (cmd : Str) (now : Int) : Str :=
  ['"'] ++ cmd ++ "\" , current_time: ".toList ++ to_string now ++ " :\n".toList

/-- The header built in the drain loop of the `POLLHUP | POLLERR` branch. -/
def watchHeaderDrain (cmd : Str) (now : Int) : Str :=
  ['"'] ++ cmd ++ "\" , ".toList ++ to_string now ++ " :\n".toList

/-- What a `write(STDOUT_FILENO, ...)` of the supervisor carries. -/
inductive WatchKind where
  | header
  | separator
  | data
  deriving DecidableEq, Repr

/-- One channel of a round while its `pollfd` is handled: `pfds[j].fd`, `headerPrinted[j]`,
`trailerPrinted[j]`, the writes made for it so far, the descriptors closed (each close comes
with `--openCount`), the number of `unlink` calls, and the results the system still has for
the reads of this channel. -/
structure WatchChan where
  fd : Int
  headerPrinted : Bool := false
  trailerPrinted : Bool := false
  written : List (WatchKind × Str) := []
  closed : List Int := []
  unlinks : Nat := 0
  reads : List ReadResult := []
  deriving DecidableEq, Repr

/-- The block `if (!headerPrinted[j]) { ... }`: write the header `hdr` and the separator. -/
def WatchChan.printHeader (ch : WatchChan) (hdr : Str) : WatchChan :=
  if !ch.headerPrinted then
    { ch with written := ch.written ++ [(WatchKind.header, hdr), (WatchKind.separator, watchSep)],
              headerPrinted := true }
  else ch

/-- The block `if (!trailerPrinted[j]) { ... }`: write the trailing separator. -/
def WatchChan.printTrailer (ch : WatchChan) : WatchChan :=
  if !ch.trailerPrinted then
    { ch with written := ch.written ++ [(WatchKind.separator, watchSep)], trailerPrinted := true }
  else ch

/-- `close(pd.fd); pd.fd = -1; --openCount;`, with the `unlink` of the channel's path when
`doUnlink` (the path is never empty for an opened channel). -/
def WatchChan.shut (ch : WatchChan) (doUnlink : Bool) : WatchChan :=
  { ch with closed := ch.closed ++ [ch.fd], fd := -1,
            unlinks := if doUnlink then ch.unlinks + 1 else ch.unlinks }

/-- The branch `if (pd.revents & POLLIN)`: one `read`. -/
def watchPollin (cmd : Str) (now : Int) (ch : WatchChan) : WatchChan :=
  let ch1 := { ch with reads := ch.reads.drop 1 }
  match ch.reads.headD ReadResult.again with
  | ReadResult.data bytes =>
    if bytes.isEmpty then ((ch1.printHeader (watchHeader cmd now)).printTrailer).shut true
    else
      let ch2 := ch1.printHeader (watchHeader cmd now)
      { ch2 with written := ch2.written ++ [(WatchKind.data, bytes)] }
  | ReadResult.eof => ((ch1.printHeader (watchHeader cmd now)).printTrailer).shut true
  | ReadResult.again => ch1
  | ReadResult.error => ch1.shut false

/-- The loop "Drain any remaining data" of the branch `POLLHUP | POLLERR`, along the results
of the successive reads: it goes on while a read yields data. -/
def watchDrainLoop (cmd : Str) (now : Int) : List ReadResult → WatchChan → WatchChan
  | [], ch => { ch with reads := [] }
  | ReadResult.data bytes :: rest, ch =>
    if bytes.isEmpty then { ch with reads := rest }
    else
      let ch1 := ch.printHeader (watchHeaderDrain cmd now)
      watchDrainLoop cmd now rest { ch1 with written := ch1.written ++ [(WatchKind.data, bytes)] }
  | _ :: rest, ch => { ch with reads := rest }

/-- The branch `if (pd.revents & (POLLHUP | POLLERR))`.  When the `POLLIN` branch has already
closed the descriptor, `read(-1, ...)` fails at once and nothing is drained. -/
def watchHup (cmd : Str) (now : Int) (ch : WatchChan) : WatchChan :=
  let ch1 := if ch.fd < 0 then ch else watchDrainLoop cmd now ch.reads ch
  let ch2 := (ch1.printHeader (watchHeader cmd now)).printTrailer
  if ch2.fd ≥ 0 then ch2.shut true else ch2

/-- The body of `for (size_t j=0; j<pfds.size(); ++j)` for one channel whose `revents` has
`POLLIN` set iff `pollin` and `POLLHUP` or `POLLERR` set iff `pollhup`. -/
def watchHandleFd (cmd : Str) (now : Int) (pollin pollhup : Bool) (ch : WatchChan) :
    WatchChan :=
  if ch.fd < 0 then ch
  else
    let ch1 := if pollin then watchPollin cmd now ch else ch
    if pollhup then watchHup cmd now ch1 else ch1

/-- The bytes the supervisor has written for a channel, in order. -/
def WatchChan.output (ch : WatchChan) : Str :=
  (ch.written.map Prod.snd).flatten

/-- The job state of the session: the foreground job (`childPid`, `childPgid`, `outFd`,
`errFd`, `inFdWrite`) and the list of background jobs. -/
def jobState (w : World) : Int × Int × Int × Int × Int × List BackgroundJob :=
  (w.tab.childPid, w.tab.childPgid, w.tab.outFd, w.tab.errFd, w.tab.inFdWrite,
    w.tab.backgroundJobs)

/-- The input of a session is blank: empty or white space only (`submitInputLine` then queues
nothing). -/
def blankInput (w : World) : Bool :=
  w.tab.input.isEmpty || isWhitespaceOnly w.tab.input

/-- A session with a foreground job and two commands typed on one line: the instance used to
exercise the queueing theorems. -/
def busyExample : World :=
  { tab := { childPid := 4242, childPgid := 4242, outFd := 7, errFd := 8,
             input := "ls; pwd".toList, pendingCmds := [("make".toList, false)] } }

/-- An idle session at the prompt with the unterminated line `echo 'foo bar` typed. -/
def unterminatedExample : World :=
  { tab := { input := "echo 'foo bar".toList, pendingCmds := [("make".toList, false)] } }

/-- An idle session with `echo done` queued: the state in which the built-ins are run to see
whether they dequeue it. -/
def queuedExample : World :=
  { tab := { pendingCmds := [("echo done".toList, false)] } }

/-- The same session in an environment whose `HOME` is the empty string. -/
def queuedExampleEmptyHome : World :=
  { tab := { pendingCmds := [("echo done".toList, false)] },
    sys := { env := [("HOME".toList, [])] } }

/-- An idle session with `echo done` queued, on a system where `openpty` yields the
descriptors 3 and 4 and `fork` the child 100. -/
def ptyExample : World :=
  { tab := { pendingCmds := [("echo done".toList, false)] },
    sys := { ptys := [some (3, 4)], forks := [some 99] } }

/-- An idle session with `echo done` queued, on a system with four pipes and two children
to give. -/
def pipesExample : World :=
  { tab := { pendingCmds := [("echo done".toList, false)] },
    sys := { pipes := [some (5, 6), some (7, 8), some (9, 10), some (11, 12)],
             forks := [some 99, some 100] } }

/-- Two states with the same queue of pending commands and the same record of entries into
`executeLineInternal`. -/
def SameQueue (w v : World) : Prop :=
  v.tab.pendingCmds = w.tab.pendingCmds ∧ v.entries = w.entries

/-! ## Specification-side vocabulary for the parser claims

The claims about the parser speak of characters "outside single and double quotes" and of
"the quote characters that open or close a quoted region".  The definitions below give these
words a meaning that does not depend on the C++ loops: a three-state scanner, the annotation of
every character with the mode in force before it, and the cutting of the annotated line. -/

/-- Quoting mode of a left-to-right scan of a line. -/
inductive QMode where
  | outside
  | inSingle
  | inDouble
  deriving DecidableEq, Repr

/-- One step of the scan: `"` toggles double-quote mode outside single quotes, `'` toggles
single-quote mode outside double quotes, every other character leaves the mode alone. -/
def QMode.next : QMode → Char → QMode
  | .outside, c => if c = '"' then .inDouble else if c = '\'' then .inSingle else .outside
  | .inSingle, c => if c = '\'' then .outside else .inSingle
  | .inDouble, c => if c = '"' then .outside else .inDouble

/-- The value of the C++ flag `inS`/`inSingle` in a mode. -/
def QMode.isSingle : QMode → Bool
  | .inSingle => true
  | _ => false

/-- The value of the C++ flag `inD`/`inDouble` in a mode. -/
def QMode.isDouble : QMode → Bool
  | .inDouble => true
  | _ => false

/-- The mode after scanning a whole string from mode `m`. -/
def QMode.scan (m : QMode) (s : Str) : QMode :=
  s.foldl QMode.next m

/-- Every character of the line paired with the mode in force just before it. -/
def annotate : QMode → Str → List (Char × QMode)
  | _, [] => []
  | m, c :: rest => (c, m) :: annotate (m.next c) rest

/-- A quote character that opens or closes a quoted region: it changes the mode. -/
def isQuoteDelim (x : Char × QMode) : Bool :=
  x.2.next x.1 != x.2

/-- A separator character (`sep`) that lies outside single and double quotes. -/
def isUnquoted (sep : Char → Bool) (x : Char × QMode) : Bool :=
  !x.2.isSingle && !x.2.isDouble && sep x.1

/-- The text of a piece of the annotated line, the opening and closing quotes deleted. -/
def stripDelims (p : List (Char × QMode)) : Str :=
  (p.filter (fun x => !isQuoteDelim x)).map Prod.fst

/-- Cut the line at exactly the unquoted separator characters, delete the quote delimiters of
every piece, keep the non-empty pieces. -/
def cutOutsideQuotes (sep : Char → Bool) (s : Str) : List Str :=
  (((annotate QMode.outside s).splitOnP (isUnquoted sep)).map stripDelims).filter
    (fun p => !p.isEmpty)

/-- Space or tab: the separators of `splitArgs`. -/
def isBlank (c : Char) : Bool := c == ' ' || c == '\t'

/-- The pipe character: the separator of `splitPipeline`. -/
def isPipe (c : Char) : Bool := c == '|'

/-- The specification of `splitArgs` in the words of the contract `parseArgs`: split on unquoted
space or tab, strip the quote delimiters, keep the non-empty tokens. -/
def specSplitArgs (s : Str) : List Str := cutOutsideQuotes isBlank s

/-- The specification of `splitPipeline` in the words of the contract `splitPipelineStages`:
split on unquoted `|`. -/
def specSplitPipeline (s : Str) : List Str := cutOutsideQuotes isPipe s

/-- The characters of the line that are neither an unquoted separator nor a quote delimiter,
in order. -/
def keptChars (sep : Char → Bool) (s : Str) : Str :=
  ((annotate QMode.outside s).filter (fun x => !isUnquoted sep x && !isQuoteDelim x)).map Prod.fst

/-- Number of separator characters of the line that lie outside quotes. -/
def countUnquoted (sep : Char → Bool) (s : Str) : Nat :=
  ((annotate QMode.outside s).filter (isUnquoted sep)).length

/-- The common shape of the loops of `splitArgs` and `splitPipeline`, with the separator test
as a parameter; used only to prove both against `cutOutsideQuotes` at once. -/
def cutLoop (sep : Char → Bool) : Str → List Str → Str → Bool → Bool → List Str
  | [], out, cur, _, _ => if !cur.isEmpty then out ++ [cur] else out
  | c :: rest, out, cur, inS, inD =>
    if c == '"' && !inS then cutLoop sep rest out cur inS (!inD)
    else if c == '\'' && !inD then cutLoop sep rest out cur (!inS) inD
    else if !inS && !inD && sep c then
      if !cur.isEmpty then cutLoop sep rest (out ++ [cur]) [] inS inD
      else cutLoop sep rest out cur inS inD
    else cutLoop sep rest out (cur ++ [c]) inS inD

/-! ## Vocabulary and instances for the job-control claims -/

/-- A session whose foreground job 4242 has reached end of file on both descriptors (they are
`-1`) while the process still runs. -/
def silentJobExample : World :=
  { tab := { childPid := 4242, childPgid := 4242, outFd := -1, errFd := -1 } }

/-- A session with the foreground job 4242 on the pipes 7 and 8 and `sleep 9` queued, on a
system where `openpty` yields the descriptors 3 and 4 and `fork` the child 100. -/
def detachQueuedExample : World :=
  { tab := { childPid := 4242, childPgid := 4242, outFd := 7, errFd := 8,
             pendingCmds := [("sleep 9".toList, false)] },
    sys := { ptys := [some (3, 4)], forks := [some 99] } }

/-- A session with the foreground job 4242 on the pipes 7 and 8 and nothing queued. -/
def detachExample : World :=
  { tab := { childPid := 4242, childPgid := 4242, outFd := 7, errFd := 8,
             backgroundJobs := [{ pid := 11, pgid := 11, outFd := 5, errFd := 6,
                                  cmd := "yes".toList, isPty := false }] } }

/-- A `kill` or `killpg` call. -/
def isSignal : Event → Bool
  | Event.kill _ _ => true
  | Event.killpg _ _ => true
  | _ => false

/-- The signals sent so far, in order. -/
def signalsSent (log : List Event) : List Event :=
  log.filter isSignal

/-- The test of the built-ins `kill` and `killprocess` for a valid pid argument: the token is
not empty, `strtol` consumes all of it, and the value is positive. -/
def validPidArg (spid : Str) : Bool :=
  !spid.isEmpty && (strtol (c_str spid)).2.isEmpty && decide ((strtol (c_str spid)).1 > 0)

/-- The process id the built-ins derive from a valid argument: `(pid_t)v`. -/
def pidOfArg (spid : Str) : Int :=
  toPidT (strtol (c_str spid)).1

/-- A session with two background jobs: the pipeline 20/21 with process group 20 and a job 30
without process group. -/
def killExample : World :=
  { tab := { backgroundJobs :=
      [{ pid := 21, pgid := 20, outFd := 5, errFd := 6, cmd := "a | b".toList, isPty := false },
       { pid := 30, pgid := -1, outFd := 7, errFd := -1, cmd := "c".toList, isPty := false }] } }

/-! ## Specification-side vocabulary for the expansion and sanitizing claims -/

/-- A character of a variable name: alphanumeric or underscore. -/
def isNameChar (c : Char) : Bool := isalnum c || c == '_'

/-- The specification of `expandVars` in the words of the contract: with a leading `~`, the
home directory followed by the rest; otherwise the text cut at every `$`, and in every piece
that follows a `$` the maximal leading run of name characters replaced by the value of that
name in the environment (nothing when unset). -/
def specExpandVars (sys : Sys) (s : Str) : Str :=
  if s.head? = some '~' then (sys.getenv "HOME".toList).getD [] ++ s.tail
  else
    (s.splitOnP (fun c => c == '$')).headD [] ++
      ((s.splitOnP (fun c => c == '$')).drop 1).flatMap (fun q =>
        (sys.getenv (q.takeWhile isNameChar)).getD [] ++ q.dropWhile isNameChar)

/-- First pass of the text normalisation: every CR that is followed by LF is removed, so that
a CR LF pair becomes its LF. -/
def collapseCRLF : Str → Str
  | [] => []
  | c :: rest =>
    if c == '\r' && rest.head? == some '\n' then collapseCRLF rest else c :: collapseCRLF rest

/-- Second pass, on one character: a (lone) CR becomes LF, a tab four spaces, any other
control byte below 0x20 except LF is dropped, every other byte is kept. -/
def normChar (c : Char) : Str :=
  if c == '\r' then ['\n']
  else if c == '\t' then [' ', ' ', ' ', ' ']
  else if c.toNat < 0x20 && c != '\n' then []
  else [c]

/-- The specification of the text normalisation of the output pump. -/
def specNormalize (s : Str) : Str :=
  (collapseCRLF s).flatMap normChar

/-! ## Specification-side vocabulary for the wiring of the stages

The pipe between stage `k` and stage `k + 1` occupies the slots `2 * k` (read end) and
`2 * k + 1` (write end) of `pipesFD`. -/

/-- The read end of the pipe from stage `k` to stage `k + 1`. -/
def pipeReadEnd (pipesFD : List Int) (k : Nat) : Int := pipesFD.getD (2 * k) (-1)

/-- The write end of the pipe from stage `k` to stage `k + 1`. -/
def pipeWriteEnd (pipesFD : List Int) (k : Nat) : Int := pipesFD.getD (2 * k + 1) (-1)

/-- The stdin of stage `i` by precedence: the input file, else the pipe from stage `i - 1`,
else the read end of the session's stdin pipe when that pipe exists, else what the terminal
process itself has as stdin. -/
def specStdin (rinfo : Redir) (i : Nat) (pipesFD : List Int) (stdinPipe : Option (Int × Int)) :
    Wire :=
  if rinfo.in ≠ [] then Wire.file rinfo.in false
  else if 0 < i then Wire.fd (pipeReadEnd pipesFD (i - 1))
  else match stdinPipe with
    | some sp => Wire.fd sp.1
    | none => Wire.inherited

/-- The stdout of stage `i` of `n` by precedence: the output file, else the pipe to stage
`i + 1`, else the write end `outWr` of the session's stdout pipe. -/
def specStdout (rinfo : Redir) (i n : Nat) (pipesFD : List Int) (outWr : Int) : Wire :=
  if rinfo.out ≠ [] then Wire.file rinfo.out rinfo.append
  else if i + 1 < n then Wire.fd (pipeWriteEnd pipesFD i)
  else Wire.fd outWr

/-- The wiring by precedence of the stages `stages`, the first of them having index `i`. -/
def specWiring (n : Nat) (pipesFD : List Int) (stdinPipe : Option (Int × Int)) (outWr : Int) :
    Nat → List Str → List (Wire × Wire)
  | _, [] => []
  | i, st :: rest =>
    (specStdin (parseCmdWithRedir st {}).2 i pipesFD stdinPipe,
      specStdout (parseCmdWithRedir st {}).2 i n pipesFD outWr) ::
      specWiring n pipesFD stdinPipe outWr (i + 1) rest

/-- An idle session on a system where the first `pipe` call fails, the next two succeed and
`fork` yields the child 100. -/
def noStdinPipeExample : World :=
  { sys := { pipes := [none, some (9, 10), some (11, 12)], forks := [some 99] } }

/-- An idle session on a system with `HOME=/root` where `openpty` yields the descriptors 3 and
4 and `fork` the child 100. -/
def homeExample : World :=
  { sys := { env := [("HOME".toList, "/root".toList)], ptys := [some (3, 4)],
             forks := [some 99] } }

/-- An idle session on a system whose `pipe` calls yield (7, 10) and (8, 11), `openpty` the
descriptors 3 and 4 and `fork` the children 100 and 101; the child 100 will have exited when
the output pump next asks. -/
def spawnExample : World :=
  { sys := { pipes := [some (7, 10), some (8, 11)], ptys := [some (3, 4)],
             forks := [some 99, some 100], exited := [100] } }

/-- The session of `spawnExample` after `sort < in.txt` has been started: the foreground job
100 with the descriptors 7 and 8, on which nothing is to be read yet. -/
def exitedJobExample : World :=
  executeLineInternal spawnExample "sort < in.txt".toList false

/-- The session of `exitedJobExample` with `sleep 9` queued behind the running job. -/
def exitedJobQueuedExample : World :=
  { exitedJobExample with
    tab := { exitedJobExample.tab with pendingCmds := [("sleep 9".toList, false)] } }

/-- The separator lines written for a channel so far, in order. -/
def separatorsWritten (ch : WatchChan) : List Str :=
  (ch.written.filter (fun x => x.1 == WatchKind.separator)).map Prod.snd

/-- From `a` to `b` the only separator lines written are copies of `watchSep`. -/
def SepExt (a b : WatchChan) : Prop :=
  ∃ k, separatorsWritten b = separatorsWritten a ++ List.replicate k watchSep

/-! ## `History`: search and persistence (`History.cpp`) -/

/-- The conversion `(int)n` of a `size_t` to the 32-bit `int`. -/
def toInt32 (n : Nat) : Int :=
  ((n : Int) + 2 ^ 31) % 2 ^ 32 - 2 ^ 31

/-- The loop `for (int i = k - 1; i >= 0; --i) if (h_[i] == term) return i;` of
`History::search`. -/
def findLastEq (h_ : List Str) (term : Str) : Nat → Option Nat
  | 0 => none
  | i + 1 => if h_.getD i [] == term then some i else findLastEq h_ term i

/-- The loop `for (int i = 0; i < k; ++i) if (h_[i].find(term) != npos) return i;` of
`History::search`, on the entries from index `i` on. -/
def findFirstContaining (term : Str) : List Str → Nat → Option Nat
  | [], _ => none
  | e :: rest, i =>
    if (findSubstr term e 0).isSome then some i else findFirstContaining term rest (i + 1)

/-- `History::search`. -/
def History.search (h : History) (term : Str) : Int :=
  if term.isEmpty then -1
  else
    let k := (toInt32 h.h_.length).toNat
    match findLastEq h.h_ term k with
    | some i => (i : Int)
    | none =>
      if term.length ≤ 2 then -1
      else
        match findFirstContaining term (h.h_.take k) 0 with
        | some i => (i : Int)
        | none => -1

/-- The lines `std::getline` yields for a file with the content `content`: the text between
the newlines, a last line without newline included when it is not empty. -/
def getlines (content : Str) : List Str :=
  let parts := content.splitOn '\n'
  if parts.getLast? == some [] then parts.dropLast else parts

/-- `History::loadFromFile`; `file` is the content of the file, `none` when it cannot be
opened. -/
def History.loadFromFile (h : History) (file : Option Str) : History :=
  match file with
  | none => h
  | some content =>
    let tmp := (getlines content).filter (fun line => !line.isEmpty)
    let start := if tmp.length > h.cap_ then tmp.length - h.cap_ else 0
    (tmp.drop start).foldl History.add h

/-- An operation on a history. -/
inductive HistOp where
  | add (cmd : Str)
  | clear
  | loadFromFile (file : Option Str)
  deriving DecidableEq, Repr

/-- Apply one operation. -/
def History.apply (h : History) : HistOp → History
  | HistOp.add cmd => h.add cmd
  | HistOp.clear => h.clear
  | HistOp.loadFromFile file => h.loadFromFile file

/-- The history `History(cap)` after the operations `ops`, in order. -/
def History.run (cap : Nat) (ops : List HistOp) : History :=
  ops.foldl History.apply { cap_ := cap, h_ := [] }

/-- The invariant of a history: at most `cap_` entries, none empty, no two adjacent ones
equal. -/
def History.WellFormed (h : History) : Prop :=
  h.h_.length ≤ h.cap_ ∧ [] ∉ h.h_ ∧ h.h_.Chain' (fun a b => a ≠ b)

/-! ## `History::bestSubstringMatches` and `lcs_substr_len` (`History.cpp`)

The lengths of the strings are taken to fit the `int` of the source. -/

/-- The loop over `j` for one row of the table of `lcs_substr_len`, from some `j` on: `ai` is
`a[i-1]`, the string holds `b[j-1], b[j], ...`, the list `prev[j-1], prev[j], ...`; the result
is `cur[j], cur[j+1], ...` and `best`. -/
def lcsRow (ai : Char) : Str → List Nat → Nat → List Nat × Nat
  | [], _, best => ([], best)
  | bj :: bs, prev, best =>
    let v := if ai == bj then prev.headD 0 + 1 else 0
    let r := lcsRow ai bs prev.tail (if v > best then v else best)
    (v :: r.1, r.2)

/-- The loop over `i` of `lcs_substr_len`, from some `i` on: the rest of `a`, the vector `prev`
and `best`.  After a row, `cur` (whose slot 0 is never written and stays 0) becomes `prev`. -/
def lcsRows (b : Str) : Str → List Nat → Nat → Nat
  | [], _, best => best
  | ai :: rest, prev, best =>
    lcsRows b rest (0 :: (lcsRow ai b prev best).1) (lcsRow ai b prev best).2

/-- `lcs_substr_len(a, b)`. -/
def lcs_substr_len (a b : Str) : Nat :=
  if a.isEmpty || b.isEmpty then 0 else lcsRows b a (List.replicate (b.length + 1) 0) 0

/-- The loop of `bestSubstringMatches` over the entries from the most recent one on, with its
locals `results`, `seen` and `bestLen`. -/
def bestSubstringLoop (term : Str) : List Str → List Str → List Str → Nat → List Str
  | [], results, _, _ => results
  | cmd :: rest, results, seen, bestLen =>
    if cmd ∈ seen then bestSubstringLoop term rest results seen bestLen
    else if min cmd.length term.length < bestLen then
      bestSubstringLoop term rest results seen bestLen
    else if lcs_substr_len cmd term > bestLen then
      if lcs_substr_len cmd term > 2 then
        bestSubstringLoop term rest [cmd] (cmd :: seen) (lcs_substr_len cmd term)
      else bestSubstringLoop term rest [] seen (lcs_substr_len cmd term)
    else if lcs_substr_len cmd term == bestLen && decide (lcs_substr_len cmd term > 2) then
      bestSubstringLoop term rest (results ++ [cmd]) (cmd :: seen) bestLen
    else bestSubstringLoop term rest results seen bestLen

/-- `History::bestSubstringMatches`. -/
def History.bestSubstringMatches (h : History) (term : Str) : List Str :=
  if term.isEmpty then []
  else bestSubstringLoop term (h.h_.take (toInt32 h.h_.length).toNat).reverse [] [] 0

/-- The common substrings of `a` and `b`: the prefixes of the suffixes of `a` that occur in
`b`. -/
def commonSubstrings (a b : Str) : List Str :=
  (a.tails.flatMap List.inits).filter (fun w => decide (w <:+: b))

/-- The longest-common-substring length of `a` and `b`. -/
def specLcs (a b : Str) : Nat :=
  ((commonSubstrings a b).map List.length).foldr max 0

/-- The maximum over the entries of their longest-common-substring length with `term`. -/
def maxLcs (entries : List Str) (term : Str) : Nat :=
  (entries.map (fun e => specLcs e term)).foldr max 0

/-- The specification of `bestSubstringMatches`: nothing when the maximum is at most 2,
otherwise the entries that reach the maximum, each once at its most recent occurrence, the
most recent first. -/
def specBestMatches (entries : List Str) (term : Str) : List Str :=
  if maxLcs entries term ≤ 2 then []
  else ((entries.filter (fun e => specLcs e term == maxLcs entries term)).dedup).reverse

/-- The length of the longest common prefix. -/
def commonPrefixLen : Str → Str → Nat
  | c :: u, d :: v => if c == d then commonPrefixLen u v + 1 else 0
  | _, _ => 0

/-- The length of the longest common suffix. -/
def commonSuffixLen (x y : Str) : Nat :=
  commonPrefixLen x.reverse y.reverse

/-- `n` is the length of a longest common substring of `a` and `b`. -/
def IsLcsLen (a b : Str) (n : Nat) : Prop :=
  (∃ w : Str, w.length = n ∧ w <:+: a ∧ w <:+: b) ∧
    ∀ w : Str, w <:+: a → w <:+: b → w.length ≤ n

/-! ## The watch supervisor: one round of the `poll` loop (`multiWatch`) -/

/-- One command of a round after the loop that forks the commands: whether `fork` succeeded
(then `paths[i]` is set), the result `rfd` of opening its FIFO, and the results the system has
for the reads of that descriptor. -/
structure WatchInput where
  cmd : Str
  forked : Bool := true
  rfd : Int
  reads : List ReadResult := []
  deriving DecidableEq, Repr

/-- The state of the `poll` loop: for every entry of `pfds` the command text
`cmds[fdIndexToCmdIdx[j]]` used in its header and the state of the channel, and `openCount`
(an `Int` here, so that a decrement below 0 would show). -/
structure WatchRound where
  chans : List (Str × WatchChan) := []
  openCount : Int := 0
  deriving DecidableEq, Repr

/-- The state before the loop: `pfds` holds the descriptors that could be opened, in order,
`fdIndexToCmdIdx` the first `pfds.size()` commands whose path is set, `openCount` is
`pfds.size()`. -/
def WatchRound.fresh (inputs : List WatchInput) : WatchRound :=
  let pfds := inputs.filter (fun c => c.forked && decide (c.rfd ≥ 0))
  let labels := (inputs.filter (fun c => c.forked)).map (fun c => c.cmd)
  { chans := List.zipWith (fun l c => (l, ({ fd := c.rfd, reads := c.reads } : WatchChan)))
      labels pfds,
    openCount := pfds.length }

/-- What a call of `poll` gives: `EINTR`, another failure, the timeout, or `revents` for the
entries of `pfds` (for each, whether `POLLIN` is set and whether `POLLHUP` or `POLLERR` is),
with the value `time(nullptr)` has while they are handled. -/
inductive PollResult where
  | eintr
  | failed
  | timeout
  | ready (now : Int) (revents : List (Bool × Bool))
  deriving DecidableEq, Repr

/-- The loop `for (size_t j=0; j<pfds.size(); ++j)` over the channels from some `j` on. -/
def watchHandleAll (now : Int) : List (Str × WatchChan) → List (Bool × Bool) →
    List (Str × WatchChan)
  | [], _ => []
  | c :: rest, revs =>
    (c.1, watchHandleFd c.1 now (revs.headD (false, false)).1 (revs.headD (false, false)).2 c.2)
      :: watchHandleAll now rest revs.tail

/-- The number of `close` calls made for the channels so far. -/
def closeCount (chans : List (Str × WatchChan)) : Nat :=
  (chans.map (fun c => c.2.closed.length)).sum

/-- The body of the loop after `poll` has reported events: every channel is handled, and
`openCount` has been decremented once for every `close`. -/
def WatchRound.handle (st : WatchRound) (now : Int) (revents : List (Bool × Bool)) :
    WatchRound :=
  { chans := watchHandleAll now st.chans revents,
    openCount := st.openCount -
      ((closeCount (watchHandleAll now st.chans revents) : Int) - (closeCount st.chans : Int)) }

/-- How far the `poll` loop has come: still running when the observed calls of `poll` are used
up, ended because its condition `openCount > 0 && !pfds.empty()` is false, or left by `break`
after `poll` failed. -/
inductive LoopExit where
  | running
  | conditionFalse
  | pollFailed
  deriving DecidableEq, Repr

/-- The loop `while (openCount > 0 && !pfds.empty())` along the results of the successive
calls of `poll`. -/
def watchPollLoop : List PollResult → WatchRound → WatchRound × LoopExit
  | [], st =>
    (st, if st.openCount > 0 ∧ st.chans ≠ [] then LoopExit.running else LoopExit.conditionFalse)
  | PollResult.eintr :: rest, st =>
    if st.openCount > 0 ∧ st.chans ≠ [] then watchPollLoop rest st
    else (st, LoopExit.conditionFalse)
  | PollResult.failed :: _, st =>
    if st.openCount > 0 ∧ st.chans ≠ [] then (st, LoopExit.pollFailed)
    else (st, LoopExit.conditionFalse)
  | PollResult.timeout :: rest, st =>
    if st.openCount > 0 ∧ st.chans ≠ [] then watchPollLoop rest st
    else (st, LoopExit.conditionFalse)
  | PollResult.ready now revents :: rest, st =>
    if st.openCount > 0 ∧ st.chans ≠ [] then watchPollLoop rest (st.handle now revents)
    else (st, LoopExit.conditionFalse)

/-- Nothing has been written for the channel. -/
def Blank (ch : WatchChan) : Prop :=
  ch.headerPrinted = false ∧ ch.trailerPrinted = false ∧ ch.written = []

/-- The writes for the channel so far are the header, the separator, then data only. -/
def Headed (ch : WatchChan) : Prop :=
  ch.headerPrinted = true ∧ ch.trailerPrinted = false ∧
    ∃ n, ch.written.map Prod.fst =
      WatchKind.header :: WatchKind.separator :: List.replicate n WatchKind.data

/-- The block of the channel is complete: the header, the separator, data only, and the
trailing separator. -/
def Trailed (ch : WatchChan) : Prop :=
  ch.headerPrinted = true ∧ ch.trailerPrinted = true ∧
    ∃ n, ch.written.map Prod.fst =
      WatchKind.header :: WatchKind.separator ::
        (List.replicate n WatchKind.data ++ [WatchKind.separator])

/-- The channel is open and was never closed, or it is closed and was closed once. -/
def ClosedOnce (ch : WatchChan) : Prop :=
  (ch.fd ≥ 0 ∧ ch.closed = []) ∨ (ch.fd < 0 ∧ ch.closed.length = 1)

/-- The framing of a channel: while it is open its block is not begun or not yet terminated,
and once it is closed its block is complete. -/
def Framed (ch : WatchChan) : Prop :=
  (ch.fd ≥ 0 ∧ (Blank ch ∨ Headed ch)) ∨ (ch.fd < 0 ∧ Trailed ch)

/-- The channel `c` of a later state of the loop continues the channel `c0` of the state before
the loop: same command, reads taken from those of `c0`, closed at most once, and framed as
long as no read of `c0` fails with an error. -/
def Tracks (c0 c : Str × WatchChan) : Prop :=
  c.1 = c0.1 ∧ c.2.reads <:+ c0.2.reads ∧ ClosedOnce c.2 ∧
    (ReadResult.error ∉ c0.2.reads → Framed c.2)

/-! ## Vocabulary for escape sequences -/

/-- The byte ESC. -/
def ESC : Char := Char.ofNat 0x1B

/-- A final byte of a CSI sequence: in the range `@` to `~`. -/
def isCsiFinal (c : Char) : Bool :=
  decide ('@'.toNat ≤ c.toNat) && decide (c.toNat ≤ '~'.toNat)

/-- A byte inside a CSI sequence: neither a final byte nor BEL. -/
def isCsiParam (c : Char) : Bool :=
  !isCsiFinal c && !(c.toNat == 0x07)

/-- The tab after a complete escape sequence: the parser is back in `ANSI_TEXT` with an empty
`ansiSeq`, and the scrollback is cleared when `clear`. -/
def afterSequence (t : Tab) (clear : Bool) : Tab :=
  { (if clear then clearScreen t else t) with ansiSeq := [], ansiState := AnsiState.ANSI_TEXT }

/-! ## The child after a failed `execvp` -/

/-- The value of `errno` for a missing file. -/
def ENOENT : Int := 2

/-- What a child does that is visible from outside once `execvp` has returned: a `write`, or
the end of the process by `_exit`. -/
inductive ProcEvent where
  | write (fd : Int) (bytes : Str)
  | exited (status : Int)
  deriving DecidableEq, Repr

/-- The execution of a sequence of statements: `_exit` does not return, so what follows it is
not executed. -/
def runToExit : List ProcEvent → List ProcEvent
  | [] => []
  | ProcEvent.exited status :: _ => [ProcEvent.exited status]
  | ProcEvent.write fd bytes :: rest => ProcEvent.write fd bytes :: runToExit rest

/-- The block after `execvp(cargv[0], cargv.data())`, the same text at the three spawn sites,
for the value `errno` has when `execvp` returns: the message is written to `STDERR_FILENO`
(the write is taken to be complete), then `_exit(127)`.  `strerror` gives the platform's
error string; `none` stands for `cargv[0] == nullptr`, for which `std::string(cargv[0])` is
undefined. -/
def execFailedBlock (strerror : Int → Str) (cargv : List Str) (errno : Int) :
    Option (List ProcEvent) :=
  match cargv with
  | [] => none
  | cargv0 :: _ =>
    some [ProcEvent.write 2 (cargv0 ++ ": ".toList ++
        (if errno == ENOENT then "command not found".toList else strerror errno) ++ "\n".toList),
      ProcEvent.exited 127]

/-- A child from `auto expanded_argv = expandGlobs(argv)` on when `execvp` fails with `errno`:
`cargv` holds the `c_str()` of the expanded arguments; `after` is whatever code follows the
block in the text of the function. -/
def execChildFails (sys : Sys) (strerror : Int → Str) (errno : Int) (after : List ProcEvent)
    (argv : List Str) : Option (List ProcEvent) :=
  (execFailedBlock strerror ((expandGlobs sys argv).map c_str) errno).map
    (fun block => runToExit (block ++ after))

/-- What a forked child does when its `execvp` fails with `errno` (nothing for the helpers that
do not `exec`). -/
def Child.execFails (sys : Sys) (strerror : Int → Str) (errno : Int) (after : List ProcEvent) :
    Child → Option (List ProcEvent)
  | Child.stage argv _ _ _ _ _ => execChildFails sys strerror errno after argv
  | Child.pty argv _ => execChildFails sys strerror errno after argv
  | Child.supervisor _ _ _ => none
  | Child.keeper _ => none

/-- `TerminalWindow::spawnProcess(argv)` in the parent (the function has no caller): the three
pipes, the fork of the child wired to them, and the registration of the job. -/
def spawnProcess (w : World) (argv : List Str) : World :=
  if argv.isEmpty then w
  else
    let po := w.pipe
    match po.2 with
    | none => po.1.appendOutput "pipe() failed\n".toList
    | some outPipe =>
      let pe := po.1.pipe
      match pe.2 with
      | none => pe.1.appendOutput "pipe() failed\n".toList
      | some errPipe =>
        let pi := pe.1.pipe
        match pi.2 with
        | none => pi.1.appendOutput "pipe() failed\n".toList
        | some inPipe =>
          let f := pi.1.fork (Child.stage argv (Wire.fd inPipe.1) (Wire.fd outPipe.2)
            (Wire.fd errPipe.2) true (-1))
          if f.2 < 0 then
            ((((f.1.appendOutput "fork() failed\n".toList).close outPipe.1).close
              outPipe.2).close errPipe.1).close errPipe.2
          else
            let w1 := ((f.1.close inPipe.1).close outPipe.2).close errPipe.2
            let w2 := { w1 with tab := { w1.tab with childPid := f.2, childPgid := f.2,
                                                     outFd := outPipe.1, errFd := errPipe.1,
                                                     inFdWrite := inPipe.2 } }
            (w2.emit (Event.nonblock outPipe.1)).emit (Event.nonblock errPipe.1)

/-- The children forked between the states `w` and `v`. -/
def forkedBy (w v : World) : List Child :=
  (forkedChildren v.log).drop (forkedChildren w.log).length

/-- The program a child executes for the first word `prog` of its command: the first path name
`glob` finds for the word, the word itself when it finds none, up to a NUL. -/
def specProgram (sys : Sys) (prog : Str) : Str :=
  match sys.globs.lookup (c_str prog) with
  | some (m :: _) => c_str m
  | _ => c_str prog

/-- From `w` to `v` children have only been added to those forked, and every child added
satisfies `P`. -/
def Forks (P : Child → Prop) (w v : World) : Prop :=
  ∃ cs, forkedChildren v.log = forkedChildren w.log ++ cs ∧ ∀ c ∈ cs, P c

/-- The child executes the words of one of the stages `stages`, and these are not empty. -/
def RunsStage (stages : List Str) (c : Child) : Prop :=
  ∃ st ∈ stages, (parseCmdWithRedir st {}).1 ≠ [] ∧
    ((∃ slave, c = Child.pty (parseCmdWithRedir st {}).1 slave) ∨
      ∃ i o e g j, c = Child.stage (parseCmdWithRedir st {}).1 i o e g j)

/-- A word in the sense of the redirection claims: non-empty, with no blank, quote, `<`, `>`
or `|`. -/
def PlainWord (w : Str) : Prop :=
  w ≠ [] ∧ ∀ c ∈ w, c ≠ ' ' ∧ c ≠ '\t' ∧ c ≠ '"' ∧ c ≠ '\'' ∧ c ≠ '<' ∧ c ≠ '>' ∧ c ≠ '|'

/-! ## Theorems about the line parser -/

theorem splitArgsLoop_eq_cutLoop (s : Str) (out : List Str) (cur : Str) (inS inD : Bool) :
    splitArgsLoop s out cur inS inD = cutLoop isBlank s out cur inS inD := by
  induction s generalizing out cur inS inD with
  | nil => simp [splitArgsLoop, cutLoop]
  | cons c rest ih => simp only [splitArgsLoop, cutLoop, ih, isBlank]

theorem splitPipelineLoop_eq_cutLoop (s : Str) (out : List Str) (cur : Str) (inS inD : Bool) :
    splitPipelineLoop s out cur inS inD = cutLoop isPipe s out cur inS inD := by
  induction s generalizing out cur inS inD with
  | nil => simp [splitPipelineLoop, cutLoop]
  | cons c rest ih => simp only [splitPipelineLoop, cutLoop, ih, isPipe]

theorem map_stripDelims_modifyHead_delim (x : Char × QMode) (h : isQuoteDelim x = true)
    (X : List (List (Char × QMode))) :
    (X.modifyHead (List.cons x)).map stripDelims = X.map stripDelims := by
  cases X with
  | nil => simp
  | cons p ps => simp [stripDelims, List.filter_cons, h]

theorem map_stripDelims_modifyHead_keep (x : Char × QMode) (h : isQuoteDelim x = false)
    (X : List (List (Char × QMode))) :
    (X.modifyHead (List.cons x)).map stripDelims =
      (X.map stripDelims).modifyHead (List.cons x.1) := by
  cases X with
  | nil => simp
  | cons p ps => simp [stripDelims, List.filter_cons, h]

/-- The loop invariant of `cutLoop`: with `out` already emitted and `cur` being built, the
result is `out` followed by the non-empty stripped pieces of the rest, `cur` prepended to the
first of them. -/
theorem cutLoop_spec (sep : Char → Bool) (hd : sep '"' = false) (hs : sep '\'' = false)
    (rest : Str) (m : QMode) (out : List Str) (cur : Str) :
    cutLoop sep rest out cur m.isSingle m.isDouble =
      out ++ (((((annotate m rest).splitOnP (isUnquoted sep)).map stripDelims).modifyHead
        (fun p => cur ++ p)).filter (fun p => !p.isEmpty)) := by
  induction rest generalizing m out cur with
  | nil =>
    cases cur <;> simp [cutLoop, annotate, List.splitOnP_nil, stripDelims]
  | cons c rest ih =>
    have ihO : ∀ out cur, cutLoop sep rest out cur false false = _ :=
      fun out cur => by simpa [QMode.isSingle, QMode.isDouble] using ih QMode.outside out cur
    have ihS : ∀ out cur, cutLoop sep rest out cur true false = _ :=
      fun out cur => by simpa [QMode.isSingle, QMode.isDouble] using ih QMode.inSingle out cur
    have ihD : ∀ out cur, cutLoop sep rest out cur false true = _ :=
      fun out cur => by simpa [QMode.isSingle, QMode.isDouble] using ih QMode.inDouble out cur
    by_cases h1 : c = '"'
    · subst h1
      cases m
      · have hq : isQuoteDelim ('"', QMode.outside) = true := by decide
        simp [cutLoop, annotate, QMode.next, QMode.isSingle, QMode.isDouble, List.splitOnP_cons,
          isUnquoted, hd, ihD, map_stripDelims_modifyHead_delim _ hq]
      · have hq : isQuoteDelim ('"', QMode.inSingle) = false := by decide
        simp [cutLoop, annotate, QMode.next, QMode.isSingle, QMode.isDouble, List.splitOnP_cons,
          isUnquoted, hd, ihS, map_stripDelims_modifyHead_keep _ hq, Function.comp_def]
      · have hq : isQuoteDelim ('"', QMode.inDouble) = true := by decide
        simp [cutLoop, annotate, QMode.next, QMode.isSingle, QMode.isDouble, List.splitOnP_cons,
          isUnquoted, hd, ihO, map_stripDelims_modifyHead_delim _ hq]
    · by_cases h2 : c = '\''
      · subst h2
        cases m
        · have hq : isQuoteDelim ('\'', QMode.outside) = true := by decide
          simp [cutLoop, annotate, QMode.next, QMode.isSingle, QMode.isDouble,
            List.splitOnP_cons, isUnquoted, hs, ihS, map_stripDelims_modifyHead_delim _ hq]
        · have hq : isQuoteDelim ('\'', QMode.inSingle) = true := by decide
          simp [cutLoop, annotate, QMode.next, QMode.isSingle, QMode.isDouble,
            List.splitOnP_cons, isUnquoted, hs, ihO, map_stripDelims_modifyHead_delim _ hq]
        · have hq : isQuoteDelim ('\'', QMode.inDouble) = false := by decide
          simp [cutLoop, annotate, QMode.next, QMode.isSingle, QMode.isDouble,
            List.splitOnP_cons, isUnquoted, hs, ihD, map_stripDelims_modifyHead_keep _ hq,
            Function.comp_def]
      · have hq : ∀ m, isQuoteDelim (c, m) = false := by
          intro m; cases m <;> simp [isQuoteDelim, QMode.next, h1, h2]
        cases m
        · cases hsep : sep c
          · simp [cutLoop, annotate, QMode.next, QMode.isSingle, QMode.isDouble,
              List.splitOnP_cons, isUnquoted, h1, h2, hsep, ihO,
              map_stripDelims_modifyHead_keep _ (hq _), Function.comp_def]
          · have hid : ∀ X : List Str, List.modifyHead (fun p => p) X = X := by
              intro X; cases X <;> simp
            cases cur with
            | nil =>
              simp [cutLoop, annotate, QMode.next, QMode.isSingle, QMode.isDouble,
                List.splitOnP_cons, isUnquoted, h1, h2, hsep, ihO, stripDelims, hid]
            | cons a cur =>
              simp [cutLoop, annotate, QMode.next, QMode.isSingle, QMode.isDouble,
                List.splitOnP_cons, isUnquoted, h1, h2, hsep, ihO, stripDelims, hid]
        · simp [cutLoop, annotate, QMode.next, QMode.isSingle, QMode.isDouble,
            List.splitOnP_cons, isUnquoted, h1, h2, ihS,
            map_stripDelims_modifyHead_keep _ (hq _), Function.comp_def]
        · simp [cutLoop, annotate, QMode.next, QMode.isSingle, QMode.isDouble,
            List.splitOnP_cons, isUnquoted, h1, h2, ihD,
            map_stripDelims_modifyHead_keep _ (hq _), Function.comp_def]

theorem join_filter_nonempty (L : List Str) :
    (L.filter (fun p => !p.isEmpty)).flatten = L.flatten := by
  induction L with
  | nil => rfl
  | cons p ps ih => cases p <;> simp [List.filter_cons, ih]

theorem stripDelims_cons (x : Char × QMode) (p : List (Char × QMode)) :
    stripDelims (x :: p) = stripDelims [x] ++ stripDelims p := by
  cases h : isQuoteDelim x <;> simp [stripDelims, List.filter_cons, h]

theorem join_map_stripDelims_splitOnP (P : Char × QMode → Bool) (l : List (Char × QMode)) :
    ((l.splitOnP P).map stripDelims).flatten = stripDelims (l.filter (fun x => !P x)) := by
  induction l with
  | nil => simp [List.splitOnP_nil, stripDelims]
  | cons x xs ih =>
    rw [List.splitOnP_cons]
    cases hP : P x
    · have hne := List.splitOnP_ne_nil P xs
      cases hX : List.splitOnP P xs with
      | nil => exact absurd hX hne
      | cons p ps =>
        rw [hX] at ih
        simp only [List.map_cons, List.flatten_cons] at ih
        simp only [Bool.false_eq_true, if_false, List.modifyHead_cons, List.map_cons,
          List.flatten_cons, List.filter_cons, hP, Bool.not_false, if_true]
        rw [stripDelims_cons x p, stripDelims_cons x (List.filter _ xs), List.append_assoc, ih]
    · simp [List.filter_cons, hP, ih, stripDelims]

theorem length_splitOnP (P : Char × QMode → Bool) (l : List (Char × QMode)) :
    (l.splitOnP P).length = (l.filter P).length + 1 := by
  induction l with
  | nil => simp [List.splitOnP_nil]
  | cons x xs ih =>
    rw [List.splitOnP_cons]
    cases hP : P x
    · have hne := List.splitOnP_ne_nil P xs
      cases hX : List.splitOnP P xs with
      | nil => exact absurd hX hne
      | cons p ps => rw [hX] at ih; simpa [List.filter_cons, hP] using ih
    · simp [List.filter_cons, hP, ih]

theorem cutLoop_eq_cutOutsideQuotes (sep : Char → Bool) (hd : sep '"' = false)
    (hs : sep '\'' = false) (s : Str) :
    cutLoop sep s [] [] false false = cutOutsideQuotes sep s := by
  have h := cutLoop_spec sep hd hs s QMode.outside [] []
  have hid : ∀ X : List Str, List.modifyHead (fun p => p) X = X := by
    intro X; cases X <;> simp
  simpa [QMode.isSingle, QMode.isDouble, cutOutsideQuotes, hid] using h

theorem join_cutOutsideQuotes (sep : Char → Bool) (s : Str) :
    (cutOutsideQuotes sep s).flatten = keptChars sep s := by
  unfold cutOutsideQuotes keptChars
  rw [join_filter_nonempty, join_map_stripDelims_splitOnP]
  simp [stripDelims, List.filter_filter, Bool.and_comm]

theorem length_cutOutsideQuotes_le (sep : Char → Bool) (s : Str) :
    (cutOutsideQuotes sep s).length ≤ countUnquoted sep s + 1 := by
  unfold cutOutsideQuotes countUnquoted
  calc (List.filter (fun p => !p.isEmpty) _).length
      ≤ (((annotate QMode.outside s).splitOnP (isUnquoted sep)).map stripDelims).length :=
        List.length_filter_le _ _
    _ = _ := by rw [List.length_map, length_splitOnP]

theorem nil_not_mem_cutOutsideQuotes (sep : Char → Bool) (s : Str) :
    [] ∉ cutOutsideQuotes sep s := by
  unfold cutOutsideQuotes
  simp [List.mem_filter]

theorem quotesBalancedLoop_scan (s : Str) (m : QMode) :
    quotesBalancedLoop s m.isSingle m.isDouble = ((m.scan s).isSingle, (m.scan s).isDouble) := by
  induction s generalizing m with
  | nil => simp [quotesBalancedLoop, QMode.scan]
  | cons c rest ih =>
    have ihO := ih QMode.outside
    have ihS := ih QMode.inSingle
    have ihD := ih QMode.inDouble
    simp only [QMode.isSingle, QMode.isDouble] at ihO ihS ihD
    by_cases h1 : c = '"'
    · subst h1
      cases m <;>
        simp [quotesBalancedLoop, QMode.scan, QMode.next, QMode.isSingle, QMode.isDouble, *]
    · by_cases h2 : c = '\''
      · subst h2
        cases m <;>
          simp [quotesBalancedLoop, QMode.scan, QMode.next, QMode.isSingle, QMode.isDouble, *]
      · cases m <;>
          simp [quotesBalancedLoop, QMode.scan, QMode.next, QMode.isSingle, QMode.isDouble, *]

theorem quotes_balanced_simple_loop_eq (s : Str) (inS inD : Bool) :
    quotes_balanced_simple_loop s inS inD = quotesBalancedLoop s inS inD := by
  induction s generalizing inS inD with
  | nil => rfl
  | cons c rest ih => simp only [quotes_balanced_simple_loop, quotesBalancedLoop, ih]

/-- The characters a plain word may not contain, as a predicate on one character. -/
theorem PlainWord.chars {w : Str} (h : PlainWord w) :
    ∀ c ∈ w, c ≠ ' ' ∧ c ≠ '\t' ∧ c ≠ '"' ∧ c ≠ '\'' ∧ c ≠ '<' ∧ c ≠ '>' ∧ c ≠ '|' := h.2

/-- Outside quotes `splitArgsLoose` appends the characters of a plain word to `cur`. -/
theorem splitArgsLooseLoop_plain (w : Str)
    (hw : ∀ c ∈ w, c ≠ ' ' ∧ c ≠ '\t' ∧ c ≠ '"' ∧ c ≠ '\'' ∧ c ≠ '<' ∧ c ≠ '>' ∧ c ≠ '|')
    (rest : Str) (out : List Str) (cur : Str) :
    splitArgsLooseLoop (w ++ rest) out cur false false false =
      splitArgsLooseLoop rest out (cur ++ w) false false false := by
  induction w generalizing cur with
  | nil => simp
  | cons c w ih =>
    obtain ⟨h1, h2, h3, h4, h5, h6, _⟩ := hw c (List.mem_cons_self _ _)
    have ih' := ih (fun d hd => hw d (List.mem_cons_of_mem _ hd)) (cur ++ [c])
    simp only [List.cons_append]
    rw [splitArgsLooseLoop]
    simp [h1, h2, h3, h4, h5, h6, ih']

/-- The value `out` has after the pending word `cur`, if any, is pushed. -/
theorem looseStep_blank (rest : Str) (out : List Str) (cur : Str) :
    splitArgsLooseLoop (' ' :: rest) out cur false false false =
      splitArgsLooseLoop rest (if !cur.isEmpty then out ++ [cur] else out) [] false false
        false := by
  rw [splitArgsLooseLoop]
  cases cur <;> simp

theorem looseStep_lt (rest : Str) (out : List Str) (cur : Str) :
    splitArgsLooseLoop ('<' :: rest) out cur false false false =
      splitArgsLooseLoop rest ((if !cur.isEmpty then out ++ [cur] else out) ++ [['<']]) []
        false false false := by
  rw [splitArgsLooseLoop]
  simp

theorem looseStep_gt (rest : Str) (h : rest.head? ≠ some '>') (out : List Str) (cur : Str) :
    splitArgsLooseLoop ('>' :: rest) out cur false false false =
      splitArgsLooseLoop rest ((if !cur.isEmpty then out ++ [cur] else out) ++ [['>']]) []
        false false false := by
  rw [splitArgsLooseLoop]
  simp [h]

theorem looseStep_gtgt (rest : Str) (out : List Str) (cur : Str) :
    splitArgsLooseLoop ('>' :: '>' :: rest) out cur false false false =
      splitArgsLooseLoop rest ((if !cur.isEmpty then out ++ [cur] else out) ++ [['>', '>']]) []
        false false false := by
  rw [splitArgsLooseLoop]
  simp only [List.head?_cons, beq_self_eq_true, Bool.and_self]
  simp [splitArgsLooseLoop]

theorem looseStep_end (out : List Str) (cur : Str) :
    splitArgsLooseLoop [] out cur false false false =
      (if !cur.isEmpty then out ++ [cur] else out) := by
  rw [splitArgsLooseLoop]

theorem PlainWord.head_ne_gt {w : Str} (hw : PlainWord w) (rest : Str) :
    (w ++ rest).head? ≠ some '>' := by
  obtain ⟨h0, hc⟩ := hw
  cases w with
  | nil => exact absurd rfl h0
  | cons c w => simpa using (hc c (List.mem_cons_self _ _)).2.2.2.2.2.1

theorem PlainWord.isEmpty_eq {w : Str} (hw : PlainWord w) : w.isEmpty = false := by
  cases w with
  | nil => exact absurd rfl hw.1
  | cons c w => rfl

theorem splitArgsLoose_spaced (w a b : Str) (hw : PlainWord w) (ha : PlainWord a)
    (hb : PlainWord b) :
    splitArgsLoose (w ++ [' ', '<', ' '] ++ a ++ [' ', '>', ' '] ++ b) =
      [w, ['<'], a, ['>'], b] := by
  have hb' := splitArgsLooseLoop_plain b hb.2 []
  simp only [List.append_nil] at hb'
  unfold splitArgsLoose
  simp only [List.append_assoc, List.cons_append, List.nil_append]
  rw [splitArgsLooseLoop_plain w hw.2, looseStep_blank, looseStep_lt, looseStep_blank,
    splitArgsLooseLoop_plain a ha.2, looseStep_blank, looseStep_gt _ (by simp), looseStep_blank,
    hb', looseStep_end]
  simp [hw.isEmpty_eq, ha.isEmpty_eq, hb.isEmpty_eq]

theorem splitArgsLoose_spaced_append (w a b : Str) (hw : PlainWord w) (ha : PlainWord a)
    (hb : PlainWord b) :
    splitArgsLoose (w ++ [' ', '<', ' '] ++ a ++ [' ', '>', '>', ' '] ++ b) =
      [w, ['<'], a, ['>', '>'], b] := by
  have hb' := splitArgsLooseLoop_plain b hb.2 []
  simp only [List.append_nil] at hb'
  unfold splitArgsLoose
  simp only [List.append_assoc, List.cons_append, List.nil_append]
  rw [splitArgsLooseLoop_plain w hw.2, looseStep_blank, looseStep_lt, looseStep_blank,
    splitArgsLooseLoop_plain a ha.2, looseStep_blank, looseStep_gtgt, looseStep_blank,
    hb', looseStep_end]
  simp [hw.isEmpty_eq, ha.isEmpty_eq, hb.isEmpty_eq]

theorem splitArgsLoose_abutting (w a b : Str) (hw : PlainWord w) (ha : PlainWord a)
    (hb : PlainWord b) :
    splitArgsLoose (w ++ ['<'] ++ a ++ ['>'] ++ b) = [w, ['<'], a, ['>'], b] := by
  have hb' := splitArgsLooseLoop_plain b hb.2 []
  simp only [List.append_nil] at hb'
  have hbh := hb.head_ne_gt []
  simp only [List.append_nil] at hbh
  unfold splitArgsLoose
  simp only [List.append_assoc, List.cons_append, List.nil_append]
  rw [splitArgsLooseLoop_plain w hw.2, looseStep_lt, splitArgsLooseLoop_plain a ha.2,
    looseStep_gt _ hbh, hb', looseStep_end]
  simp [hw.isEmpty_eq, ha.isEmpty_eq, hb.isEmpty_eq]

theorem splitArgsLoose_abutting_append (w a b : Str) (hw : PlainWord w) (ha : PlainWord a)
    (hb : PlainWord b) :
    splitArgsLoose (w ++ ['<'] ++ a ++ ['>', '>'] ++ b) = [w, ['<'], a, ['>', '>'], b] := by
  have hb' := splitArgsLooseLoop_plain b hb.2 []
  simp only [List.append_nil] at hb'
  unfold splitArgsLoose
  simp only [List.append_assoc, List.cons_append, List.nil_append]
  rw [splitArgsLooseLoop_plain w hw.2, looseStep_lt, splitArgsLooseLoop_plain a ha.2,
    looseStep_gtgt, hb', looseStep_end]
  simp [hw.isEmpty_eq, ha.isEmpty_eq, hb.isEmpty_eq]

theorem plainWord_two : PlainWord ['2'] := by
  unfold PlainWord
  decide

theorem splitArgsLoose_err (w p : Str) (hw : PlainWord w) (hp : PlainWord p) :
    splitArgsLoose (w ++ [' ', '2', '>', ' '] ++ p) = [w, ['2'], ['>'], p] := by
  have hp' := splitArgsLooseLoop_plain p hp.2 []
  simp only [List.append_nil] at hp'
  have h2 := splitArgsLooseLoop_plain ['2'] plainWord_two.2
  simp only [List.cons_append, List.nil_append] at h2
  unfold splitArgsLoose
  simp only [List.append_assoc, List.cons_append, List.nil_append]
  rw [splitArgsLooseLoop_plain w hw.2, looseStep_blank, h2, looseStep_gt _ (by simp),
    looseStep_blank, hp', looseStep_end]
  simp [hw.isEmpty_eq, hp.isEmpty_eq]

theorem splitArgsLoose_err_append (w p : Str) (hw : PlainWord w) (hp : PlainWord p) :
    splitArgsLoose (w ++ [' ', '2', '>', '>', ' '] ++ p) = [w, ['2'], ['>', '>'], p] := by
  have hp' := splitArgsLooseLoop_plain p hp.2 []
  simp only [List.append_nil] at hp'
  have h2 := splitArgsLooseLoop_plain ['2'] plainWord_two.2
  simp only [List.cons_append, List.nil_append] at h2
  unfold splitArgsLoose
  simp only [List.append_assoc, List.cons_append, List.nil_append]
  rw [splitArgsLooseLoop_plain w hw.2, looseStep_blank, h2, looseStep_gtgt, looseStep_blank,
    hp', looseStep_end]
  simp [hw.isEmpty_eq, hp.isEmpty_eq]

/-- A plain word is none of the redirection operator tokens. -/
theorem PlainWord.ne_ops {w : Str} (hw : PlainWord w) :
    w ≠ ['>'] ∧ w ≠ ['>', '>'] ∧ w ≠ ['2', '>'] ∧ w ≠ ['2', '>', '>'] ∧ w ≠ ['<'] := by
  obtain ⟨_, hwc⟩ := hw
  refine ⟨?_, ?_, ?_, ?_, ?_⟩ <;> intro h <;> subst h
  · exact (hwc '>' (by simp)).2.2.2.2.2.1 rfl
  · exact (hwc '>' (by simp)).2.2.2.2.2.1 rfl
  · exact (hwc '>' (by simp)).2.2.2.2.2.1 rfl
  · exact (hwc '>' (by simp)).2.2.2.2.2.1 rfl
  · exact (hwc '<' (by simp)).2.2.2.2.1 rfl

/-- The token loop on `w < a op b`, `op` being `>` or `>>`. -/
theorem parseCmdLoop_in_out (w a b : Str) (hw : PlainWord w) (app : Bool) :
    parseCmdLoop [w, ['<'], a, (if app then ['>', '>'] else ['>']), b] [] {} false =
      ([w], { «in» := a, out := b, append := app }) := by
  obtain ⟨h1, h2, h3, h4, h5⟩ := hw.ne_ops
  cases app <;> simp [parseCmdLoop, h1, h2, h3, h4, h5]

/-- C3. For plain words `w`, `a`, `b` the stage texts `w < a > b`, `w < a >> b` and the same
texts with the blanks removed all parse to argv `[w]`, input path `a`, output path `b`,
`append` true exactly for `>>`, and no error path; `sort < in.txt > out.txt` is the instance
of the specification. -/
theorem parseCmdWithRedir_input_output (w a b : Str) (hw : PlainWord w) (ha : PlainWord a)
    (hb : PlainWord b) :
    parseCmdWithRedir (w ++ [' ', '<', ' '] ++ a ++ [' ', '>', ' '] ++ b) {} =
        ([w], { «in» := a, out := b, append := false, errOut := [], errAppend := false }) ∧
    parseCmdWithRedir (w ++ ['<'] ++ a ++ ['>'] ++ b) {} =
        ([w], { «in» := a, out := b, append := false, errOut := [], errAppend := false }) ∧
    parseCmdWithRedir (w ++ [' ', '<', ' '] ++ a ++ [' ', '>', '>', ' '] ++ b) {} =
        ([w], { «in» := a, out := b, append := true, errOut := [], errAppend := false }) ∧
    parseCmdWithRedir (w ++ ['<'] ++ a ++ ['>', '>'] ++ b) {} =
        ([w], { «in» := a, out := b, append := true, errOut := [], errAppend := false }) ∧
    parseCmdWithRedir "sort < in.txt > out.txt".toList {} =
        (["sort".toList],
          { «in» := "in.txt".toList, out := "out.txt".toList, append := false, errOut := [],
            errAppend := false }) := by
  refine ⟨?_, ?_, ?_, ?_, ?_⟩
  · rw [parseCmdWithRedir, splitArgsLoose_spaced w a b hw ha hb]
    exact parseCmdLoop_in_out w a b hw false
  · rw [parseCmdWithRedir, splitArgsLoose_abutting w a b hw ha hb]
    exact parseCmdLoop_in_out w a b hw false
  · rw [parseCmdWithRedir, splitArgsLoose_spaced_append w a b hw ha hb]
    exact parseCmdLoop_in_out w a b hw true
  · rw [parseCmdWithRedir, splitArgsLoose_abutting_append w a b hw ha hb]
    exact parseCmdLoop_in_out w a b hw true
  · have hs : PlainWord "sort".toList := by unfold PlainWord; decide
    have hi : PlainWord "in.txt".toList := by unfold PlainWord; decide
    have ho : PlainWord "out.txt".toList := by unfold PlainWord; decide
    have h := splitArgsLoose_spaced _ _ _ hs hi ho
    rw [parseCmdWithRedir, show "sort < in.txt > out.txt".toList =
      "sort".toList ++ [' ', '<', ' '] ++ "in.txt".toList ++ [' ', '>', ' '] ++
        "out.txt".toList from rfl, h]
    exact parseCmdLoop_in_out _ _ _ hs false

/-- C3, instance: the theorem applied to `grep<words>>found`. -/
theorem parseCmdWithRedir_input_output_witness :
    parseCmdWithRedir "grep<words>>found".toList {} =
      (["grep".toList], { «in» := "words".toList, out := "found".toList, append := true }) :=
  (parseCmdWithRedir_input_output "grep".toList "words".toList "found".toList
    (by unfold PlainWord; decide) (by unfold PlainWord; decide)
    (by unfold PlainWord; decide)).2.2.2.1

/-- C4 (what the code does). The tokenizer always cuts at `>`, so `w 2> p` is the argument `2`
followed by an output redirection: argv is `[w, 2]`, the output path is `p` and the error path
stays empty; likewise for `2>>`, with `append` set.  The branch of `parseCmdWithRedir` for the
tokens `2>` and `2>>` is never reached from such a text. -/
theorem parseCmdWithRedir_err_is_output (w p : Str) (hw : PlainWord w) (hp : PlainWord p) :
    parseCmdWithRedir (w ++ [' ', '2', '>', ' '] ++ p) {} =
        ([w, ['2']], { «in» := [], out := p, append := false, errOut := [], errAppend := false }) ∧
    parseCmdWithRedir (w ++ [' ', '2', '>', '>', ' '] ++ p) {} =
        ([w, ['2']], { «in» := [], out := p, append := true, errOut := [], errAppend := false }) := by
  obtain ⟨h1, h2, h3, h4, h5⟩ := hw.ne_ops
  constructor
  · rw [parseCmdWithRedir, splitArgsLoose_err w p hw hp]
    simp [parseCmdLoop, h1, h2, h3, h4, h5]
  · rw [parseCmdWithRedir, splitArgsLoose_err_append w p hw hp]
    simp [parseCmdLoop, h1, h2, h3, h4, h5]

/-- C4, instance: `ls 2> err.txt` runs `ls 2` with standard output sent to `err.txt`. -/
theorem parseCmdWithRedir_err_is_output_witness :
    parseCmdWithRedir "ls 2> err.txt".toList {} =
      (["ls".toList, "2".toList], { out := "err.txt".toList }) :=
  (parseCmdWithRedir_err_is_output "ls".toList "err.txt".toList
    (by unfold PlainWord; decide) (by unfold PlainWord; decide)).1

/-- C5 (failing input). On the line `cat "a b"` the spawn path loses the quoting:
`splitPipeline` deletes the quote characters, so the stage text is `cat a b` and the argv built
from it has three elements, whereas `splitArgs` of the line keeps `a b` as one argument. -/
theorem spawn_argv_drops_quoting :
    splitPipeline "cat \"a b\"".toList = ["cat a b".toList] ∧
    (parseCmdWithRedir "cat a b".toList {}).1 = ["cat".toList, "a".toList, "b".toList] ∧
    splitArgs "cat \"a b\"".toList = ["cat".toList, "a b".toList] ∧
    (splitPipeline "cat \"a b\"".toList).map (fun st => (parseCmdWithRedir st {}).1) ≠
      [splitArgs "cat \"a b\"".toList] := by
  decide

/-- C6. `splitArgs` returns the non-empty tokens obtained by cutting the line at exactly the
unquoted spaces and tabs and deleting the quote delimiters; every other character (newline and
backslash included) appears in the tokens unchanged and in order: the concatenation of the
tokens is the line without its unquoted blanks and quote delimiters. -/
theorem splitArgs_eq_spec (s : Str) :
    splitArgs s = specSplitArgs s ∧
    (splitArgs s).flatten = keptChars isBlank s ∧
    [] ∉ splitArgs s ∧
    splitArgs "a\\n\nb \"c d\\\"".toList = ["a\\n\nb".toList, "c d\\".toList] := by
  have h : splitArgs s = cutOutsideQuotes isBlank s := by
    rw [splitArgs, splitArgsLoop_eq_cutLoop]
    exact cutLoop_eq_cutOutsideQuotes isBlank (by decide) (by decide) s
  refine ⟨h, ?_, ?_, by decide⟩
  · rw [h]; exact join_cutOutsideQuotes isBlank s
  · rw [h]; exact nil_not_mem_cutOutsideQuotes isBlank s

/-- C7. `splitPipeline` cuts the line at exactly the `|` characters outside quotes (the stage
texts are the pieces, quote delimiters deleted as the scan passes them): a `|` inside quotes
stays in its stage, no returned stage is empty, and there is at most one stage more than
there are unquoted `|`. -/
theorem splitPipeline_eq_spec (s : Str) :
    splitPipeline s = specSplitPipeline s ∧
    (splitPipeline s).flatten = keptChars isPipe s ∧
    [] ∉ splitPipeline s ∧
    (splitPipeline s).length ≤ countUnquoted isPipe s + 1 ∧
    splitPipeline "grep 'a|b' f | wc".toList = ["grep a|b f ".toList, " wc".toList] := by
  have h : splitPipeline s = cutOutsideQuotes isPipe s := by
    rw [splitPipeline, splitPipelineLoop_eq_cutLoop]
    exact cutLoop_eq_cutOutsideQuotes isPipe (by decide) (by decide) s
  refine ⟨h, ?_, ?_, ?_, by decide⟩
  · rw [h]; exact join_cutOutsideQuotes isPipe s
  · rw [h]; exact nil_not_mem_cutOutsideQuotes isPipe s
  · rw [h]; exact length_cutOutsideQuotes_le isPipe s

/-- C8. `quotesBalanced s` is true exactly when the left-to-right quote scan of `s` ends
outside both quoting modes; the unterminated `echo 'foo bar` is unbalanced; and
`quotes_balanced_simple`, the copy used by the input line handler, agrees with it on every
string. -/
theorem quotesBalanced_iff_scan (s : Str) :
    (quotesBalanced s = true ↔ QMode.outside.scan s = QMode.outside) ∧
    quotesBalanced "echo 'foo bar".toList = false ∧
    quotes_balanced_simple s = quotesBalanced s := by
  refine ⟨?_, by decide, ?_⟩
  · have h := quotesBalancedLoop_scan s QMode.outside
    simp only [QMode.isSingle, QMode.isDouble] at h
    unfold quotesBalanced
    rw [h]
    cases QMode.scan QMode.outside s <;> simp [QMode.isSingle, QMode.isDouble]
  · unfold quotes_balanced_simple quotesBalanced
    rw [quotes_balanced_simple_loop_eq]

/-! ## The queue of pending commands is only consumed by `runNextCommand`

Frame lemmas: nothing in the body of `executeLineInternal` touches the queue of pending
commands, and only its first step extends the ghost record `entries`. -/

@[simp] theorem appendOutput_pendingCmds (w : World) (s : Str) :
    (w.appendOutput s).tab.pendingCmds = w.tab.pendingCmds := rfl

@[simp] theorem appendOutput_entries (w : World) (s : Str) :
    (w.appendOutput s).entries = w.entries := rfl

@[simp] theorem emit_tab (w : World) (e : Event) : (w.emit e).tab = w.tab := rfl

@[simp] theorem emit_entries (w : World) (e : Event) : (w.emit e).entries = w.entries := rfl

@[simp] theorem close_tab (w : World) (fd : Int) : (w.close fd).tab = w.tab := rfl

@[simp] theorem close_entries (w : World) (fd : Int) : (w.close fd).entries = w.entries := rfl

@[simp] theorem pipe_tab (w : World) : w.pipe.1.tab = w.tab := rfl

@[simp] theorem pipe_entries (w : World) : w.pipe.1.entries = w.entries := rfl

@[simp] theorem openpty_tab (w : World) : w.openpty.1.tab = w.tab := rfl

@[simp] theorem openpty_entries (w : World) : w.openpty.1.entries = w.entries := rfl

@[simp] theorem fork_tab (w : World) (c : Child) : (w.fork c).1.tab = w.tab := rfl

@[simp] theorem fork_entries (w : World) (c : Child) : (w.fork c).1.entries = w.entries := rfl

@[simp] theorem chdir_tab (w : World) (t : Option Str) : (w.chdir t).1.tab = w.tab := by
  unfold World.chdir
  cases t with
  | none => rfl
  | some p => dsimp only; cases w.sys.dirs.lookup (c_str p) <;> rfl

@[simp] theorem chdir_entries (w : World) (t : Option Str) :
    (w.chdir t).1.entries = w.entries := by
  unfold World.chdir
  cases t with
  | none => rfl
  | some p => dsimp only; cases w.sys.dirs.lookup (c_str p) <;> rfl

@[simp] theorem kill_tab (w : World) (a b : Int) : (w.kill a b).1.tab = w.tab := rfl

@[simp] theorem kill_entries (w : World) (a b : Int) : (w.kill a b).1.entries = w.entries := rfl

@[simp] theorem killpg_tab (w : World) (a b : Int) : (w.killpg a b).1.tab = w.tab := rfl

@[simp] theorem killpg_entries (w : World) (a b : Int) :
    (w.killpg a b).1.entries = w.entries := rfl

@[simp] theorem sep_pendingCmds (w : World) :
    (append_sep_if_queued w).tab.pendingCmds = w.tab.pendingCmds := by
  unfold append_sep_if_queued; split <;> simp

@[simp] theorem sep_entries (w : World) : (append_sep_if_queued w).entries = w.entries := by
  unfold append_sep_if_queued; split <;> simp

theorem SameQueue.refl (w : World) : SameQueue w w := ⟨rfl, rfl⟩

theorem SameQueue.trans {a b c : World} (h1 : SameQueue a b) (h2 : SameQueue b c) :
    SameQueue a c := ⟨h2.1.trans h1.1, h2.2.trans h1.2⟩

theorem sameQueue_foldl {α : Type} (f : World → α → World)
    (hf : ∀ v a, SameQueue v (f v a)) (l : List α) (w : World) :
    SameQueue w (l.foldl f w) := by
  induction l generalizing w with
  | nil => exact SameQueue.refl w
  | cons a l ih => exact (hf w a).trans (ih (f w a))

theorem sameQueue_echoBuiltin (w : World) (line : Str) (args : List Str) :
    SameQueue w (echoBuiltin w line args) := by
  simp [SameQueue, echoBuiltin]

theorem sameQueue_historyBuiltin (w : World) (args : List Str) :
    SameQueue w (historyBuiltin w args) := by
  have hf := sameQueue_foldl (fun v (cmd : Str) => v.appendOutput (cmd ++ ['\n']))
    (fun v a => by simp [SameQueue])
  unfold historyBuiltin
  dsimp only
  split_ifs
  · simp [SameQueue]
  · simp [SameQueue]
  · simpa [SameQueue] using hf _ w

theorem sameQueue_cdBuiltin (w : World) (args : List Str) :
    SameQueue w (cdBuiltin w args).1 := by
  unfold cdBuiltin
  dsimp only
  split_ifs <;> simp [SameQueue]

theorem sameQueue_clearBuiltin (w : World) : SameQueue w (clearBuiltin w) := by
  simp [SameQueue, clearBuiltin]

theorem sameQueue_bgpidsBuiltin (w : World) : SameQueue w (bgpidsBuiltin w) := by
  have hf := sameQueue_foldl (fun v (job : BackgroundJob) =>
      v.appendOutput ("PID=".toList ++ to_string job.pid ++
        (if job.pgid > 0 then " PGID=".toList ++ to_string job.pgid else []) ++
        " CMD=".toList ++ job.cmd ++ ['\n']))
    (fun v a => by simp [SameQueue])
  unfold bgpidsBuiltin
  dsimp only
  split_ifs
  · simp [SameQueue]
  · simpa [SameQueue] using hf _ w

theorem sameQueue_signalPid (w : World) (sig pid : Int) :
    SameQueue w (signalPid w sig pid) := by
  unfold signalPid
  dsimp only
  split_ifs <;> simp [SameQueue]

theorem sameQueue_signalGroup (w : World) (sig pgid : Int) :
    SameQueue w (signalGroup w sig pgid) := by
  unfold signalGroup
  dsimp only
  split_ifs <;> simp [SameQueue]

theorem sameQueue_signalJob (w : World) (sig pid : Int) (job : BackgroundJob) :
    SameQueue w (signalJob w sig pid job) := by
  have h1 : SameQueue w (if job.pgid > 0 then signalGroup w sig job.pgid
      else signalPid w sig job.pid) := by
    split_ifs
    · exact sameQueue_signalGroup w _ _
    · exact sameQueue_signalPid w _ _
  refine SameQueue.trans h1 ?_
  unfold signalJob
  dsimp only
  split_ifs <;> simp [SameQueue]

theorem sameQueue_killOne (name : Str) (sig : Int) (w : World) (spid : Str) :
    SameQueue w (killOne name sig w spid) := by
  unfold killOne
  dsimp only
  split_ifs
  · split
    · exact sameQueue_signalJob w _ _ _
    · exact sameQueue_signalPid w _ _
  · simp [SameQueue]

theorem sameQueue_killArgs (name : Str) (w : World) (args : List Str) :
    SameQueue w (killArgs name w args).1 := by
  unfold killArgs
  dsimp only
  split_ifs <;>
    first
    | exact sameQueue_foldl _ (fun v a => sameQueue_killOne name _ v a) _ w
    | simp [SameQueue]

theorem sameQueue_watchRestore (w : World) : SameQueue w (watchRestore w) := by
  unfold watchRestore
  split_ifs <;> simp [SameQueue]

theorem sameQueue_multiWatchBuiltin (w : World) (args : List Str) :
    SameQueue w (multiWatchBuiltin w args) := by
  unfold multiWatchBuiltin
  dsimp only
  split_ifs
  · simp [SameQueue]
  · split
    · exact SameQueue.trans (by simp [SameQueue]) (sameQueue_watchRestore _)
    · split_ifs
      · exact SameQueue.trans (by simp [SameQueue]) (sameQueue_watchRestore _)
      · simp [SameQueue]
  · split
    · exact SameQueue.trans (by simp [SameQueue]) (sameQueue_watchRestore _)
    · split_ifs
      · exact SameQueue.trans (by simp [SameQueue]) (sameQueue_watchRestore _)
      · simp [SameQueue]

theorem sameQueue_closeAll (w : World) (fds : List Int) : SameQueue w (closeAll w fds) := by
  unfold closeAll
  refine sameQueue_foldl _ (fun v a => ?_) fds w
  dsimp only
  split_ifs <;> simp [SameQueue]

theorem sameQueue_ptyAttempt (w : World) (argv : List Str) :
    SameQueue w (ptyAttempt w argv).1 := by
  unfold ptyAttempt
  dsimp only
  split
  · split_ifs <;> simp [SameQueue]
  · simp [SameQueue]

theorem sameQueue_makePipes (k : Nat) (w : World) (acc : List Int) :
    SameQueue w (makePipes k w acc).1 := by
  induction k generalizing w acc with
  | zero => exact SameQueue.refl w
  | succ k ih =>
    unfold makePipes
    split
    · exact SameQueue.trans (by simp [SameQueue]) (ih _ _)
    · simp [SameQueue]

theorem sameQueue_spawnStages (n : Nat) (hs : Bool) (rd : Int) (pipesFD : List Int)
    (ow ew : Int) (stages : List Str) (i : Nat) (w : World) (fp lp : Int) :
    SameQueue w (spawnStages n hs rd pipesFD ow ew stages i w fp lp).1 := by
  induction stages generalizing i w fp lp with
  | nil => exact SameQueue.refl w
  | cons st rest ih =>
    unfold spawnStages
    dsimp only
    split_ifs <;>
      first
      | exact SameQueue.trans (by simp [SameQueue]) (ih _ _ _ _)
      | simp [SameQueue]

theorem sameQueue_registerJob (w : World) (cmd_line : Str) (background : Bool)
    (pipesFD : List Int) (sp : Option (Int × Int)) (o e : Int × Int) (fp lp : Int) :
    SameQueue w (registerJob w cmd_line background pipesFD sp o e fp lp).1 := by
  have hc := sameQueue_closeAll w pipesFD
  unfold registerJob
  dsimp only
  cases sp <;> dsimp only <;> split_ifs <;> simp [SameQueue, hc.1, hc.2]

theorem sameQueue_pipesExec (w : World) (stages : List Str) (cmd_line : Str)
    (background : Bool) : SameQueue w (pipesExec w stages cmd_line background).1 := by
  unfold pipesExec
  dsimp only
  have hmp := sameQueue_makePipes (stages.length - 1) w []
  generalize makePipes (stages.length - 1) w [] = mp at hmp
  split
  · exact hmp
  · refine SameQueue.trans hmp ?_
    have hsp : SameQueue mp.1 (if (parseCmdWithRedir (stages.headD []) {}).2.in.isEmpty = true
        then mp.1.pipe else (mp.1, none)).1 := by
      split_ifs <;> simp [SameQueue]
    generalize (if (parseCmdWithRedir (stages.headD []) {}).2.in.isEmpty = true
        then mp.1.pipe else (mp.1, none)) = sp at hsp
    refine SameQueue.trans hsp ?_
    split
    · exact SameQueue.trans (by simp [SameQueue]) (sameQueue_closeAll _ _)
    · refine SameQueue.trans (by simp [SameQueue] : SameQueue sp.1 sp.1.pipe.1) ?_
      split
      · exact SameQueue.trans (by simp [SameQueue]) (sameQueue_closeAll _ _)
      · refine SameQueue.trans
          (by simp [SameQueue] : SameQueue sp.1.pipe.1 sp.1.pipe.1.pipe.1) ?_
        split
        · exact sameQueue_spawnStages _ _ _ _ _ _ _ _ _ _ _
        · exact (sameQueue_spawnStages _ _ _ _ _ _ _ _ _ _ _).trans
            (sameQueue_registerJob _ _ _ _ _ _ _ _ _)

theorem sameQueue_pipelineExec (w : World) (cmd_line : Str) (background : Bool) :
    SameQueue w (pipelineExec w cmd_line background).1 := by
  unfold pipelineExec
  dsimp only
  have h0 : SameQueue w (if w.tab.inFdWrite ≥ 0 then
      { (w.close w.tab.inFdWrite) with tab := { w.tab with inFdWrite := -1 } } else w) := by
    split_ifs <;> simp [SameQueue]
  generalize (if w.tab.inFdWrite ≥ 0 then
      { (w.close w.tab.inFdWrite) with tab := { w.tab with inFdWrite := -1 } } else w) = v at h0
  refine SameQueue.trans h0 ?_
  split_ifs
  · exact SameQueue.refl v
  · exact sameQueue_ptyAttempt v _
  · exact (sameQueue_ptyAttempt v _).trans (sameQueue_pipesExec _ _ _ _)
  · exact sameQueue_pipesExec _ _ _ _

theorem sameQueue_ite (w : World) (c : Prop) [Decidable c] (a b : World × Bool)
    (ha : SameQueue w a.1) (hb : SameQueue w b.1) : SameQueue w (if c then a else b).1 := by
  split <;> assumption

theorem sameQueue_dispatchLine (w : World) (line : Str) (args : List Str) (bg : Bool) :
    SameQueue w (dispatchLine w line args bg).1 := by
  unfold dispatchLine
  refine sameQueue_ite w _ _ _ (SameQueue.refl w) ?_
  refine sameQueue_ite w _ _ _ (sameQueue_echoBuiltin _ _ _) ?_
  refine sameQueue_ite w _ _ _ (sameQueue_historyBuiltin _ _) ?_
  refine sameQueue_ite w _ _ _ (sameQueue_cdBuiltin _ _) ?_
  refine sameQueue_ite w _ _ _ (sameQueue_clearBuiltin _) ?_
  refine sameQueue_ite w _ _ _ (sameQueue_bgpidsBuiltin _) ?_
  refine sameQueue_ite w _ _ _ (sameQueue_killArgs _ _ _) ?_
  refine sameQueue_ite w _ _ _ (sameQueue_killArgs _ _ _) ?_
  refine sameQueue_ite w _ _ _ (sameQueue_multiWatchBuiltin _ _) ?_
  exact sameQueue_pipelineExec _ _ _

/-- The body of `executeLineInternal` leaves the queue alone and records exactly its own
entry. -/
theorem executeLineBody_frame (w : World) (line : Str) (e : Bool) :
    (executeLineBody w line e).1.tab.pendingCmds = w.tab.pendingCmds ∧
    (executeLineBody w line e).1.entries = w.entries ++ [w.tab.childPid] := by
  unfold executeLineBody
  dsimp only
  split
  · exact ⟨rfl, rfl⟩
  · refine ⟨(sameQueue_dispatchLine _ _ _ _).1.trans ?_,
      (sameQueue_dispatchLine _ _ _ _).2.trans ?_⟩
    · split <;> rfl
    · split <;> rfl

/-- The length of the queue is enough fuel: `runNextCommand` returns at once when the session
is busy or the queue is empty, and otherwise dequeues the head and enters
`executeLineInternal` with it. -/
theorem runNextCommand_eq (w : World) :
    runNextCommand w =
      if w.tab.childPid > 0 then w
      else match w.tab.pendingCmds with
        | [] => w
        | pair :: rest =>
          executeLineInternal { w with tab := { w.tab with pendingCmds := rest } } pair.1 pair.2 := by
  unfold runNextCommand
  cases hq : w.tab.pendingCmds with
  | nil => simp [runNextCommandFuel]
  | cons pair rest =>
    simp only [List.length_cons, runNextCommandFuel, hq]
    split
    · rfl
    · have hf := (executeLineBody_frame
        { w with tab := { w.tab with pendingCmds := rest } } pair.1 pair.2).1
      simp only at hf
      simp only [executeLineInternal, runNextCommand, hf]

/-! ## One foreground job at a time -/

theorem runNextCommand_busy (w : World) (h : w.tab.childPid > 0) : runNextCommand w = w := by
  rw [runNextCommand_eq, if_pos h]

/-- Whatever `runNextCommand` does, every entry into `executeLineInternal` it causes happens
with `childPid <= 0`. -/
theorem runNextCommandFuel_entries (fuel : Nat) (w : World) :
    ∃ l, (runNextCommandFuel fuel w).entries = w.entries ++ l ∧ ∀ p ∈ l, p ≤ 0 := by
  induction fuel generalizing w with
  | zero => exact ⟨[], by simp [runNextCommandFuel], by simp⟩
  | succ fuel ih =>
    unfold runNextCommandFuel
    split
    · exact ⟨[], by simp, by simp⟩
    · rename_i hidle
      split
      · exact ⟨[], by simp, by simp⟩
      · rename_i pair rest hq
        have hf := (executeLineBody_frame
          { w with tab := { w.tab with pendingCmds := rest } } pair.1 pair.2).2
        simp only at hf
        dsimp only
        split
        · obtain ⟨l, hl, hle⟩ := ih (executeLineBody
            { w with tab := { w.tab with pendingCmds := rest } } pair.1 pair.2).1
          refine ⟨w.tab.childPid :: l, ?_, ?_⟩
          · rw [hl, hf]; simp
          · intro p hp
            rcases List.mem_cons.mp hp with rfl | hp
            · exact not_lt.mp hidle
            · exact hle p hp
        · refine ⟨[w.tab.childPid], hf, ?_⟩
          intro p hp
          rw [List.mem_singleton.mp hp]
          exact not_lt.mp hidle

theorem runNextCommand_entries (w : World) :
    ∃ l, (runNextCommand w).entries = w.entries ++ l ∧ ∀ p ∈ l, p ≤ 0 :=
  runNextCommandFuel_entries _ w

@[simp] theorem addHistoryEntry_tab (w : World) (c : Str) : (addHistoryEntry w c).tab = w.tab := by
  unfold addHistoryEntry
  dsimp only
  split_ifs <;> simp

@[simp] theorem addHistoryEntry_entries (w : World) (c : Str) :
    (addHistoryEntry w c).entries = w.entries := by
  unfold addHistoryEntry
  dsimp only
  split_ifs <;> simp

@[simp] theorem addHistoryEntry_sys (w : World) (c : Str) : (addHistoryEntry w c).sys = w.sys := by
  unfold addHistoryEntry
  dsimp only
  split_ifs <;> simp [World.emit]

/-- The queueing loop of `submitInputLine` appends the pieces of the commands, in order, and
touches neither the job state nor the operating system. -/
theorem queueCmds_spec (cmds : List Str) (w : World) :
    (queueCmds w cmds).tab.pendingCmds = w.tab.pendingCmds ++ cmds.flatMap queuedPieces ∧
    jobState (queueCmds w cmds) = jobState w ∧
    (queueCmds w cmds).entries = w.entries ∧ (queueCmds w cmds).sys = w.sys ∧
    (queueCmds w cmds).tab.contActive = w.tab.contActive ∧
    (queueCmds w cmds).tab.contBuffer = w.tab.contBuffer := by
  induction cmds generalizing w with
  | nil => simp [queueCmds]
  | cons c cmds ih =>
    unfold queueCmds at ih ⊢
    rw [List.foldl_cons]
    by_cases hc : (split_by_semicolon c).isEmpty = true
    · have hq : queuedPieces c = [] := by
        unfold queuedPieces
        rw [List.isEmpty_iff.mp hc]; rfl
      simp only [hc, if_true]
      simpa [List.flatMap_cons, hq] using ih w
    · simp only [hc]
      obtain ⟨h1, h2, h3, h4, h5, h6⟩ := ih (addHistoryEntry
        { w with tab := { w.tab with pendingCmds := w.tab.pendingCmds ++ queuedPieces c } } c)
      refine ⟨?_, ?_, ?_, ?_, ?_, ?_⟩
      · simpa [List.flatMap_cons, List.append_assoc] using h1
      · simpa [jobState] using h2
      · simpa using h3
      · simpa using h4
      · simpa using h5
      · simpa using h6

theorem echoCmds_spec (w : World) (cmds : List Str) :
    (echoCmds w cmds).tab.pendingCmds = w.tab.pendingCmds ∧
    jobState (echoCmds w cmds) = jobState w ∧
    (echoCmds w cmds).entries = w.entries ∧ (echoCmds w cmds).sys = w.sys := by
  unfold echoCmds
  have h : ∀ (l : List Str) (v : World),
      (l.foldl (fun v c => v.appendOutput ("> ".toList ++ c ++ ['\n'])) v).tab.pendingCmds =
        v.tab.pendingCmds ∧
      jobState (l.foldl (fun v c => v.appendOutput ("> ".toList ++ c ++ ['\n'])) v) =
        jobState v ∧
      (l.foldl (fun v c => v.appendOutput ("> ".toList ++ c ++ ['\n'])) v).entries = v.entries ∧
      (l.foldl (fun v c => v.appendOutput ("> ".toList ++ c ++ ['\n'])) v).sys = v.sys := by
    intro l
    induction l with
    | nil => intro v; simp
    | cons c l ih =>
      intro v
      rw [List.foldl_cons]
      obtain ⟨h1, h2, h3, h4⟩ := ih (v.appendOutput ("> ".toList ++ c ++ ['\n']))
      exact ⟨h1, h2, h3, h4⟩
  obtain ⟨h1, h2, h3, h4⟩ := h (cmds.drop 1) (w.appendOutput (ps1 w.sys ++ cmds.headD [] ++ ['\n']))
  exact ⟨h1, h2, h3, h4⟩

/-- What `submitInputLine` hands to `runNextCommand`: the old queue followed by the pieces of
the committed commands, the job state and the operating system untouched. -/
theorem submit_queued_spec (w : World) :
    (queueCmds (if !w.tab.contActive then echoCmds w (committedCmds w) else w)
        (committedCmds w)).tab.pendingCmds =
      w.tab.pendingCmds ++ (committedCmds w).flatMap queuedPieces ∧
    jobState (queueCmds (if !w.tab.contActive then echoCmds w (committedCmds w) else w)
        (committedCmds w)) = jobState w ∧
    (queueCmds (if !w.tab.contActive then echoCmds w (committedCmds w) else w)
        (committedCmds w)).entries = w.entries ∧
    (queueCmds (if !w.tab.contActive then echoCmds w (committedCmds w) else w)
        (committedCmds w)).sys = w.sys := by
  obtain ⟨e1, e2, e3, e4⟩ := echoCmds_spec w (committedCmds w)
  split
  · obtain ⟨h1, h2, h3, h4, _, _⟩ := queueCmds_spec (committedCmds w) (echoCmds w (committedCmds w))
    exact ⟨by rw [h1, e1], by rw [h2, e2], by rw [h3, e3], by rw [h4, e4]⟩
  · obtain ⟨h1, h2, h3, h4, _, _⟩ := queueCmds_spec (committedCmds w) w
    exact ⟨h1, h2, h3, h4⟩

/-- With a foreground job, the end of `submitInputLine` only appends to the queue. -/
theorem submitCommit_busy (w : World) (h : w.tab.childPid > 0) :
    (submitCommit w).tab.pendingCmds =
      w.tab.pendingCmds ++ (committedCmds w).flatMap queuedPieces ∧
    jobState (submitCommit w) = jobState w ∧
    (submitCommit w).entries = w.entries ∧ (submitCommit w).sys = w.sys := by
  obtain ⟨h1, h2, h3, h4⟩ := submit_queued_spec w
  unfold submitCommit
  dsimp only
  split
  · have hb : (queueCmds (if !w.tab.contActive then echoCmds w (committedCmds w) else w)
        (committedCmds w)).tab.childPid > 0 := by
      have := congrArg Prod.fst h2
      simp only [jobState] at this
      rw [this]; exact h
    rw [runNextCommand_busy _ hb]
    exact ⟨h1, h2, h3, h4⟩
  · rename_i hc
    have hnil : committedCmds w = [] := by
      cases hcc : committedCmds w with
      | nil => rfl
      | cons a l => simp [hcc] at hc
    simp [hnil, jobState]

/-- Whatever the state, the entries into `executeLineInternal` caused by the end of
`submitInputLine` happen with `childPid <= 0`. -/
theorem submitCommit_entries (w : World) :
    ∃ l, (submitCommit w).entries = w.entries ++ l ∧ ∀ p ∈ l, p ≤ 0 := by
  obtain ⟨_, _, h3, _⟩ := submit_queued_spec w
  unfold submitCommit
  dsimp only
  split
  · obtain ⟨l, hl, hle⟩ := runNextCommand_entries
      (queueCmds (if !w.tab.contActive then echoCmds w (committedCmds w) else w)
        (committedCmds w))
    exact ⟨l, by rw [hl, h3], hle⟩
  · exact ⟨[], by simp, by simp⟩

theorem quotes_balanced_simple_eq (s : Str) : quotes_balanced_simple s = quotesBalanced s := by
  unfold quotes_balanced_simple quotesBalanced
  rw [quotes_balanced_simple_loop_eq]

/-- With a foreground job `submitInputLine` only appends to the queue: in each of its three
outcomes (line buffered for continuation, still in continuation, commands committed). -/
theorem submitInputLine_busy (w : World) (h : w.tab.childPid > 0) :
    (∃ cmds, (submitInputLine w).tab.pendingCmds = w.tab.pendingCmds ++ cmds) ∧
    jobState (submitInputLine w) = jobState w ∧
    (submitInputLine w).entries = w.entries ∧ (submitInputLine w).sys = w.sys := by
  unfold submitInputLine
  dsimp only
  split
  · split
    · exact ⟨⟨[], by simp [World.appendOutput, Tab.appendOutput]⟩,
        by simp [jobState, World.appendOutput, Tab.appendOutput],
        by simp [World.appendOutput], by simp [World.appendOutput]⟩
    · obtain ⟨h1, h2, h3, h4⟩ := submitCommit_busy w h
      exact ⟨⟨_, h1⟩, h2, h3, h4⟩
  · split
    · exact ⟨⟨[], by simp [World.appendOutput, Tab.appendOutput]⟩,
        by simp [jobState, World.appendOutput, Tab.appendOutput],
        by simp [World.appendOutput], by simp [World.appendOutput]⟩
    · obtain ⟨h1, h2, h3, h4⟩ := submitCommit_busy
        { ({ w with tab := { w.tab with contBuffer := contAccumulated w } }.appendOutput
            ("> ".toList ++ visibleInput w ++ ['\n'])) with
          tab := { ({ w with tab := { w.tab with contBuffer := contAccumulated w } }.appendOutput
            ("> ".toList ++ visibleInput w ++ ['\n'])).tab with
              input := [], cursor := 0,
              contJoinNoNewline := ends_with_backslash w.tab.input } } h
      exact ⟨⟨_, h1⟩, h2, h3, h4⟩

/-- C1. A session never runs two foreground jobs.  With a foreground job (`childPid > 0`)
`runNextCommand` changes nothing and `submitInputLine` only appends the submitted commands to
the back of `pendingCmds`, in order (for a complete line: the non-blank pieces of its lines;
for a completed continuation: the non-blank pieces of the accumulated buffer), leaving the
foreground pid, pgid and descriptors, the background jobs and the operating system untouched
and entering `executeLineInternal` not at all.  And from every state, each entry into
`executeLineInternal` made by `runNextCommand`, `submitInputLine` or `executeSingleCommand`
happens with `childPid <= 0`. -/
theorem one_foreground_job (w : World) :
    (w.tab.childPid > 0 →
      runNextCommand w = w ∧
      (∃ cmds, (submitInputLine w).tab.pendingCmds = w.tab.pendingCmds ++ cmds) ∧
      (w.tab.contActive = false → blankInput w = false →
        quotes_balanced_simple w.tab.input = true → ends_with_backslash w.tab.input = false →
        (submitInputLine w).tab.pendingCmds = w.tab.pendingCmds ++
          (split_lines_respecting_quotes w.tab.input).flatMap queuedPieces) ∧
      (w.tab.contActive = true →
        quotes_balanced_simple (contAccumulated w) = true →
        ends_with_backslash w.tab.input = false →
        (submitInputLine w).tab.pendingCmds = w.tab.pendingCmds ++
          queuedPieces (contAccumulated w)) ∧
      jobState (submitInputLine w) = jobState w ∧
      (submitInputLine w).entries = w.entries ∧
      (submitInputLine w).sys = w.sys) ∧
    (∃ l, (runNextCommand w).entries = w.entries ++ l ∧ ∀ p ∈ l, p ≤ 0) ∧
    (∃ l, (submitInputLine w).entries = w.entries ++ l ∧ ∀ p ∈ l, p ≤ 0) ∧
    (∀ line e, ∃ l, (executeSingleCommand w line e).entries = w.entries ++ l ∧
      ∀ p ∈ l, p ≤ 0) := by
  refine ⟨fun h => ?_, runNextCommand_entries w, ?_, ?_⟩
  · obtain ⟨h1, h2, h3, h4⟩ := submitInputLine_busy w h
    refine ⟨runNextCommand_busy w h, h1, ?_, ?_, h2, h3, h4⟩
    · intro hc hb hq hbs
      have hnb : (!w.tab.input.isEmpty && !isWhitespaceOnly w.tab.input) = true := by
        simpa [blankInput] using hb
      have hcc : committedCmds w = split_lines_respecting_quotes w.tab.input := by
        simp [committedCmds, hc, hnb]
      have := (submitCommit_busy w h).1
      rw [hcc] at this
      simpa [submitInputLine, hc, hq, hbs] using this
    · intro hc hq hbs
      have := (submitCommit_busy
        { ({ w with tab := { w.tab with contBuffer := contAccumulated w } }.appendOutput
            ("> ".toList ++ visibleInput w ++ ['\n'])) with
          tab := { ({ w with tab := { w.tab with contBuffer := contAccumulated w } }.appendOutput
            ("> ".toList ++ visibleInput w ++ ['\n'])).tab with
              input := [], cursor := 0,
              contJoinNoNewline := ends_with_backslash w.tab.input } } h).1
      simp only [committedCmds, World.appendOutput, Tab.appendOutput, hc, if_true,
        List.flatMap_cons, List.flatMap_nil, List.append_nil] at this
      simpa [submitInputLine, hc, hq, hbs, World.appendOutput, Tab.appendOutput] using this
  · unfold submitInputLine
    dsimp only
    split
    · split
      · exact ⟨[], by simp [World.appendOutput], by simp⟩
      · exact submitCommit_entries w
    · split
      · exact ⟨[], by simp [World.appendOutput], by simp⟩
      · exact submitCommit_entries _
  · intro line e
    unfold executeSingleCommand
    split
    · exact ⟨[], by simp, by simp⟩
    · exact runNextCommand_entries _

/-- C1, instance: a session whose foreground job has pid 4242 and whose queue holds `make`;
the line `ls; pwd` is submitted and both commands are queued behind `make`. -/
theorem one_foreground_job_witness :
    busyExample.tab.childPid > 0 ∧
    runNextCommand busyExample = busyExample ∧
    (submitInputLine busyExample).tab.pendingCmds =
      [("make".toList, false), ("ls".toList, false), (" pwd".toList, false)] ∧
    jobState (submitInputLine busyExample) = jobState busyExample :=
  ⟨by decide, ((one_foreground_job busyExample).1 (by decide)).1,
    by
      rw [((one_foreground_job busyExample).1 (by decide)).2.2.1 (by decide) (by decide)
        (by decide) (by decide)]
      decide,
    ((one_foreground_job busyExample).1 (by decide)).2.2.2.2.1⟩

/-! ## Continuation lines -/

/-- C9. An incomplete line is buffered, never executed.  Outside continuation mode, a
non-blank input with unbalanced quotes or a trailing backslash turns continuation mode on,
is stored (without the trailing backslash) in `contBuffer`, and leaves the queue, the job
state and the operating system alone, entering `executeLineInternal` not at all.  In
continuation mode, as long as the accumulated buffer has unbalanced quotes or the line just
entered ends with a backslash, the session stays in continuation mode with the accumulated
buffer and again nothing is queued or executed. -/
theorem incomplete_line_is_buffered (w : World) :
    (w.tab.contActive = false → blankInput w = false →
      (quotesBalanced w.tab.input = false ∨ ends_with_backslash w.tab.input = true) →
      (submitInputLine w).tab.contActive = true ∧
      (submitInputLine w).tab.contBuffer =
        (if ends_with_backslash w.tab.input then w.tab.input.dropLast else w.tab.input) ∧
      (submitInputLine w).tab.pendingCmds = w.tab.pendingCmds ∧
      jobState (submitInputLine w) = jobState w ∧
      (submitInputLine w).entries = w.entries ∧
      (submitInputLine w).log = w.log ∧
      (submitInputLine w).sys = w.sys) ∧
    (w.tab.contActive = true →
      (quotesBalanced (contAccumulated w) = false ∨ ends_with_backslash w.tab.input = true) →
      (submitInputLine w).tab.contActive = true ∧
      (submitInputLine w).tab.contBuffer = contAccumulated w ∧
      (submitInputLine w).tab.pendingCmds = w.tab.pendingCmds ∧
      jobState (submitInputLine w) = jobState w ∧
      (submitInputLine w).entries = w.entries ∧
      (submitInputLine w).log = w.log ∧
      (submitInputLine w).sys = w.sys) := by
  constructor
  · intro hc hb hq
    have hnb : (!w.tab.input.isEmpty && !isWhitespaceOnly w.tab.input) = true := by
      simpa [blankInput] using hb
    have hinc : (!quotes_balanced_simple w.tab.input || ends_with_backslash w.tab.input) =
        true := by
      rw [quotes_balanced_simple_eq]
      rcases hq with hq | hq <;> simp [hq]
    unfold submitInputLine
    simp only [hc, hnb, hinc, Bool.not_false, Bool.and_self, if_true]
    simp [World.appendOutput, Tab.appendOutput, jobState]
  · intro hc hq
    have hinc : (!quotes_balanced_simple (contAccumulated w) ||
        ends_with_backslash w.tab.input) = true := by
      rw [quotes_balanced_simple_eq]
      rcases hq with hq | hq <;> simp [hq]
    unfold submitInputLine
    simp only [hc, Bool.not_true, Bool.false_eq_true, if_false]
    simp [World.appendOutput, Tab.appendOutput, jobState, hinc, hc]

/-- C9, instance: `echo 'foo bar` typed at the prompt of an idle session with `make` queued. -/
theorem incomplete_line_is_buffered_witness :
    (submitInputLine unterminatedExample).tab.contActive = true ∧
    (submitInputLine unterminatedExample).tab.contBuffer = "echo 'foo bar".toList ∧
    (submitInputLine unterminatedExample).tab.pendingCmds = [("make".toList, false)] ∧
    (submitInputLine unterminatedExample).entries = [] :=
  have h := (incomplete_line_is_buffered unterminatedExample).1 (by decide) (by decide)
    (Or.inl (by decide))
  ⟨h.1, h.2.1, h.2.2.1, h.2.2.2.2.1⟩

/-! ## Built-ins and the dequeue protocol -/

/-- C2 (failing input). In an idle session with `echo done` queued, the built-in `kill`
returns without dequeuing on its normal path (`kill 4242`), on its invalid-pid path
(`kill abc`) and on its usage path (`kill`): the queue is unchanged and only the `kill` line
itself has entered `executeLineInternal`.  The sibling `killprocess 4242`, whose text is the
same but for a final `runNextCommand(t)`, dequeues and runs `echo done`.  The `~path` branch
of `cd`, reached here by `cd ~~x` with an empty `HOME`, returns without dequeuing as well,
whereas the other paths of `cd` dequeue. -/
theorem kill_leaves_queue_waiting :
    (executeLineInternal queuedExample "kill 4242".toList false).tab.pendingCmds =
      [("echo done".toList, false)] ∧
    (executeLineInternal queuedExample "kill 4242".toList false).entries = [-1] ∧
    (executeLineInternal queuedExample "kill abc".toList false).tab.pendingCmds =
      [("echo done".toList, false)] ∧
    (executeLineInternal queuedExample "kill".toList false).tab.pendingCmds =
      [("echo done".toList, false)] ∧
    (executeLineInternal queuedExample "killprocess 4242".toList false).tab.pendingCmds = [] ∧
    (executeLineInternal queuedExample "killprocess 4242".toList false).entries = [-1, -1] ∧
    (executeLineInternal queuedExampleEmptyHome "cd ~~x".toList false).tab.pendingCmds =
      [("echo done".toList, false)] ∧
    (executeLineInternal queuedExampleEmptyHome "cd /tmp".toList false).tab.pendingCmds = [] := by
  decide

/-! ## Background jobs -/

/-- C10 (failing input). The single-stage background line `sleep 5 &`, with `openpty` and
`fork` succeeding, is started on the PTY path, which returns before the background
registration: the job is the foreground job (`childPid = 100`, `outFd = 3`), `backgroundJobs`
stays empty and the queued `echo done` is not dequeued.  The two-stage `yes | head &` takes the
pipe path and is registered as a background job, the session left idle and the queue
consumed. -/
theorem background_single_stage_stays_foreground :
    (splitArgs "sleep 5 &".toList).getLast? = some ['&'] ∧
    (executeLineInternal ptyExample "sleep 5 &".toList false).tab.childPid = 100 ∧
    (executeLineInternal ptyExample "sleep 5 &".toList false).tab.outFd = 3 ∧
    (executeLineInternal ptyExample "sleep 5 &".toList false).tab.backgroundJobs = [] ∧
    (executeLineInternal ptyExample "sleep 5 &".toList false).tab.pendingCmds =
      [("echo done".toList, false)] ∧
    (executeLineInternal pipesExample "yes | head &".toList false).tab.backgroundJobs =
      [{ pid := 101, pgid := 100, outFd := 9, errFd := 11, cmd := "yes | head &".toList,
         isPty := false }] ∧
    jobState (executeLineInternal pipesExample "yes | head &".toList false) =
      (-1, -1, -1, -1, -1, [{ pid := 101, pgid := 100, outFd := 9, errFd := 11,
                              cmd := "yes | head &".toList, isPty := false }]) ∧
    (executeLineInternal pipesExample "yes | head &".toList false).tab.pendingCmds = [] := by
  decide

/-! ## Detach -/

theorem spawnFdKeeperDelayed_spec (w : World) (fd : Int) :
    (spawnFdKeeperDelayed w fd).tab = w.tab ∧
    ∃ evs, (spawnFdKeeperDelayed w fd).log = w.log ++ evs ∧
      ∀ c, Event.close c ∈ evs → Event.dup fd c ∈ evs := by
  unfold spawnFdKeeperDelayed
  dsimp only
  split_ifs
  · exact ⟨rfl, [], by simp, by simp⟩
  · exact ⟨rfl, [Event.dup fd (w.sys.dups.headD (-1))], by simp [World.dup], by simp⟩
  · refine ⟨rfl, [Event.dup fd (w.dup fd).2,
      Event.fork (Child.keeper (w.dup fd).2) ((w.dup fd).1.fork (Child.keeper (w.dup fd).2)).2,
      Event.close (w.dup fd).2], by simp [World.dup, World.fork, World.close, World.emit], ?_⟩
    intro c hc
    simp at hc
    simp [hc]
  · refine ⟨rfl, [Event.dup fd (w.dup fd).2,
      Event.fork (Child.keeper (w.dup fd).2) ((w.dup fd).1.fork (Child.keeper (w.dup fd).2)).2],
      by simp [World.dup, World.fork], ?_⟩
    intro c hc
    simp at hc

theorem detachForeground_log (w : World) :
    ∃ evs, (detachForeground w).log = w.log ++ evs ∧
      ∀ c, Event.close c ∈ evs → Event.dup w.tab.outFd c ∈ evs := by
  unfold detachForeground
  dsimp only
  split_ifs
  all_goals first
    | exact (spawnFdKeeperDelayed_spec w w.tab.outFd).2
    | exact ⟨[], by simp, by simp⟩

theorem detachForeground_jobs (w : World) (hfd : w.tab.outFd ≥ 0 ∨ w.tab.errFd ≥ 0) :
    (detachForeground w).tab.backgroundJobs = w.tab.backgroundJobs ++
      [{ pid := w.tab.childPid, pgid := w.tab.childPgid, outFd := w.tab.outFd,
         errFd := w.tab.errFd, cmd := "[detached]".toList,
         isPty := decide (w.tab.inFdWrite ≥ 0) && w.tab.inFdWrite == w.tab.outFd }] := by
  unfold detachForeground
  dsimp only
  rw [if_pos hfd]
  split_ifs <;> simp [(spawnFdKeeperDelayed_spec w w.tab.outFd).1]

/-- C11 (amended). Detach keeps a job that still has an open descriptor.  For every state with
`childPgid > 0` and `outFd >= 0` or `errFd >= 0`, the Ctrl+Z handler is `runNextCommand` after
a step that appends to `backgroundJobs` one entry with the former `childPid`, `childPgid`,
`outFd` and `errFd`, leaves the entries already there unchanged, clears the foreground fields,
and closes nothing but, possibly, the duplicate descriptor the PTY keeper has just made.  When
no command is pending that step is the whole operation. -/
theorem detach_keeps_job (w : World) (hpg : w.tab.childPgid > 0)
    (hfd : w.tab.outFd ≥ 0 ∨ w.tab.errFd ≥ 0) :
    handleCtrlZ w = runNextCommand (detachForeground w) ∧
    (∃ bj, (detachForeground w).tab.backgroundJobs = w.tab.backgroundJobs ++ [bj] ∧
      bj.pid = w.tab.childPid ∧ bj.pgid = w.tab.childPgid ∧ bj.outFd = w.tab.outFd ∧
      bj.errFd = w.tab.errFd) ∧
    jobState (detachForeground w) =
      (-1, -1, -1, -1, -1, (detachForeground w).tab.backgroundJobs) ∧
    (∃ evs, (detachForeground w).log = w.log ++ evs ∧
      ∀ c, Event.close c ∈ evs → Event.dup w.tab.outFd c ∈ evs) ∧
    (w.tab.pendingCmds = [] → handleCtrlZ w = detachForeground w) := by
  refine ⟨by simp [handleCtrlZ, hpg], ⟨_, detachForeground_jobs w hfd, rfl, rfl, rfl, rfl⟩,
    by simp [jobState, detachForeground], detachForeground_log w, ?_⟩
  intro hq
  have hq' : (detachForeground w).tab.pendingCmds = [] := by
    unfold detachForeground
    dsimp only
    split_ifs <;> simp [(spawnFdKeeperDelayed_spec w w.tab.outFd).1, hq]
  simp only [handleCtrlZ, hpg, if_true]
  rw [runNextCommand_eq, hq']
  simp

/-- C11, instance: the job 4242 on the pipes 7 and 8 is detached next to the background job
11. -/
theorem detach_keeps_job_witness :
    (handleCtrlZ detachExample).tab.backgroundJobs =
      [{ pid := 11, pgid := 11, outFd := 5, errFd := 6, cmd := "yes".toList, isPty := false },
       { pid := 4242, pgid := 4242, outFd := 7, errFd := 8, cmd := "[detached]".toList,
         isPty := false }] ∧
    (handleCtrlZ detachExample).log = [] := by
  have h := detach_keeps_job detachExample (by decide) (Or.inl (by decide))
  rw [h.2.2.2.2 rfl]
  decide

/-- C11 (counterexample). A foreground job whose two descriptors are already at end of file
(`outFd = errFd = -1`) is dropped by Ctrl+Z: no entry is appended to `backgroundJobs`, although
the foreground fields are cleared.  And with `sleep 9` pending, Ctrl+Z starts it at once, so
the session has a foreground job again (pid 100). -/
theorem detach_drops_silent_job :
    silentJobExample.tab.childPgid > 0 ∧
    (handleCtrlZ silentJobExample).tab.backgroundJobs = [] ∧
    (handleCtrlZ silentJobExample).tab.childPid = -1 ∧
    detachQueuedExample.tab.childPgid > 0 ∧
    (handleCtrlZ detachQueuedExample).tab.childPid = 100 := by
  decide

/-! ## The `kill` built-in: which process is signalled -/

theorem signalsSent_append (a b : List Event) :
    signalsSent (a ++ b) = signalsSent a ++ signalsSent b := by
  simp [signalsSent]

theorem signalPid_signals (w : World) (sig pid : Int) :
    signalsSent (signalPid w sig pid).log = signalsSent w.log ++ [Event.kill pid sig] := by
  unfold signalPid
  dsimp only
  split_ifs <;>
    simp [World.kill, World.emit, World.appendOutput, signalsSent, isSignal, List.filter_append]

theorem signalGroup_signals (w : World) (sig pgid : Int) :
    signalsSent (signalGroup w sig pgid).log = signalsSent w.log ++ [Event.killpg pgid sig] := by
  unfold signalGroup
  dsimp only
  split_ifs <;>
    simp [World.killpg, World.emit, World.appendOutput, signalsSent, isSignal,
      List.filter_append]

theorem signalJob_signals (w : World) (sig pid : Int) (job : BackgroundJob) :
    signalsSent (signalJob w sig pid job).log = signalsSent w.log ++
      [if job.pgid > 0 then Event.killpg job.pgid sig else Event.kill job.pid sig] := by
  unfold signalJob
  dsimp only
  by_cases hg : job.pgid > 0
  · simp only [hg, if_true]
    split_ifs <;>
      simp [World.close, World.emit, signalsSent_append, signalGroup_signals] <;>
      simp [signalsSent, isSignal]
  · simp only [hg, if_false]
    split_ifs <;>
      simp [World.close, World.emit, signalsSent_append, signalPid_signals] <;>
      simp [signalsSent, isSignal]

theorem find?_first_match {α : Type} (p : α → Bool) (pre : List α) (a : α) (post : List α)
    (hpre : ∀ x ∈ pre, p x = false) (ha : p a = true) :
    (pre ++ a :: post).find? p = some a := by
  induction pre with
  | nil => simp [ha]
  | cons x pre ih =>
    have hx := hpre x (List.mem_cons_self _ _)
    simp only [List.cons_append, List.find?_cons, hx]
    exact ih (fun y hy => hpre y (List.mem_cons_of_mem _ hy))

theorem hasSig_of_minus9 (args : List Str) (h : args.getD 1 [] = "-9".toList) :
    (decide (args.length ≥ 2) && decide ((args.getD 1 []).length > 1) &&
      (args.getD 1 []).head? == some '-') = true := by
  have hlen : args.length ≥ 2 := by
    by_contra hlt
    have : args.getD 1 [] = [] := List.getD_eq_default _ _ (by omega)
    rw [this] at h
    exact absurd h (by decide)
  rw [h]
  simp [hlen]

theorem killArgs_signal (name : Str) (w : World) (args : List Str) :
    killArgs name w args =
        (w.appendOutput ("usage: ".toList ++ name ++ " [-9] PID [PID ...]\n".toList), false) ∨
    ∃ k, killArgs name w args =
      ((args.drop k).foldl
        (killOne name (if args.getD 1 [] = "-9".toList then SIGKILL else SIGTERM)) w, true) := by
  have h9 := hasSig_of_minus9 args
  unfold killArgs
  dsimp only
  generalize (decide (args.length ≥ 2) && decide ((args.getD 1 []).length > 1) &&
      (args.getD 1 []).head? == some '-') = hasSig at h9 ⊢
  by_cases hu : (if hasSig = true then 2 else 1) ≥ args.length
  · left
    rw [if_pos hu]
  · right
    rw [if_neg hu]
    refine ⟨(if hasSig = true then 2 else 1), ?_⟩
    by_cases hm : args.getD 1 [] = "-9".toList
    · rw [h9 hm]
      simp only [hm, beq_self_eq_true, Bool.and_self, if_true]
    · have hb : (args.getD 1 [] == "-9".toList) = false := by
        simpa using hm
      simp only [hm, hb, Bool.and_false, if_false, Bool.false_eq_true]

/-- The target of the signal in terms of the process id after the conversion `(pid_t)v`.  For
every argument the `kill` built-in accepts as a pid, `p` being the process id it derives from
it (`pidOfArg`): when a background job has `pid = p` or `pgid = p`, the first such job in list
order is chosen and the one signal sent goes to its process group if `pgid > 0`, to its pid
otherwise; when no background job matches, the one signal sent goes to the process `p`
itself.  The loop of the built-in runs with `SIGKILL` (9) when the first argument is `-9`,
with `SIGTERM` (15) otherwise. -/
theorem kill_prefers_job_group (name : Str) (sig : Int) (w : World) (spid : Str)
    (args : List Str) :
    (validPidArg spid = true →
      (∀ pre job post, w.tab.backgroundJobs = pre ++ job :: post →
        (∀ j ∈ pre, j.pid ≠ pidOfArg spid ∧ j.pgid ≠ pidOfArg spid) →
        (job.pid = pidOfArg spid ∨ job.pgid = pidOfArg spid) →
        signalsSent (killOne name sig w spid).log = signalsSent w.log ++
          [if job.pgid > 0 then Event.killpg job.pgid sig else Event.kill job.pid sig]) ∧
      ((∀ j ∈ w.tab.backgroundJobs, j.pid ≠ pidOfArg spid ∧ j.pgid ≠ pidOfArg spid) →
        signalsSent (killOne name sig w spid).log =
          signalsSent w.log ++ [Event.kill (pidOfArg spid) sig])) ∧
    ((killBuiltin w args).1 =
        w.appendOutput ("usage: ".toList ++ "kill".toList ++ " [-9] PID [PID ...]\n".toList) ∨
      ∃ k, (killBuiltin w args).1 = (args.drop k).foldl
        (killOne "kill".toList (if args.getD 1 [] = "-9".toList then SIGKILL else SIGTERM)) w) ∧
    SIGKILL = 9 ∧ SIGTERM = 15 := by
  refine ⟨fun hv => ⟨?_, ?_⟩, ?_, rfl, rfl⟩
  · intro pre job post hjobs hpre hjob
    have hfind : w.tab.backgroundJobs.find?
        (fun j => j.pid == pidOfArg spid || j.pgid == pidOfArg spid) = some job := by
      rw [hjobs]
      apply find?_first_match
      · intro x hx
        have := hpre x hx
        simp [this.1, this.2]
      · rcases hjob with h | h <;> simp [h]
    unfold killOne
    dsimp only
    unfold validPidArg at hv
    rw [if_pos hv]
    unfold pidOfArg at hfind
    rw [hfind]
    exact signalJob_signals w sig _ job
  · intro hnone
    have hfind : w.tab.backgroundJobs.find?
        (fun j => j.pid == pidOfArg spid || j.pgid == pidOfArg spid) = none := by
      rw [List.find?_eq_none]
      intro x hx
      have := hnone x hx
      simp [this.1, this.2]
    unfold killOne
    dsimp only
    unfold validPidArg at hv
    rw [if_pos hv]
    unfold pidOfArg at hfind
    rw [hfind]
    exact signalPid_signals w sig _
  · unfold killBuiltin
    rcases killArgs_signal "kill".toList w args with h | ⟨k, h⟩
    · left; rw [h]
    · right; exact ⟨k, by rw [h]⟩

/-- With the pipeline 20/21 and the job 30 in the background, `21` selects the
first job and signals its group 20, `30` signals the pid 30 of the job without group, and `99`,
matching no job, is signalled directly. -/
theorem kill_prefers_job_group_witness :
    signalsSent (killOne "kill".toList SIGTERM killExample "21".toList).log =
      [Event.killpg 20 15] ∧
    signalsSent (killOne "kill".toList SIGKILL killExample "30".toList).log =
      [Event.kill 30 9] ∧
    signalsSent (killOne "kill".toList SIGTERM killExample "99".toList).log =
      [Event.kill 99 15] :=
  ⟨((kill_prefers_job_group "kill".toList SIGTERM killExample "21".toList []).1
      (by decide)).1 [] _ _ rfl (by decide) (by decide),
    ((kill_prefers_job_group "kill".toList SIGKILL killExample "30".toList []).1
      (by decide)).1 [_] _ [] rfl (by decide) (by decide),
    ((kill_prefers_job_group "kill".toList SIGTERM killExample "99".toList []).1
      (by decide)).2 (by decide)⟩

/-! ## Wiring of the stages -/

theorem forkedChildren_append (l m : List Event) :
    forkedChildren (l ++ m) = forkedChildren l ++ forkedChildren m := by
  induction l with
  | nil => rfl
  | cons e rest ih => cases e <;> simp [forkedChildren, ih]

theorem stageChild_wires (n : Nat) (stdinPipe : Option (Int × Int)) (pipesFD : List Int)
    (outWr errWr firstPid : Int) (i : Nat) (argv : List Str) (rinfo : Redir) :
    (stageChild n stdinPipe.isSome ((stdinPipe.map Prod.fst).getD (-1)) pipesFD outWr errWr
        firstPid i argv rinfo).wires =
      some (specStdin rinfo i pipesFD stdinPipe, specStdout rinfo i n pipesFD outWr) := by
  have hin : rinfo.in.isEmpty = true ↔ rinfo.in = [] := List.isEmpty_iff
  have hout : rinfo.out.isEmpty = true ↔ rinfo.out = [] := List.isEmpty_iff
  unfold stageChild Child.wires specStdin specStdout pipeReadEnd pipeWriteEnd
  simp only [Option.some.injEq, Prod.mk.injEq]
  constructor
  · by_cases h1 : rinfo.in = []
    · rcases Nat.eq_zero_or_pos i with h0 | hpos
      · subst h0
        cases stdinPipe <;> simp [h1]
      · have hne : (i == 0) = false := by simp; omega
        simp [h1, hne, hpos, Nat.mul_comm]
    · simp [h1]
  · by_cases h1 : rinfo.out = []
    · by_cases h2 : i + 1 < n <;> simp [h1, h2, Nat.mul_comm]
    · simp [h1]

theorem spawnStages_children (n : Nat) (stdinPipe : Option (Int × Int)) (pipesFD : List Int)
    (outWr errWr : Int) (stages : List Str) :
    ∀ (i : Nat) (w : World) (firstPid lastPid : Int),
      ∃ k, k ≤ stages.length ∧
        (forkedChildren (spawnStages n stdinPipe.isSome ((stdinPipe.map Prod.fst).getD (-1))
            pipesFD outWr errWr stages i w firstPid lastPid).1.log).map Child.wires =
          (forkedChildren w.log).map Child.wires ++
            ((specWiring n pipesFD stdinPipe outWr i stages).take k).map some ∧
        ((spawnStages n stdinPipe.isSome ((stdinPipe.map Prod.fst).getD (-1))
            pipesFD outWr errWr stages i w firstPid lastPid).2.isSome = true →
          k = stages.length) := by
  induction stages with
  | nil =>
    intro i w fp lp
    exact ⟨0, le_refl _, by simp [spawnStages, specWiring], fun _ => rfl⟩
  | cons st rest ih =>
    intro i w fp lp
    rw [spawnStages]
    dsimp only
    by_cases hemp : (parseCmdWithRedir st {}).1.isEmpty = true
    · rw [if_pos hemp]
      exact ⟨0, Nat.zero_le _, by simp [World.appendOutput], fun h => by simp at h⟩
    · rw [if_neg hemp]
      have hlog : ∀ c, (forkedChildren (w.fork c).1.log).map Child.wires =
          (forkedChildren w.log).map Child.wires ++ [c.wires] := by
        intro c
        simp [World.fork, forkedChildren_append, forkedChildren]
      have hw := stageChild_wires n stdinPipe pipesFD outWr errWr fp i
        (parseCmdWithRedir st {}).1 (parseCmdWithRedir st {}).2
      generalize stageChild n stdinPipe.isSome ((stdinPipe.map Prod.fst).getD (-1)) pipesFD
        outWr errWr fp i (parseCmdWithRedir st {}).1 (parseCmdWithRedir st {}).2 = c at hw ⊢
      by_cases hf : (w.fork c).2 < 0
      · rw [if_pos hf]
        refine ⟨1, by simp, ?_, fun h => by simp at h⟩
        simp only [World.appendOutput]
        rw [hlog, hw]
        simp [specWiring]
      · rw [if_neg hf]
        obtain ⟨k, hk, hch, hlen⟩ := ih (i + 1) (w.fork c).1
          (if (i == 0) = true then (w.fork c).2 else fp) (w.fork c).2
        refine ⟨k + 1, by simpa using hk, ?_, fun h => by simp [hlen h]⟩
        rw [hch, hlog, hw]
        simp [specWiring]

/-- C13, as amended. The children forked by the stage loop for an `n`-stage pipeline are wired,
in order, by precedence: stdin is the input file when an input path is given, otherwise the
read end of the pipe from stage `i - 1` when `i > 0`, otherwise the read end of the session's
stdin pipe when that pipe could be created and the stdin of the terminal process when it could
not; stdout is the output file when an output path is given, otherwise the write end of the
pipe to stage `i + 1` when `i < n - 1`, otherwise the session's stdout pipe.  The loop wires a
prefix of the stages so (all of them when it runs to its end), and an intermediate stage gets
only files and inter-stage pipes. -/
theorem stage_wiring_precedence (n : Nat) (stdinPipe : Option (Int × Int)) (pipesFD : List Int)
    (outWr errWr : Int) (stages : List Str) (w : World) :
    (∃ k, k ≤ stages.length ∧
      (forkedChildren (spawnStages n stdinPipe.isSome ((stdinPipe.map Prod.fst).getD (-1))
          pipesFD outWr errWr stages 0 w (-1) (-1)).1.log).map Child.wires =
        (forkedChildren w.log).map Child.wires ++
          ((specWiring n pipesFD stdinPipe outWr 0 stages).take k).map some ∧
      ((spawnStages n stdinPipe.isSome ((stdinPipe.map Prod.fst).getD (-1))
          pipesFD outWr errWr stages 0 w (-1) (-1)).2.isSome = true → k = stages.length)) ∧
    (∀ (i : Nat) (rinfo : Redir), 0 < i → i + 1 < n →
      specStdin rinfo i pipesFD stdinPipe =
        (if rinfo.in ≠ [] then Wire.file rinfo.in false
          else Wire.fd (pipeReadEnd pipesFD (i - 1))) ∧
      specStdout rinfo i n pipesFD outWr =
        (if rinfo.out ≠ [] then Wire.file rinfo.out rinfo.append
          else Wire.fd (pipeWriteEnd pipesFD i))) := by
  refine ⟨spawnStages_children n stdinPipe pipesFD outWr errWr stages 0 w (-1) (-1), ?_⟩
  intro i rinfo hpos hlt
  unfold specStdin specStdout
  simp [hpos, hlt]

/-- C13, instance: three stages `a`, `b < f`, `c > g` on the inter-stage pipes (5, 6) and
(7, 8), the session stdin pipe (9, 10) and the session stdout write end 12. -/
theorem stage_wiring_precedence_witness :
    specWiring 3 [5, 6, 7, 8] (some (9, 10)) 12 0 ["a".toList, "b < f".toList, "c > g".toList] =
      [(Wire.fd 9, Wire.fd 6), (Wire.file "f".toList false, Wire.fd 8),
        (Wire.fd 7, Wire.file "g".toList false)] ∧
    ∃ k, k ≤ 3 ∧
      (forkedChildren (spawnStages 3 true 9 [5, 6, 7, 8] 12 14
          ["a".toList, "b < f".toList, "c > g".toList] 0
          { sys := { forks := [some 99, some 100, some 101] } } (-1) (-1)).1.log).map
            Child.wires =
        ((specWiring 3 [5, 6, 7, 8] (some (9, 10)) 12 0
          ["a".toList, "b < f".toList, "c > g".toList]).take k).map some :=
  ⟨by decide,
    (stage_wiring_precedence 3 (some (9, 10)) [5, 6, 7, 8] 12 14
      ["a".toList, "b < f".toList, "c > g".toList]
      { sys := { forks := [some 99, some 100, some 101] } }).1.imp
      (fun _ h => ⟨h.1, h.2.1⟩)⟩

/-- C13, counterexample to the claim as worded: `cat > out.txt` on a system where the `pipe`
call for the session's stdin pipe fails.  Stage 0 has no input path and no stage before it,
yet its stdin is no session pipe: the child keeps the stdin of the terminal process.  (And a
single stage without redirection, as `ls`, is not wired by the stage loop at all when the PTY
can be opened: its child gets the PTY slave, here 4.) -/
theorem stage0_stdin_not_session_pipe :
    forkedChildren (executeLineInternal homeExample "ls".toList false).log =
      [Child.pty ["ls".toList] 4] ∧
    (forkedChildren
        (executeLineInternal noStdinPipeExample "cat > out.txt".toList false).log).map
          Child.wires =
      [some (Wire.inherited, Wire.file "out.txt".toList false)] ∧
    ¬ ∃ fd, (forkedChildren
        (executeLineInternal noStdinPipeExample "cat > out.txt".toList false).log).map
          Child.wires =
      [some (Wire.fd fd, Wire.file "out.txt".toList false)] := by
  have h : (forkedChildren
        (executeLineInternal noStdinPipeExample "cat > out.txt".toList false).log).map
          Child.wires =
      [some (Wire.inherited, Wire.file "out.txt".toList false)] := by decide
  refine ⟨by decide, h, ?_⟩
  rintro ⟨fd, hfd⟩
  rw [h] at hfd
  simp at hfd

/-! ## What reaches `execvp` -/

/-- C14, failing input: `ls $HOME` with `HOME=/root`.  The one child that is forked executes
the argument vector `ls`, `$HOME`: the stages are parsed again from the line as typed, and the
arguments expanded by `expandVars` at the head of `executeLineInternal` (which would give
`ls`, `/root`) reach only the built-ins, as `cd $HOME` shows, whose `chdir` goes to `/root`. -/
theorem exec_argv_skips_expandVars :
    (forkedChildren (executeLineInternal homeExample "ls $HOME".toList false).log).map
        (Child.execArgv homeExample.sys) = [["ls".toList, "$HOME".toList]] ∧
    expandGlobs homeExample.sys
        ((splitArgs "ls $HOME".toList).map (expandVars homeExample.sys)) =
      ["ls".toList, "/root".toList] ∧
    (executeLineInternal homeExample "cd $HOME".toList false).log =
      [Event.chdir (some "/root".toList)] := by
  decide

/-! ## Variable expansion -/

theorem expandVarsLoop_skip (sys : Sys) (pre rest out : Str) :
    expandVarsLoop sys (pre ++ rest) out pre.length = expandVarsLoop sys rest out 0 := by
  induction pre with
  | nil => rfl
  | cons c p ih => simpa [expandVarsLoop] using ih

theorem expandVarsLoop_acc (sys : Sys) (s : Str) :
    ∀ (out : Str) (k : Nat), expandVarsLoop sys s out k = out ++ expandVarsLoop sys s [] k := by
  induction s with
  | nil => intro out k; simp [expandVarsLoop]
  | cons c rest ih =>
    intro out k
    rw [expandVarsLoop, expandVarsLoop]
    by_cases hk : k > 0
    · rw [if_pos hk, if_pos hk]; exact ih _ _
    · rw [if_neg hk, if_neg hk]
      by_cases hc : (c == '$') = true
      · rw [if_pos hc, if_pos hc]
        dsimp only
        rw [ih (out ++ _), ih ([] ++ _)]
        simp
      · rw [if_neg hc, if_neg hc]
        rw [ih (out ++ _), ih ([] ++ _)]
        simp

theorem expandVarsLoop_dollar (sys : Sys) (rest : Str) :
    expandVarsLoop sys ('$' :: rest) [] 0 =
      (sys.getenv (rest.takeWhile isNameChar)).getD [] ++
        expandVarsLoop sys (rest.dropWhile isNameChar) [] 0 := by
  have hfun : (fun d => isalnum d || d == '_') = isNameChar := rfl
  rw [expandVarsLoop]
  simp only [gt_iff_lt, lt_self_iff_false, if_false, beq_self_eq_true, if_true, hfun,
    List.nil_append]
  rw [expandVarsLoop_acc]
  congr 1
  have h := expandVarsLoop_skip sys (rest.takeWhile isNameChar) (rest.dropWhile isNameChar) []
  rw [List.takeWhile_append_dropWhile] at h
  exact h

theorem expandVarsLoop_plain (sys : Sys) (c : Char) (rest : Str) (hc : c ≠ '$') :
    expandVarsLoop sys (c :: rest) [] 0 = c :: expandVarsLoop sys rest [] 0 := by
  rw [expandVarsLoop]
  simp only [gt_iff_lt, lt_self_iff_false, if_false, beq_iff_eq, hc, List.nil_append]
  rw [expandVarsLoop_acc]
  rfl

theorem splitOnP_append_of_neg (p : Char → Bool) (pre s : Str) (h : ∀ c ∈ pre, p c = false) :
    (pre ++ s).splitOnP p = (s.splitOnP p).modifyHead (fun q => pre ++ q) := by
  induction pre with
  | nil =>
    simp only [List.nil_append]
    cases List.splitOnP p s <;> simp [List.modifyHead]
  | cons c r ih =>
    have hc : p c = false := h c (List.mem_cons_self _ _)
    have hr : ∀ d ∈ r, p d = false := fun d hd => h d (List.mem_cons_of_mem _ hd)
    rw [List.cons_append, List.splitOnP_cons, ih hr]
    simp only [hc, Bool.false_eq_true, if_false]
    cases List.splitOnP p s <;> simp [List.modifyHead]

theorem head_splitOnP_not_name (s : Str) (h : ∀ c, s.head? = some c → isNameChar c = false) :
    ∀ c, ((s.splitOnP (fun c => c == '$')).headD []).head? = some c → isNameChar c = false := by
  cases s with
  | nil => simp [List.splitOnP_nil]
  | cons d r =>
    intro c
    rw [List.splitOnP_cons]
    by_cases hd : (d == '$') = true
    · simp [hd]
    · have hne := List.splitOnP_ne_nil (fun c => c == '$') r
      cases hX : List.splitOnP (fun c => c == '$') r with
      | nil => exact absurd hX hne
      | cons q qs =>
        intro hcd
        simp [hd, List.modifyHead] at hcd
        exact h c (by simp [hcd])

theorem takeWhile_append_stop (p : Char → Bool) (a b : Str) (ha : ∀ c ∈ a, p c = true)
    (hb : ∀ c, b.head? = some c → p c = false) :
    (a ++ b).takeWhile p = a ∧ (a ++ b).dropWhile p = b := by
  rw [List.takeWhile_append_of_pos ha, List.dropWhile_append_of_pos ha]
  cases b with
  | nil => simp
  | cons d r =>
    have := hb d rfl
    simp [List.takeWhile_cons, List.dropWhile_cons, this]

theorem expandVarsLoop_eq_spec (sys : Sys) (n : Nat) :
    ∀ s : Str, s.length ≤ n →
      expandVarsLoop sys s [] 0 =
        (s.splitOnP (fun c => c == '$')).headD [] ++
          ((s.splitOnP (fun c => c == '$')).drop 1).flatMap (fun q =>
            (sys.getenv (q.takeWhile isNameChar)).getD [] ++ q.dropWhile isNameChar) := by
  induction n with
  | zero =>
    intro s hs
    have : s = [] := List.length_eq_zero.mp (Nat.le_zero.mp hs)
    subst this
    simp [expandVarsLoop, List.splitOnP_nil]
  | succ n ih =>
    intro s hs
    cases s with
    | nil => simp [expandVarsLoop, List.splitOnP_nil]
    | cons c rest =>
      have hrest : rest.length ≤ n := by simpa using hs
      by_cases hc : c = '$'
      · subst hc
        rw [expandVarsLoop_dollar, List.splitOnP_cons]
        simp only [beq_self_eq_true, if_true, List.headD_cons, List.nil_append, List.drop_one,
          List.tail_cons]
        have hdw : (rest.dropWhile isNameChar).length ≤ n :=
          le_trans (List.dropWhile_sublist isNameChar).length_le hrest
        rw [ih _ hdw]
        have hsplit := splitOnP_append_of_neg (fun c => c == '$') (rest.takeWhile isNameChar)
          (rest.dropWhile isNameChar) (by
            intro d hd
            have := List.mem_takeWhile_imp hd
            by_contra hne
            have hd2 : d = '$' := by simpa using hne
            subst hd2
            simp [isNameChar, isalnum] at this)
        rw [List.takeWhile_append_dropWhile] at hsplit
        rw [hsplit]
        have hne := List.splitOnP_ne_nil (fun c => c == '$') (rest.dropWhile isNameChar)
        have hhead := head_splitOnP_not_name (rest.dropWhile isNameChar) (by
          intro d hd
          have := List.head?_dropWhile_not isNameChar rest
          rw [hd] at this
          simpa using this)
        cases hX : List.splitOnP (fun c => c == '$') (rest.dropWhile isNameChar) with
        | nil => exact absurd hX hne
        | cons q qs =>
          rw [hX] at hhead
          have htd := takeWhile_append_stop isNameChar (rest.takeWhile isNameChar) q
            (fun d hd => List.mem_takeWhile_imp hd) (by simpa using hhead)
          simp [List.modifyHead, htd.1, htd.2]
      · rw [expandVarsLoop_plain sys c rest hc, List.splitOnP_cons, ih rest hrest]
        have hne := List.splitOnP_ne_nil (fun c => c == '$') rest
        cases hX : List.splitOnP (fun c => c == '$') rest with
        | nil => exact absurd hX hne
        | cons q qs => simp [hc, List.modifyHead]

/-- C15. For every argument `s` and environment: `expandVars` is the function of the contract
(`specExpandVars`): with a leading `~` the home directory (`HOME`, empty when unset) followed
by `s` without its first character; otherwise `s` with every `$` and the maximal run of
alphanumeric or underscore characters after it replaced, left to right, by the value of that
name, or by nothing when the name is unset.  An argument with no `$` and no leading `~` is
returned unchanged. -/
theorem expandVars_eq_spec (sys : Sys) (s : Str) :
    expandVars sys s = specExpandVars sys s ∧
    (∀ rest, s = '~' :: rest →
      expandVars sys s = (sys.getenv "HOME".toList).getD [] ++ rest) ∧
    ('$' ∉ s → s.head? ≠ some '~' → expandVars sys s = s) := by
  have hmain : expandVars sys s = specExpandVars sys s := by
    unfold expandVars specExpandVars
    by_cases h : s.head? = some '~'
    · simp [h]
    · have hb : (s.head? == some '~') = false := by simpa using h
      rw [if_neg h, hb]
      simpa using expandVarsLoop_eq_spec sys s.length s (le_refl _)
  refine ⟨hmain, ?_, ?_⟩
  · intro rest hs
    subst hs
    simp [expandVars]
  · intro hd ht
    rw [hmain]
    unfold specExpandVars
    rw [if_neg ht, List.splitOnP_eq_single]
    · simp
    · intro x hx hxd
      have : x = '$' := by simpa using hxd
      exact hd (this ▸ hx)

/-- C15, instance: `$HOME/x$Y.z` with `HOME=/root` and `Y` unset, `~/src`, and the plain
`a_b`. -/
theorem expandVars_eq_spec_witness :
    expandVars { env := [("HOME".toList, "/root".toList)] } "$HOME/x$Y.z".toList =
      "/root/x.z".toList ∧
    expandVars { env := [("HOME".toList, "/root".toList)] } "~/src".toList =
      "/root/src".toList ∧
    expandVars { env := [("HOME".toList, "/root".toList)] } "a_b".toList = "a_b".toList :=
  ⟨(expandVars_eq_spec { env := [("HOME".toList, "/root".toList)] }
      "$HOME/x$Y.z".toList).1.trans (by decide),
    (expandVars_eq_spec { env := [("HOME".toList, "/root".toList)] } "~/src".toList).2.1
      _ rfl,
    (expandVars_eq_spec { env := [("HOME".toList, "/root".toList)] } "a_b".toList).2.2
      (by decide) (by decide)⟩

/-! ## Reaping the foreground job -/

/-- C16, failing input: `sort < in.txt` runs as the foreground job 100 on the descriptors 7 and
8; the child exits while both reads of the pump still yield `EAGAIN`.  `pumpChildOutput` reaps
it and returns the session to idle with `outFd = 7` and `errFd = 8`, neither of them closed;
with `sleep 9` queued, the command spawned at once overwrites both fields, and the
descriptors 7 and 8 stay open with no field naming them. -/
theorem reap_leaves_descriptors_open :
    jobState exitedJobExample = (100, 100, 7, 8, -1, []) ∧
    (pumpChildOutput exitedJobExample).log = exitedJobExample.log ++
      [Event.read 7 ReadResult.again, Event.read 8 ReadResult.again, Event.waitpid 100 true] ∧
    jobState (pumpChildOutput exitedJobExample) = (-1, -1, 7, 8, -1, []) ∧
    Event.close 7 ∉ (pumpChildOutput exitedJobExample).log ∧
    Event.close 8 ∉ (pumpChildOutput exitedJobExample).log ∧
    jobState (pumpChildOutput exitedJobQueuedExample) = (101, 101, 3, -1, 3, []) ∧
    Event.close 7 ∉ (pumpChildOutput exitedJobQueuedExample).log ∧
    Event.close 8 ∉ (pumpChildOutput exitedJobQueuedExample).log := by
  refine ⟨by decide, by decide, by decide, by decide, by decide, by decide, by decide, by decide⟩

/-! ## Normalising the output of a child -/

theorem sanitizeStep_text (c : Char) (next : Option Char) (t : Tab)
    (ht : t.ansiState = AnsiState.ANSI_TEXT) (hc : c.toNat ≠ 0x1B) :
    sanitizeStep c next t =
      (t, if (c == '\r' && next == some '\n') = true then [] else normChar c) := by
  unfold sanitizeStep normChar
  rw [ht]
  have hesc : (c.toNat == 0x1B) = false := by simpa using hc
  simp only [hesc, Bool.false_eq_true, if_false]
  by_cases h1 : c = '\r'
  · subst h1
    by_cases h2 : next = some '\n' <;> simp [h2]
  · by_cases h2 : c = '\n'
    · subst h2; simp
    · by_cases h3 : c = '\t'
      · subst h3; simp
      · by_cases h4 : c.toNat = 0x07
        · have h5 : c.toNat < 0x20 := by omega
          simp [h1, h2, h3, h4]
        · by_cases h5 : c.toNat < 0x20
          · have h6 : ¬ (0x20 ≤ c.toNat) := by omega
            simp [h1, h2, h3, h4, h5, h6]
          · have h6 : 0x20 ≤ c.toNat := by omega
            simp [h1, h2, h3, h4, h5, h6]

theorem specNormalize_cons (c : Char) (rest : Str) :
    specNormalize (c :: rest) =
      (if (c == '\r' && rest.head? == some '\n') = true then [] else normChar c) ++
        specNormalize rest := by
  unfold specNormalize
  rw [collapseCRLF]
  by_cases h : (c == '\r' && rest.head? == some '\n') = true
  · rw [if_pos h, if_pos h]; rfl
  · rw [if_neg h, if_neg h]; simp

theorem sanitizeLoop_text (s : Str) :
    ∀ (t : Tab) (out : Str), t.ansiState = AnsiState.ANSI_TEXT →
      (∀ c ∈ s, c.toNat ≠ 0x1B) → sanitizeLoop s t out = (t, out ++ specNormalize s) := by
  induction s with
  | nil => intro t out _ _; simp [sanitizeLoop, specNormalize, collapseCRLF]
  | cons c rest ih =>
    intro t out ht hs
    have hc : c.toNat ≠ 0x1B := hs c (List.mem_cons_self _ _)
    have hr : ∀ d ∈ rest, d.toNat ≠ 0x1B := fun d hd => hs d (List.mem_cons_of_mem _ hd)
    rw [sanitizeLoop, sanitizeStep_text c rest.head? t ht hc]
    dsimp only
    rw [ih t _ ht hr, specNormalize_cons, List.append_assoc]

/-- C17. For every chunk without an ESC byte, processed in the state `ANSI_TEXT`:
`sanitizeAndApplyANSI` returns the chunk with every CR LF pair and every lone CR turned into
one LF, every tab into four spaces, every other control byte below 0x20 except LF dropped and
every other byte kept in order (`specNormalize`); the tab, with its ANSI state and its
scrollback, is unchanged. -/
theorem sanitize_plain_text (t : Tab) (s : Str) (ht : t.ansiState = AnsiState.ANSI_TEXT)
    (hs : ∀ c ∈ s, c.toNat ≠ 0x1B) :
    sanitizeAndApplyANSI t s = (t, specNormalize s) ∧
    (sanitizeAndApplyANSI t s).1.ansiState = AnsiState.ANSI_TEXT ∧
    (sanitizeAndApplyANSI t s).1.scrollback = t.scrollback := by
  have h : sanitizeAndApplyANSI t s = (t, specNormalize s) := by
    unfold sanitizeAndApplyANSI
    rw [sanitizeLoop_text s t [] ht hs]
    rfl
  rw [h]
  exact ⟨rfl, ht, rfl⟩

/-- C17, instance: the chunk `a CR LF b CR TAB c BEL LF` becomes `a LF b LF`, four spaces,
`c LF`. -/
theorem sanitize_plain_text_witness :
    (∀ c ∈ ['a', '\r', '\n', 'b', '\r', '\t', 'c', Char.ofNat 7, '\n'], c.toNat ≠ 0x1B) ∧
    sanitizeAndApplyANSI {} ['a', '\r', '\n', 'b', '\r', '\t', 'c', Char.ofNat 7, '\n'] =
      ({}, "a\nb\n    c\n".toList) :=
  ⟨by decide,
    ((sanitize_plain_text {} ['a', '\r', '\n', 'b', '\r', '\t', 'c', Char.ofNat 7, '\n'] rfl
      (by decide)).1).trans (by decide)⟩

/-- C18, counterexample to the claim as worded: the chunk `ESC [ 3 1 m r e d` in the state
`ANSI_TEXT`.  The string returned is the chunk itself, ESC and the bytes of the CSI sequence
included: a finished sequence is appended to the output, not stripped.  The same holds for
`ESC [ 2 J`, which clears the scrollback and is forwarded as well. -/
theorem sanitize_forwards_escape_sequences :
    (sanitizeAndApplyANSI {} (Char.ofNat 0x1B :: "[31mred".toList)).2 =
      Char.ofNat 0x1B :: "[31mred".toList ∧
    Char.ofNat 0x1B ∈ (sanitizeAndApplyANSI {} (Char.ofNat 0x1B :: "[31mred".toList)).2 ∧
    sanitizeAndApplyANSI { scrollback := "old\n".toList } (Char.ofNat 0x1B :: "[2J".toList) =
      ({}, Char.ofNat 0x1B :: "[2J".toList) := by
  refine ⟨by decide, by decide, by decide⟩

/-- The test for clear-screen looks for a `2` anywhere in the sequence: `ESC [ 1 2 J`, which is
no `CSI 2 J`, clears the scrollback too. -/
theorem sanitize_clears_on_any_2 :
    sanitizeAndApplyANSI { scrollback := "old\n".toList } (Char.ofNat 0x1B :: "[12J".toList) =
      ({}, Char.ofNat 0x1B :: "[12J".toList) := by
  decide

/-! ## Framing of the watch output -/

/-- C19, failing input: the channel of `date` at time 1700000000 when `poll` reports a hang-up
without `POLLIN` and a read still yields `hi`.  The header written by the drain loop is
`"date" , 1700000000 :` without the words `current_time:`, unlike the header the three other
branches write for the same command and time (shown for first data on `POLLIN`, end of file
on `POLLIN` and hang-up without data). -/
theorem watch_drain_header_lacks_label :
    (watchHandleFd "date".toList 1700000000 false true
        { fd := 5, reads := [ReadResult.data "hi\n".toList] }).written =
      [(WatchKind.header, "\"date\" , 1700000000 :\n".toList), (WatchKind.separator, watchSep),
        (WatchKind.data, "hi\n".toList), (WatchKind.separator, watchSep)] ∧
    (watchHandleFd "date".toList 1700000000 true false
        { fd := 5, reads := [ReadResult.data "hi\n".toList] }).written =
      [(WatchKind.header, "\"date\" , current_time: 1700000000 :\n".toList),
        (WatchKind.separator, watchSep), (WatchKind.data, "hi\n".toList)] ∧
    (watchHandleFd "date".toList 1700000000 true false
        { fd := 5, reads := [ReadResult.eof] }).written =
      [(WatchKind.header, "\"date\" , current_time: 1700000000 :\n".toList),
        (WatchKind.separator, watchSep), (WatchKind.separator, watchSep)] ∧
    (watchHandleFd "date".toList 1700000000 false true
        { fd := 5, reads := [ReadResult.eof] }).written =
      [(WatchKind.header, "\"date\" , current_time: 1700000000 :\n".toList),
        (WatchKind.separator, watchSep), (WatchKind.separator, watchSep)] := by
  refine ⟨by decide, by decide, by decide, by decide⟩

theorem sepExt_refl (a : WatchChan) : SepExt a a := ⟨0, by simp⟩

theorem sepExt_trans {a b c : WatchChan} (h1 : SepExt a b) (h2 : SepExt b c) : SepExt a c := by
  obtain ⟨k1, e1⟩ := h1
  obtain ⟨k2, e2⟩ := h2
  exact ⟨k1 + k2, by rw [e2, e1, List.append_assoc, List.replicate_add]⟩

theorem sepExt_of_written {a b : WatchChan} (h : b.written = a.written) : SepExt a b :=
  ⟨0, by simp [separatorsWritten, h]⟩

theorem sepExt_printHeader (ch : WatchChan) (hdr : Str) : SepExt ch (ch.printHeader hdr) := by
  unfold WatchChan.printHeader
  by_cases h : (!ch.headerPrinted) = true
  · rw [if_pos h]
    exact ⟨1, by simp [separatorsWritten, List.filter_cons]⟩
  · rw [if_neg h]
    exact sepExt_refl ch

theorem sepExt_printTrailer (ch : WatchChan) : SepExt ch ch.printTrailer := by
  unfold WatchChan.printTrailer
  by_cases h : (!ch.trailerPrinted) = true
  · rw [if_pos h]
    exact ⟨1, by simp [separatorsWritten, List.filter_cons]⟩
  · rw [if_neg h]
    exact sepExt_refl ch

theorem sepExt_shut (ch : WatchChan) (u : Bool) : SepExt ch (ch.shut u) :=
  sepExt_of_written rfl

theorem sepExt_data (ch : WatchChan) (bytes : Str) :
    SepExt ch { ch with written := ch.written ++ [(WatchKind.data, bytes)] } :=
  ⟨0, by simp [separatorsWritten, List.filter_cons]⟩

theorem sepExt_close (cmd : Str) (now : Int) (ch : WatchChan) :
    SepExt ch (((ch.printHeader (watchHeader cmd now)).printTrailer).shut true) :=
  sepExt_trans (sepExt_trans (sepExt_printHeader _ _) (sepExt_printTrailer _)) (sepExt_shut _ _)

theorem sepExt_watchPollin (cmd : Str) (now : Int) (ch : WatchChan) :
    SepExt ch (watchPollin cmd now ch) := by
  have h1 : SepExt ch { ch with reads := ch.reads.drop 1 } := sepExt_of_written rfl
  unfold watchPollin
  dsimp only
  cases ch.reads.headD ReadResult.again with
  | data bytes =>
    dsimp only
    by_cases hb : bytes.isEmpty = true
    · rw [if_pos hb]
      exact sepExt_trans h1 (sepExt_close cmd now _)
    · rw [if_neg hb]
      exact sepExt_trans h1 (sepExt_trans (sepExt_printHeader _ _) (sepExt_data _ _))
  | eof => exact sepExt_trans h1 (sepExt_close cmd now _)
  | again => exact h1
  | error => exact sepExt_trans h1 (sepExt_shut _ _)

theorem sepExt_watchDrainLoop (cmd : Str) (now : Int) (reads : List ReadResult) :
    ∀ ch : WatchChan, SepExt ch (watchDrainLoop cmd now reads ch) := by
  induction reads with
  | nil => intro ch; exact sepExt_of_written rfl
  | cons r rest ih =>
    intro ch
    cases r with
    | data bytes =>
      rw [watchDrainLoop]
      by_cases hb : bytes.isEmpty = true
      · rw [if_pos hb]; exact sepExt_of_written rfl
      · rw [if_neg hb]
        exact sepExt_trans (sepExt_trans (sepExt_printHeader _ _) (sepExt_data _ _)) (ih _)
    | eof => exact sepExt_of_written rfl
    | again => exact sepExt_of_written rfl
    | error => exact sepExt_of_written rfl

theorem sepExt_watchHup (cmd : Str) (now : Int) (ch : WatchChan) :
    SepExt ch (watchHup cmd now ch) := by
  have h1 : SepExt ch (if ch.fd < 0 then ch else watchDrainLoop cmd now ch.reads ch) := by
    by_cases h : ch.fd < 0
    · rw [if_pos h]; exact sepExt_refl ch
    · rw [if_neg h]; exact sepExt_watchDrainLoop cmd now ch.reads ch
  have h2 := sepExt_trans h1 (sepExt_trans (sepExt_printHeader _ (watchHeader cmd now))
    (sepExt_printTrailer _))
  unfold watchHup
  dsimp only
  generalize (if ch.fd < 0 then ch else watchDrainLoop cmd now ch.reads ch) = c at h1 h2 ⊢
  by_cases h : ((c.printHeader (watchHeader cmd now)).printTrailer).fd ≥ 0
  · rw [if_pos h]; exact sepExt_trans h2 (sepExt_shut _ _)
  · rw [if_neg h]; exact h2

theorem sepExt_watchHandleFd (cmd : Str) (now : Int) (pollin pollhup : Bool) (ch : WatchChan) :
    SepExt ch (watchHandleFd cmd now pollin pollhup ch) := by
  have h1 : SepExt ch (if pollin = true then watchPollin cmd now ch else ch) := by
    cases pollin
    · exact sepExt_refl ch
    · exact sepExt_watchPollin cmd now ch
  unfold watchHandleFd
  dsimp only
  by_cases h : ch.fd < 0
  · rw [if_pos h]; exact sepExt_refl ch
  · rw [if_neg h]
    cases pollhup
    · exact h1
    · exact sepExt_trans h1 (sepExt_watchHup cmd now _)

/-- C20, as amended. Every separator line the watch supervisor writes while it handles a
channel, the one after the header as well as the trailing one, is the same line of exactly 52
`-` characters followed by a newline: the separators written afterwards are those written
before followed by copies of that line. -/
theorem watch_separator_is_52_dashes (cmd : Str) (now : Int) (pollin pollhup : Bool)
    (ch : WatchChan) :
    ∃ k, separatorsWritten (watchHandleFd cmd now pollin pollhup ch) =
      separatorsWritten ch ++ List.replicate k (List.replicate 52 '-' ++ ['\n']) := by
  have h : watchSep = List.replicate 52 '-' ++ ['\n'] := by decide
  rw [← h]
  exact sepExt_watchHandleFd cmd now pollin pollhup ch

/-- End of file on `POLLIN` for `date`: the header is followed by the separator and the
trailing separator, both of 52 dashes. -/
theorem watch_separators_at_eof :
    separatorsWritten (watchHandleFd "date".toList 1700000000 true false
        { fd := 5, reads := [ReadResult.eof] }) =
      List.replicate 2 (List.replicate 52 '-' ++ ['\n']) := by
  decide

/-- C20, counterexample to the claim as worded: the separator written after the header of
`date` has 52 dashes, so it is not the line of 54 dashes followed by a newline. -/
theorem watch_separator_not_54_dashes :
    separatorsWritten (watchHandleFd "date".toList 1700000000 true false
        { fd := 5, reads := [ReadResult.data "hi\n".toList] }) =
      [List.replicate 52 '-' ++ ['\n']] ∧
    ¬ (∀ s ∈ separatorsWritten (watchHandleFd "date".toList 1700000000 true false
        { fd := 5, reads := [ReadResult.data "hi\n".toList] }),
      s = List.replicate 54 '-' ++ ['\n']) := by
  refine ⟨by decide, by decide⟩

/-! ## The list form of `multiWatch` -/

/-- C25, failing input: the line `multiWatch ["echo a,b", "date"]`.  `splitArgs` has removed
the quote characters before the list is parsed, so the parser of the list form sees
`[echo a,b, date]` and cuts at the comma inside the first command: the supervisor is started
with the three commands `echo a`, `b`, `date` instead of the two quoted items. -/
theorem watch_list_splits_quoted_comma :
    splitArgs "multiWatch [\"echo a,b\", \"date\"]".toList =
      ["multiWatch".toList, "[echo a,b,".toList, "date]".toList] ∧
    watchCmds (splitArgs "multiWatch [\"echo a,b\", \"date\"]".toList) =
      ["echo a".toList, "b".toList, "date".toList] ∧
    forkedChildren (executeLineInternal { sys := { pipes := [some (5, 6)], forks := [some 99] } }
        "multiWatch [\"echo a,b\", \"date\"]".toList false).log =
      [Child.supervisor ["echo a".toList, "b".toList, "date".toList] 2 6] := by
  refine ⟨by decide, by decide, by decide⟩

/-! ## The pid handed to `kill` -/

/-- C26, failing input: `kill 4294967295` (and `killprocess 4294967295`).  The token is
accepted, `strtol` gives `v = 4294967295 > 0`, and the conversion `(pid_t)v` makes it `-1`: the
one signal sent is `kill(-1, SIGTERM)`, the broadcast to every process the user may signal. -/
theorem kill_pid_narrowing_broadcasts :
    validPidArg "4294967295".toList = true ∧
    (strtol (c_str "4294967295".toList)).1 = 4294967295 ∧
    pidOfArg "4294967295".toList = -1 ∧
    (executeLineInternal {} "kill 4294967295".toList false).log = [Event.kill (-1) 15] ∧
    (executeLineInternal {} "killprocess -9 4294967295".toList false).log =
      [Event.kill (-1) 9] := by
  refine ⟨by decide, by decide, by decide, by decide, by decide⟩

/-! ## The background marker -/

/-- C27, failing input: the line `sleep 5 | cat &`.  Its last `splitArgs` token is `&`, and
the argument vector built for the last stage is `cat`, `&`: the marker is removed from the
vector `args` only, while the stages are cut from the line as typed.  The forked child of the
last stage gets that vector; for the single stage `sleep 5 &` it is `sleep`, `5`, `&`. -/
theorem background_marker_reaches_argv :
    (splitArgs "sleep 5 | cat &".toList).getLast? = some "&".toList ∧
    (parseCmdWithRedir ((splitPipeline "sleep 5 | cat &".toList).getLastD []) {}).1 =
      ["cat".toList, "&".toList] ∧
    (forkedChildren (executeLineInternal pipesExample "sleep 5 | cat &".toList false).log).map
        (Child.execArgv {}) =
      [["sleep".toList, "5".toList], ["cat".toList, "&".toList]] ∧
    (forkedChildren (executeLineInternal ptyExample "sleep 5 &".toList false).log).map
        (Child.execArgv {}) =
      [["sleep".toList, "5".toList, "&".toList]] := by
  refine ⟨by decide, by decide, by decide, by decide⟩

/-! ## Chunk boundaries in `sanitizeAndApplyANSI` -/

/-- C28, failing input: the chunks `x CR` and `LF y` in the state `ANSI_TEXT`.  The look-ahead
for CR LF stops at the end of the chunk, so the CR at the end of the first chunk becomes an LF
and the LF that opens the second chunk becomes another: `x LF LF y`, while the undivided input
`x CR LF y` gives `x LF y`.  The final states agree. -/
theorem sanitize_chunk_boundary_doubles_newline :
    (sanitizeAndApplyANSI {} "x\r".toList).2 ++
        (sanitizeAndApplyANSI (sanitizeAndApplyANSI {} "x\r".toList).1 "\ny".toList).2 =
      "x\n\ny".toList ∧
    (sanitizeAndApplyANSI {} "x\r\ny".toList).2 = "x\ny".toList ∧
    (sanitizeAndApplyANSI (sanitizeAndApplyANSI {} "x\r".toList).1 "\ny".toList).1 =
      (sanitizeAndApplyANSI {} "x\r\ny".toList).1 := by
  refine ⟨by decide, by decide, by decide⟩

/-! ## The cap of the scrollback -/

/-- The scrollback after `appendOutput(s, cap)`, in full: the last `min(cap, |old| + |s|)` bytes
of the old scrollback followed by `s` when `s` has at most `cap` bytes, and `s` whole when it
has more. -/
theorem appendOutput_scrollback (t : Tab) (s : Str) (cap : Nat) :
    (t.appendOutput s cap).scrollback =
      if s.length ≤ cap then
        (t.scrollback ++ s).drop ((t.scrollback ++ s).length - min cap (t.scrollback.length + s.length))
      else s := by
  unfold Tab.appendOutput
  dsimp only
  by_cases hs : s.length ≤ cap
  · rw [if_pos hs]
    by_cases h1 : t.scrollback.length + s.length > cap
    · rw [if_pos h1]
      have hmin : min cap (t.scrollback.length + s.length) = cap := by omega
      rw [hmin, List.length_append]
      by_cases h2 : t.scrollback.length + s.length - cap ≥ t.scrollback.length
      · rw [if_pos h2]
        have : t.scrollback.length + s.length - cap = t.scrollback.length := by omega
        rw [this, List.drop_left]
        rfl
      · rw [if_neg h2, List.drop_append_of_le_length (by omega)]
    · rw [if_neg h1]
      have hmin : min cap (t.scrollback.length + s.length) = t.scrollback.length + s.length := by
        omega
      rw [hmin, List.length_append]
      simp
  · rw [if_neg hs]
    have h1 : t.scrollback.length + s.length > cap := by omega
    have h2 : t.scrollback.length + s.length - cap ≥ t.scrollback.length := by omega
    rw [if_pos h1, if_pos h2]
    rfl

/-- C30, as amended. For every scrollback, string `s` and `cap`: when `s` has at most `cap`
bytes, after `appendOutput(s, cap)` the scrollback is at most `cap` bytes long and equals the
last `min(cap, |old scrollback| + |s|)` bytes of the old scrollback followed by `s`; when `s`
has more than `cap` bytes, the scrollback is `s` whole. -/
theorem appendOutput_keeps_tail (t : Tab) (s : Str) (cap : Nat) :
    (s.length ≤ cap →
      (t.appendOutput s cap).scrollback.length ≤ cap ∧
      (t.appendOutput s cap).scrollback =
        (t.scrollback ++ s).drop
          ((t.scrollback ++ s).length - min cap (t.scrollback.length + s.length))) ∧
    (cap < s.length → (t.appendOutput s cap).scrollback = s) := by
  have h := appendOutput_scrollback t s cap
  constructor
  · intro hs
    rw [if_pos hs] at h
    refine ⟨?_, h⟩
    rw [h, List.length_drop, List.length_append]
    omega
  · intro hs
    rw [if_neg (by omega)] at h
    exact h

/-- C30, instance: `cde` appended to `ab` under the cap 4 leaves `bcde`. -/
theorem appendOutput_keeps_tail_witness :
    (({ scrollback := "ab".toList } : Tab).appendOutput "cde".toList 4).scrollback =
      "bcde".toList :=
  (((appendOutput_keeps_tail { scrollback := "ab".toList } "cde".toList 4).1
    (by decide)).2).trans (by decide)

/-- C30, counterexample to the claim as worded: `cdefg` appended to `ab` under the cap 3.  The
scrollback becomes `cdefg`, five bytes, not the last three bytes `efg`. -/
theorem appendOutput_exceeds_cap :
    (({ scrollback := "ab".toList } : Tab).appendOutput "cdefg".toList 3).scrollback =
      "cdefg".toList ∧
    ¬ ((({ scrollback := "ab".toList } : Tab).appendOutput "cdefg".toList 3).scrollback.length
      ≤ 3) ∧
    ("ab".toList ++ "cdefg".toList).drop (("ab".toList ++ "cdefg".toList).length - min 3 (2 + 5))
      = "efg".toList := by
  refine ⟨by decide, by decide, by decide⟩

/-! ## `History::search` -/

theorem findSubstr_isSome (pat : Str) (s : Str) :
    ∀ i, (findSubstr pat s i).isSome = true ↔ pat <:+: s := by
  induction s with
  | nil =>
    intro i
    cases pat <;> simp [findSubstr]
  | cons c rest ih =>
    intro i
    rw [findSubstr, List.infix_cons_iff]
    by_cases hp : pat.isPrefixOf (c :: rest) = true
    · rw [if_pos hp]
      simp [List.isPrefixOf_iff_prefix.mp hp]
    · rw [if_neg hp, ih]
      have : ¬ pat <+: c :: rest := fun h => hp (List.isPrefixOf_iff_prefix.mpr h)
      simp [this]

theorem findLastEq_none (l : List Str) (term : Str) (n : Nat) :
    findLastEq l term n = none ↔ ∀ i, i < n → l.getD i [] ≠ term := by
  induction n with
  | zero => simp [findLastEq]
  | succ n ih =>
    rw [findLastEq]
    by_cases h : (l.getD n [] == term) = true
    · rw [if_pos h]
      simp only [reduceCtorEq, false_iff, not_forall]
      exact ⟨n, Nat.lt_succ_self n, fun hne => hne (by simpa using h)⟩
    · rw [if_neg h, ih]
      have hne : l.getD n [] ≠ term := by simpa using h
      constructor
      · intro hall i hi
        rcases Nat.lt_succ_iff_lt_or_eq.mp hi with h1 | h1
        · exact hall i h1
        · rw [h1]; exact hne
      · intro hall i hi
        exact hall i (Nat.lt_succ_of_lt hi)

theorem findLastEq_some (l : List Str) (term : Str) (n i : Nat) :
    findLastEq l term n = some i →
      i < n ∧ l.getD i [] = term ∧ ∀ j, i < j → j < n → l.getD j [] ≠ term := by
  induction n with
  | zero => simp [findLastEq]
  | succ n ih =>
    rw [findLastEq]
    by_cases h : (l.getD n [] == term) = true
    · rw [if_pos h]
      intro hi
      have : n = i := by simpa using hi
      subst this
      exact ⟨Nat.lt_succ_self _, by simpa using h, fun j h1 h2 => by omega⟩
    · rw [if_neg h]
      intro hi
      obtain ⟨h1, h2, h3⟩ := ih hi
      have hne : l.getD n [] ≠ term := by simpa using h
      refine ⟨Nat.lt_succ_of_lt h1, h2, fun j hj1 hj2 => ?_⟩
      rcases Nat.lt_succ_iff_lt_or_eq.mp hj2 with h4 | h4
      · exact h3 j hj1 h4
      · rw [h4]; exact hne

theorem findFirstContaining_none (term : Str) (l : List Str) :
    ∀ k, findFirstContaining term l k = none ↔ ∀ e ∈ l, ¬ term <:+: e := by
  induction l with
  | nil => simp [findFirstContaining]
  | cons e rest ih =>
    intro k
    rw [findFirstContaining]
    by_cases h : (findSubstr term e 0).isSome = true
    · rw [if_pos h]
      have := (findSubstr_isSome term e 0).mp h
      simp [this]
    · rw [if_neg h, ih]
      have : ¬ term <:+: e := fun hh => h ((findSubstr_isSome term e 0).mpr hh)
      simp [this]

theorem findFirstContaining_some (term : Str) (l : List Str) :
    ∀ k i, findFirstContaining term l k = some i →
      k ≤ i ∧ i - k < l.length ∧ term <:+: l.getD (i - k) [] ∧
        ∀ j, j < i - k → ¬ term <:+: l.getD j [] := by
  induction l with
  | nil => simp [findFirstContaining]
  | cons e rest ih =>
    intro k i
    rw [findFirstContaining]
    by_cases h : (findSubstr term e 0).isSome = true
    · rw [if_pos h]
      intro hi
      have : k = i := by simpa using hi
      subst this
      have := (findSubstr_isSome term e 0).mp h
      simp [this]
    · rw [if_neg h]
      intro hi
      have hne : ¬ term <:+: e := fun hh => h ((findSubstr_isSome term e 0).mpr hh)
      obtain ⟨h1, h2, h3, h4⟩ := ih (k + 1) i hi
      have hik : i - k = (i - (k + 1)) + 1 := by omega
      refine ⟨by omega, by simp only [List.length_cons]; omega, ?_, ?_⟩
      · rw [hik]; simpa using h3
      · intro j hj
        cases j with
        | zero => simpa using hne
        | succ j => simpa using h4 j (by omega)

theorem toInt32_of_lt (n : Nat) (h : n < 2 ^ 31) : (toInt32 n).toNat = n := by
  unfold toInt32
  have h1 : ((n : Int) + 2 ^ 31) % 2 ^ 32 = (n : Int) + 2 ^ 31 := by
    apply Int.emod_eq_of_lt <;> omega
  rw [h1]
  simp

/-- C23. For every history (of fewer than 2^31 entries, so that its size is an `int`) and every
term: when an entry equals the non-empty term, `search` returns the index of the most recent
such entry; otherwise, when the term is longer than 2 characters and some entry contains it,
the lowest index of an entry containing it; and `search` returns -1 exactly when the term is
empty, or no entry equals it and either it has at most 2 characters or no entry contains
it. -/
theorem search_spec (h : History) (term : Str) (hlen : h.h_.length < 2 ^ 31) :
    (term ≠ [] → term ∈ h.h_ →
      ∃ i : Nat, h.search term = (i : Int) ∧ i < h.h_.length ∧ h.h_.getD i [] = term ∧
        ∀ j, i < j → j < h.h_.length → h.h_.getD j [] ≠ term) ∧
    (term.length > 2 → term ∉ h.h_ → (∃ e ∈ h.h_, term <:+: e) →
      ∃ i : Nat, h.search term = (i : Int) ∧ i < h.h_.length ∧ term <:+: h.h_.getD i [] ∧
        ∀ j, j < i → ¬ term <:+: h.h_.getD j []) ∧
    (h.search term = -1 ↔
      term = [] ∨ (term ∉ h.h_ ∧ (term.length ≤ 2 ∨ ∀ e ∈ h.h_, ¬ term <:+: e))) := by
  have hk := toInt32_of_lt h.h_.length hlen
  have hmem : term ∈ h.h_ ↔ ∃ i, i < h.h_.length ∧ h.h_.getD i [] = term := by
    rw [List.mem_iff_getElem]
    constructor
    · rintro ⟨i, hi, he⟩
      exact ⟨i, hi, by rw [List.getD_eq_getElem _ _ hi]; exact he⟩
    · rintro ⟨i, hi, he⟩
      exact ⟨i, hi, by rw [List.getD_eq_getElem _ _ hi] at he; exact he⟩
  have hnone : findLastEq h.h_ term h.h_.length = none ↔ term ∉ h.h_ := by
    rw [findLastEq_none, hmem]
    constructor
    · rintro hall ⟨i, hi, he⟩; exact hall i hi he
    · intro hn i hi he; exact hn ⟨i, hi, he⟩
  unfold History.search
  dsimp only
  rw [hk, List.take_length]
  refine ⟨?_, ?_, ?_⟩
  · intro hne hin
    have hemp : term.isEmpty = false := by cases term <;> simp_all
    simp only [hemp, Bool.false_eq_true, if_false]
    cases hf : findLastEq h.h_ term h.h_.length with
    | none => exact absurd hin (hnone.mp hf)
    | some i => exact ⟨i, rfl, findLastEq_some _ _ _ _ hf⟩
  · intro hlen2 hnin hex
    have hemp : term.isEmpty = false := by cases term <;> simp_all
    simp only [hemp, Bool.false_eq_true, if_false, hnone.mpr hnin,
      if_neg (show ¬ term.length ≤ 2 by omega)]
    cases hf : findFirstContaining term h.h_ 0 with
    | none =>
      obtain ⟨e, he, hinf⟩ := hex
      exact absurd hinf ((findFirstContaining_none term h.h_ 0).mp hf e he)
    | some i =>
      have := findFirstContaining_some term h.h_ 0 i hf
      exact ⟨i, rfl, by simpa using this.2.1, by simpa using this.2.2.1,
        by simpa using this.2.2.2⟩
  · by_cases hemp : term = []
    · simp [hemp]
    · have hemp2 : term.isEmpty = false := by cases term <;> simp_all
      simp only [hemp2, Bool.false_eq_true, if_false, hemp, false_or]
      cases hf : findLastEq h.h_ term h.h_.length with
      | some i =>
        have hin : term ∈ h.h_ := by
          by_contra hn
          rw [hnone.mpr hn] at hf
          cases hf
        simp only [hin, not_true_eq_false, false_and, iff_false]
        omega
      | none =>
        have hnin := hnone.mp hf
        simp only [hnin, not_false_eq_true, true_and]
        by_cases h2 : term.length ≤ 2
        · simp [h2]
        · rw [if_neg h2]
          cases hg : findFirstContaining term h.h_ 0 with
          | none =>
            exact ⟨fun _ => Or.inr ((findFirstContaining_none term h.h_ 0).mp hg),
              fun _ => rfl⟩
          | some i =>
            have := findFirstContaining_some term h.h_ 0 i hg
            have hi : i < h.h_.length := by simpa using this.2.1
            have hinf : term <:+: h.h_.getD i [] := by simpa using this.2.2.1
            rw [List.getD_eq_getElem _ _ hi] at hinf
            constructor
            · intro hneg
              exact absurd hneg (by simp only []; omega)
            · rintro (hle | hall)
              · exact absurd hle h2
              · exact absurd hinf (hall _ (List.getElem_mem hi))

/-- C23, instance: in the history `ls`, `make all`, `ls`, `git status`, the term `ls` is found
at its most recent index 2, `stat` (no entry equals it) at index 3, and `xy` nowhere. -/
theorem search_spec_witness :
    ({ h_ := ["ls".toList, "make all".toList, "ls".toList, "git status".toList] } :
        History).search "ls".toList = 2 ∧
    ({ h_ := ["ls".toList, "make all".toList, "ls".toList, "git status".toList] } :
        History).search "stat".toList = 3 ∧
    ({ h_ := ["ls".toList, "make all".toList, "ls".toList, "git status".toList] } :
        History).search "xy".toList = -1 := by
  have h := search_spec
    { h_ := ["ls".toList, "make all".toList, "ls".toList, "git status".toList] } "xy".toList
    (by decide)
  exact ⟨by decide, by decide, h.2.2.mpr (Or.inr ⟨by decide, Or.inl (by decide)⟩)⟩

/-! ## The invariant of `History` -/

theorem add_cap (h : History) (cmd : Str) : (h.add cmd).cap_ = h.cap_ := by
  unfold History.add
  split_ifs <;> rfl

theorem add_new (h : History) (cmd : Str) (hne : cmd ≠ [])
    (hlast : h.h_.getLast? ≠ some cmd) :
    (h.add cmd).h_ = (if h.h_.length = h.cap_ then h.h_.drop 1 else h.h_) ++ [cmd] := by
  unfold History.add
  have h1 : cmd.isEmpty = false := by cases cmd <;> simp_all
  have h2 : (!h.h_.isEmpty && h.h_.getLast? == some cmd) = false := by
    simp [hlast]
  simp [h1, h2]

theorem add_wellFormed (h : History) (cmd : Str) (hcap : 1 ≤ h.cap_) (hw : h.WellFormed) :
    (h.add cmd).WellFormed := by
  obtain ⟨hlen, hemp, hch⟩ := hw
  by_cases hne : cmd = []
  · have : h.add cmd = h := by simp [History.add, hne]
    rw [this]; exact ⟨hlen, hemp, hch⟩
  by_cases hlast : h.h_.getLast? = some cmd
  · have : h.add cmd = h := by
      unfold History.add
      have h1 : cmd.isEmpty = false := by cases cmd <;> simp_all
      have h2 : h.h_ ≠ [] := by
        intro h0; rw [h0] at hlast; simp at hlast
      simp [h1, hlast, h2]
    rw [this]; exact ⟨hlen, hemp, hch⟩
  unfold History.WellFormed
  rw [add_cap, add_new h cmd hne hlast]
  by_cases hfull : h.h_.length = h.cap_
  · rw [if_pos hfull]
    refine ⟨?_, ?_, ?_⟩
    · simp only [List.length_append, List.length_drop, List.length_singleton]; omega
    · intro hin
      rcases List.mem_append.mp hin with h1 | h1
      · exact hemp (List.mem_of_mem_drop h1)
      · exact hne (List.mem_singleton.mp h1).symm
    · rw [List.chain'_append]
      refine ⟨hch.drop 1, List.chain'_singleton _, ?_⟩
      intro x hx y hy
      have hy2 : y = cmd := by simpa using hy.symm
      subst hy2
      rw [List.getLast?_drop] at hx
      split_ifs at hx with h3
      · simp at hx
      · intro hxy
        apply hlast
        rw [← hxy]
        exact hx
  · rw [if_neg hfull]
    refine ⟨?_, ?_, ?_⟩
    · simp only [List.length_append, List.length_singleton]; omega
    · intro hin
      rcases List.mem_append.mp hin with h1 | h1
      · exact hemp h1
      · exact hne (List.mem_singleton.mp h1).symm
    · rw [List.chain'_append]
      refine ⟨hch, List.chain'_singleton _, ?_⟩
      intro x hx y hy
      have hy2 : y = cmd := by simpa using hy.symm
      subst hy2
      intro hxy
      apply hlast
      rw [← hxy]
      exact hx

theorem foldl_add_wellFormed (cmds : List Str) :
    ∀ h : History, 1 ≤ h.cap_ → h.WellFormed →
      (cmds.foldl History.add h).WellFormed ∧ (cmds.foldl History.add h).cap_ = h.cap_ := by
  induction cmds with
  | nil => intro h _ hw; exact ⟨hw, rfl⟩
  | cons c rest ih =>
    intro h hcap hw
    have h1 := ih (h.add c) (by rw [add_cap]; exact hcap) (add_wellFormed h c hcap hw)
    rw [add_cap] at h1
    exact h1

theorem apply_wellFormed (h : History) (op : HistOp) (hcap : 1 ≤ h.cap_) (hw : h.WellFormed) :
    (h.apply op).WellFormed ∧ (h.apply op).cap_ = h.cap_ := by
  cases op with
  | add cmd => exact ⟨add_wellFormed h cmd hcap hw, add_cap h cmd⟩
  | clear =>
    exact ⟨⟨Nat.zero_le _, List.not_mem_nil _, List.chain'_nil⟩, rfl⟩
  | loadFromFile file =>
    cases file with
    | none => exact ⟨hw, rfl⟩
    | some content => exact foldl_add_wellFormed _ h hcap hw

theorem foldl_apply_wellFormed (ops : List HistOp) :
    ∀ h : History, 1 ≤ h.cap_ → h.WellFormed →
      (ops.foldl History.apply h).WellFormed ∧ (ops.foldl History.apply h).cap_ = h.cap_ := by
  induction ops with
  | nil => intro h _ hw; exact ⟨hw, rfl⟩
  | cons op rest ih =>
    intro h hcap hw
    have h0 := apply_wellFormed h op hcap hw
    have h1 := ih (h.apply op) (by rw [h0.2]; exact hcap) h0.1
    rw [h0.2] at h1
    exact h1

/-- C29. For every history built with a capacity `cap >= 1` and every sequence of `add`,
`clear` and `loadFromFile` operations from the empty history: the number of entries never
exceeds `cap`, no entry is the empty string, and no two adjacent entries are equal; and an
`add` of a new command (not empty, not the last entry) to a history at full capacity leaves
the entries without the oldest one, followed by the new command. -/
theorem history_invariant (cap : Nat) (hcap : 1 ≤ cap) (ops : List HistOp) :
    (History.run cap ops).h_.length ≤ cap ∧
    [] ∉ (History.run cap ops).h_ ∧
    (History.run cap ops).h_.Chain' (fun a b => a ≠ b) ∧
    (∀ cmd, cmd ≠ [] → (History.run cap ops).h_.getLast? ≠ some cmd →
      (History.run cap ops).h_.length = cap →
      ((History.run cap ops).add cmd).h_ = (History.run cap ops).h_.drop 1 ++ [cmd]) := by
  have h := foldl_apply_wellFormed ops { cap_ := cap, h_ := [] } hcap
    ⟨Nat.zero_le _, by simp, by simp⟩
  have hc : (History.run cap ops).cap_ = cap := h.2
  obtain ⟨h1, h2, h3⟩ := h.1
  have h1b : (History.run cap ops).h_.length ≤ cap := le_of_le_of_eq h1 hc
  refine ⟨h1b, h2, h3, ?_⟩
  intro cmd hne hlast hfull
  rw [add_new _ cmd hne hlast, if_pos (by rw [hc]; exact hfull)]

/-- C29, instance: capacity 2; `a`, `a`, the empty command, `b`, then a file with the lines
`c`, an empty line and `c` again leave the entries `b`, `c`. -/
theorem history_invariant_witness :
    (History.run 2 [HistOp.add "a".toList, HistOp.add "a".toList, HistOp.add [],
      HistOp.add "b".toList, HistOp.loadFromFile (some "c\n\nc\n".toList)]).h_ =
      ["b".toList, "c".toList] ∧
    (History.run 2 [HistOp.add "a".toList, HistOp.add "b".toList]).h_.length ≤ 2 ∧
    ((History.run 2 [HistOp.add "a".toList, HistOp.add "b".toList]).add "c".toList).h_ =
      ["b".toList, "c".toList] := by
  have h := history_invariant 2 (by decide) [HistOp.add "a".toList, HistOp.add "b".toList]
  exact ⟨by decide, h.1, (h.2.2.2 "c".toList (by decide) (by decide) (by decide)).trans
    (by decide)⟩

/-! ## The table of `lcs_substr_len` -/

theorem commonPrefixLen_attained (u : Str) :
    ∀ v, ∃ w : Str, w.length = commonPrefixLen u v ∧ w <+: u ∧ w <+: v := by
  induction u with
  | nil => intro v; exact ⟨[], by simp [commonPrefixLen], List.nil_prefix, List.nil_prefix⟩
  | cons c u ih =>
    intro v
    cases v with
    | nil => exact ⟨[], by simp [commonPrefixLen], List.nil_prefix, List.nil_prefix⟩
    | cons d v =>
      rw [commonPrefixLen]
      by_cases h : (c == d) = true
      · rw [if_pos h]
        have hcd : c = d := by simpa using h
        subst hcd
        obtain ⟨w, h1, h2, h3⟩ := ih v
        exact ⟨c :: w, by simp [h1], (List.prefix_cons_inj c).mpr h2,
          (List.prefix_cons_inj c).mpr h3⟩
      · rw [if_neg h]
        exact ⟨[], rfl, List.nil_prefix, List.nil_prefix⟩

theorem commonPrefixLen_ge (w : Str) :
    ∀ u v, w <+: u → w <+: v → w.length ≤ commonPrefixLen u v := by
  induction w with
  | nil => intro u v _ _; exact Nat.zero_le _
  | cons c w ih =>
    intro u v hu hv
    obtain ⟨s, hs⟩ := hu
    obtain ⟨t, ht⟩ := hv
    subst hs; subst ht
    simp only [List.cons_append, commonPrefixLen, beq_self_eq_true, if_true, List.length_cons]
    exact Nat.succ_le_succ (ih _ _ (List.prefix_append _ _) (List.prefix_append _ _))

theorem commonSuffixLen_snoc (x y : Str) (c d : Char) :
    commonSuffixLen (x ++ [c]) (y ++ [d]) = if c == d then commonSuffixLen x y + 1 else 0 := by
  simp [commonSuffixLen, commonPrefixLen]

theorem commonSuffixLen_nil_right (x : Str) : commonSuffixLen x [] = 0 := by
  unfold commonSuffixLen
  cases x.reverse <;> simp [commonPrefixLen]

theorem commonSuffixLen_nil_left (y : Str) : commonSuffixLen [] y = 0 := by
  simp [commonSuffixLen, commonPrefixLen]

theorem commonSuffixLen_attained (x y : Str) :
    ∃ w : Str, w.length = commonSuffixLen x y ∧ w <:+ x ∧ w <:+ y := by
  obtain ⟨w, h1, h2, h3⟩ := commonPrefixLen_attained x.reverse y.reverse
  refine ⟨w.reverse, by simpa [commonSuffixLen] using h1, ?_, ?_⟩
  · rw [← List.reverse_prefix]; simpa using h2
  · rw [← List.reverse_prefix]; simpa using h3

theorem commonSuffixLen_ge (w x y : Str) (hx : w <:+ x) (hy : w <:+ y) :
    w.length ≤ commonSuffixLen x y := by
  have := commonPrefixLen_ge w.reverse x.reverse y.reverse
    (List.reverse_prefix.mpr hx) (List.reverse_prefix.mpr hy)
  simpa [commonSuffixLen] using this

theorem inits_eq_nil_cons (l : Str) : l.inits = [] :: l.inits.tail := by
  cases l <;> simp [List.inits_cons]

theorem foldl_max_ge (vals : List Nat) :
    ∀ best, best ≤ vals.foldl max best ∧ (∀ v ∈ vals, v ≤ vals.foldl max best) ∧
      (vals.foldl max best = best ∨ vals.foldl max best ∈ vals) := by
  induction vals with
  | nil => intro best; simp
  | cons v rest ih =>
    intro best
    obtain ⟨h1, h2, h3⟩ := ih (max best v)
    simp only [List.foldl_cons, List.mem_cons]
    refine ⟨le_trans (le_max_left _ _) h1, ?_, ?_⟩
    · intro u hu
      rcases hu with hu | hu
      · rw [hu]; exact le_trans (le_max_right _ _) h1
      · exact h2 u hu
    · rcases h3 with h3 | h3
      · rw [h3]
        rcases max_cases best v with ⟨h4, _⟩ | ⟨h4, _⟩
        · left; exact h4
        · right; left; exact h4
      · right; right; exact h3

theorem lcsRow_spec (x : Str) (ai : Char) (bs : Str) :
    ∀ (bp : Str) (best : Nat),
      lcsRow ai bs (bs.inits.map (fun p => commonSuffixLen x (bp ++ p))) best =
        (bs.inits.tail.map (fun p => commonSuffixLen (x ++ [ai]) (bp ++ p)),
          (bs.inits.tail.map (fun p => commonSuffixLen (x ++ [ai]) (bp ++ p))).foldl max
            best) := by
  induction bs with
  | nil => intro bp best; simp [lcsRow]
  | cons bj bs ih =>
    intro bp best
    have hprev : (bs.inits.map (fun t => bj :: t)).map
        (fun p => commonSuffixLen x (bp ++ p)) =
        bs.inits.map (fun p => commonSuffixLen x ((bp ++ [bj]) ++ p)) := by
      simp [List.map_map, Function.comp_def]
    have hcur : (bs.inits.map (fun t => bj :: t)).map
        (fun p => commonSuffixLen (x ++ [ai]) (bp ++ p)) =
        commonSuffixLen (x ++ [ai]) (bp ++ [bj]) ::
          bs.inits.tail.map (fun p => commonSuffixLen (x ++ [ai]) ((bp ++ [bj]) ++ p)) := by
      conv_lhs => rw [inits_eq_nil_cons bs]
      simp [List.map_map, Function.comp_def]
    have hmax : ∀ v : Nat, (if v > best then v else best) = max best v := by
      intro v
      rcases max_cases best v with ⟨h4, h5⟩ | ⟨h4, h5⟩
      · rw [h4, if_neg (by omega)]
      · rw [h4, if_pos (by omega)]
    rw [List.inits_cons, List.map_cons, lcsRow]
    simp only [List.headD_cons, List.tail_cons, List.append_nil]
    rw [hprev, ih (bp ++ [bj]), hcur, commonSuffixLen_snoc, hmax]
    simp [List.foldl_cons]

theorem lcsRows_spec (b : Str) (rest : Str) :
    ∀ (x : Str) (best : Nat),
      best ≤ lcsRows b rest (b.inits.map (commonSuffixLen x)) best ∧
      (∀ p : Str, p <+: rest → p ≠ [] → ∀ q : Str, q <+: b →
        commonSuffixLen (x ++ p) q ≤ lcsRows b rest (b.inits.map (commonSuffixLen x)) best) ∧
      (lcsRows b rest (b.inits.map (commonSuffixLen x)) best = best ∨
        ∃ p q : Str, p <+: rest ∧ q <+: b ∧
          lcsRows b rest (b.inits.map (commonSuffixLen x)) best =
            commonSuffixLen (x ++ p) q) := by
  induction rest with
  | nil =>
    intro x best
    refine ⟨le_refl _, ?_, Or.inl rfl⟩
    intro p hp hne
    exact absurd (List.prefix_nil.mp hp) hne
  | cons ai rest ih =>
    intro x best
    have hrow := lcsRow_spec x ai b [] best
    simp only [List.nil_append] at hrow
    have hnext : (0 :: b.inits.tail.map (commonSuffixLen (x ++ [ai]))) =
        b.inits.map (commonSuffixLen (x ++ [ai])) := by
      conv_rhs => rw [inits_eq_nil_cons b]
      simp [commonSuffixLen_nil_right]
    rw [lcsRows, hrow]
    dsimp only
    rw [hnext]
    obtain ⟨f1, f2, f3⟩ := foldl_max_ge (b.inits.tail.map (commonSuffixLen (x ++ [ai]))) best
    obtain ⟨i1, i2, i3⟩ := ih (x ++ [ai])
      ((b.inits.tail.map (commonSuffixLen (x ++ [ai]))).foldl max best)
    refine ⟨le_trans f1 i1, ?_, ?_⟩
    · intro p hp hne q hq
      rcases List.prefix_cons_iff.mp hp with h0 | ⟨t, ht, htp⟩
      · exact absurd h0 hne
      · subst ht
        by_cases htn : t = []
        · subst htn
          by_cases hqn : q = []
          · subst hqn
            rw [commonSuffixLen_nil_right]; exact Nat.zero_le _
          · have hqm : q ∈ b.inits.tail := by
              have : q ∈ b.inits := (List.mem_inits q b).mpr hq
              rw [inits_eq_nil_cons b] at this
              rcases List.mem_cons.mp this with h | h
              · exact absurd h hqn
              · exact h
            exact le_trans (f2 _ (List.mem_map_of_mem _ hqm)) i1
        · have := i2 t htp htn q hq
          simpa using this
    · rcases i3 with h | ⟨p, q, hp, hq, h⟩
      · rcases f3 with g | g
        · left; rw [h, g]
        · right
          obtain ⟨q, hq, hqv⟩ := List.mem_map.mp g
          have hq2 : q <+: b := (List.mem_inits q b).mp (List.mem_of_mem_tail hq)
          exact ⟨[ai], q, by simp [List.prefix_cons_iff], hq2, by rw [h, hqv]⟩
      · right
        refine ⟨ai :: p, q, (List.prefix_cons_inj ai).mpr hp, hq, ?_⟩
        rw [h]
        simp

theorem lcs_substr_len_isLcsLen (a b : Str) : IsLcsLen a b (lcs_substr_len a b) := by
  unfold lcs_substr_len
  by_cases he : (a.isEmpty || b.isEmpty) = true
  · rw [if_pos he]
    refine ⟨⟨[], rfl, List.nil_infix, List.nil_infix⟩, ?_⟩
    intro w hwa hwb
    have : a = [] ∨ b = [] := by simpa [List.isEmpty_iff] using he
    rcases this with h | h
    · subst h; simp [List.eq_nil_of_infix_nil hwa]
    · subst h; simp [List.eq_nil_of_infix_nil hwb]
  · rw [if_neg he]
    have hprev : List.replicate (b.length + 1) 0 = b.inits.map (commonSuffixLen []) := by
      symm
      rw [List.eq_replicate_iff]
      refine ⟨by simp [List.length_inits], ?_⟩
      intro v hv
      obtain ⟨q, _, hq⟩ := List.mem_map.mp hv
      rw [← hq, commonSuffixLen_nil_left]
    rw [hprev]
    obtain ⟨_, h2, h3⟩ := lcsRows_spec b a [] 0
    simp only [List.nil_append] at h2 h3
    constructor
    · rcases h3 with h | ⟨p, q, hp, hq, h⟩
      · rw [h]; exact ⟨[], rfl, List.nil_infix, List.nil_infix⟩
      · rw [h]
        obtain ⟨w, hw, hwp, hwq⟩ := commonSuffixLen_attained p q
        exact ⟨w, hw, hwp.isInfix.trans hp.isInfix, hwq.isInfix.trans hq.isInfix⟩
    · intro w hwa hwb
      by_cases hwn : w = []
      · subst hwn; exact Nat.zero_le _
      · obtain ⟨s, t, hst⟩ := hwa
        obtain ⟨s2, t2, hst2⟩ := hwb
        have hp : s ++ w <+: a := ⟨t, hst⟩
        have hq : s2 ++ w <+: b := ⟨t2, hst2⟩
        have hpn : s ++ w ≠ [] := by simp [hwn]
        exact le_trans (commonSuffixLen_ge w _ _ (List.suffix_append _ _)
          (List.suffix_append _ _)) (h2 _ hp hpn _ hq)

/-! ## `lcs_substr_len` computes the longest-common-substring length -/

theorem mem_commonSubstrings (a b w : Str) :
    w ∈ commonSubstrings a b ↔ w <:+: a ∧ w <:+: b := by
  simp only [commonSubstrings, List.mem_filter, List.mem_flatMap, List.mem_tails,
    List.mem_inits, decide_eq_true_eq, List.infix_iff_prefix_suffix]
  constructor
  · rintro ⟨⟨t, h1, h2⟩, h3⟩; exact ⟨⟨t, h2, h1⟩, h3⟩
  · rintro ⟨⟨t, h1, h2⟩, h3⟩; exact ⟨⟨t, h2, h1⟩, h3⟩

theorem foldr_max_spec (l : List Nat) :
    (∀ v ∈ l, v ≤ l.foldr max 0) ∧ (l.foldr max 0 = 0 ∨ l.foldr max 0 ∈ l) := by
  induction l with
  | nil => simp
  | cons v rest ih =>
    obtain ⟨h1, h2⟩ := ih
    simp only [List.foldr_cons, List.mem_cons]
    constructor
    · intro u hu
      rcases hu with hu | hu
      · rw [hu]; exact le_max_left _ _
      · exact le_trans (h1 u hu) (le_max_right _ _)
    · rcases max_cases v (rest.foldr max 0) with ⟨h4, _⟩ | ⟨h4, _⟩
      · right; left; exact h4
      · rw [h4]
        rcases h2 with h2 | h2
        · left; exact h2
        · right; right; exact h2

theorem specLcs_isLcsLen (a b : Str) : IsLcsLen a b (specLcs a b) := by
  obtain ⟨h1, h2⟩ := foldr_max_spec ((commonSubstrings a b).map List.length)
  constructor
  · rcases h2 with h2 | h2
    · exact ⟨[], by rw [specLcs, h2]; rfl, List.nil_infix, List.nil_infix⟩
    · obtain ⟨w, hw, hlen⟩ := List.mem_map.mp h2
      exact ⟨w, hlen, ((mem_commonSubstrings a b w).mp hw).1,
        ((mem_commonSubstrings a b w).mp hw).2⟩
  · intro w hwa hwb
    exact h1 _ (List.mem_map_of_mem _ ((mem_commonSubstrings a b w).mpr ⟨hwa, hwb⟩))

theorem isLcsLen_unique (a b : Str) (n m : Nat) (hn : IsLcsLen a b n) (hm : IsLcsLen a b m) :
    n = m := by
  obtain ⟨⟨w, hw, hwa, hwb⟩, hnmax⟩ := hn
  obtain ⟨⟨u, hu, hua, hub⟩, hmmax⟩ := hm
  have h1 := hmmax w hwa hwb
  have h2 := hnmax u hua hub
  omega

theorem lcs_substr_len_eq_specLcs (a b : Str) : lcs_substr_len a b = specLcs a b :=
  isLcsLen_unique a b _ _ (lcs_substr_len_isLcsLen a b) (specLcs_isLcsLen a b)

theorem specLcs_le_min (a b : Str) : specLcs a b ≤ min a.length b.length := by
  obtain ⟨⟨w, hw, hwa, hwb⟩, _⟩ := specLcs_isLcsLen a b
  rw [← hw]
  exact le_min hwa.length_le hwb.length_le

/-! ## `bestSubstringMatches` -/

theorem maxLcs_cons (cmd : Str) (suf : List Str) (term : Str) :
    maxLcs (cmd :: suf) term = max (specLcs cmd term) (maxLcs suf term) := by
  simp [maxLcs]

theorem specLcs_le_maxLcs (suf : List Str) (term e : Str) (he : e ∈ suf) :
    specLcs e term ≤ maxLcs suf term :=
  (foldr_max_spec (suf.map (fun e => specLcs e term))).1 _
    (List.mem_map.mpr ⟨e, he, rfl⟩)

theorem specBest_lt (cmd : Str) (suf : List Str) (term : Str)
    (h : specLcs cmd term < maxLcs suf term) :
    maxLcs (cmd :: suf) term = maxLcs suf term ∧
      specBestMatches (cmd :: suf) term = specBestMatches suf term := by
  have hm : maxLcs (cmd :: suf) term = maxLcs suf term := by
    rw [maxLcs_cons]; exact max_eq_right (le_of_lt h)
  refine ⟨hm, ?_⟩
  unfold specBestMatches
  rw [hm, List.filter_cons_of_neg (by simpa using ne_of_lt h)]

theorem specBest_gt (cmd : Str) (suf : List Str) (term : Str)
    (h : maxLcs suf term < specLcs cmd term) :
    maxLcs (cmd :: suf) term = specLcs cmd term ∧
      specBestMatches (cmd :: suf) term = if specLcs cmd term > 2 then [cmd] else [] := by
  have hm : maxLcs (cmd :: suf) term = specLcs cmd term := by
    rw [maxLcs_cons]; exact max_eq_left (le_of_lt h)
  refine ⟨hm, ?_⟩
  unfold specBestMatches
  rw [hm]
  by_cases h2 : specLcs cmd term ≤ 2
  · rw [if_pos h2, if_neg (by omega)]
  · rw [if_neg h2, if_pos (by omega)]
    have hnone : suf.filter (fun e => specLcs e term == specLcs cmd term) = [] := by
      rw [List.filter_eq_nil_iff]
      intro e he
      have := specLcs_le_maxLcs suf term e he
      simp only [beq_iff_eq]
      omega
    rw [List.filter_cons_of_pos (by simp), hnone]
    rfl

theorem specBest_eq_small (cmd : Str) (suf : List Str) (term : Str)
    (h : specLcs cmd term = maxLcs suf term) (h2 : specLcs cmd term ≤ 2) :
    maxLcs (cmd :: suf) term = maxLcs suf term ∧
      specBestMatches (cmd :: suf) term = specBestMatches suf term := by
  have hm : maxLcs (cmd :: suf) term = maxLcs suf term := by
    rw [maxLcs_cons, h]; exact max_self _
  refine ⟨hm, ?_⟩
  unfold specBestMatches
  rw [hm, if_pos (show maxLcs suf term ≤ 2 by omega), if_pos (show maxLcs suf term ≤ 2 by omega)]

theorem mem_specBest (cmd : Str) (suf : List Str) (term : Str) (hin : cmd ∈ suf)
    (h : specLcs cmd term = maxLcs suf term) (h2 : specLcs cmd term > 2) :
    cmd ∈ specBestMatches suf term := by
  unfold specBestMatches
  rw [if_neg (by omega), List.mem_reverse, List.mem_dedup, List.mem_filter]
  exact ⟨hin, by simpa using h⟩

theorem specBest_mem (cmd : Str) (suf : List Str) (term : Str) (hin : cmd ∈ suf) :
    maxLcs (cmd :: suf) term = maxLcs suf term ∧
      specBestMatches (cmd :: suf) term = specBestMatches suf term := by
  have hle := specLcs_le_maxLcs suf term cmd hin
  have hm : maxLcs (cmd :: suf) term = maxLcs suf term := by
    rw [maxLcs_cons]; exact max_eq_right hle
  refine ⟨hm, ?_⟩
  unfold specBestMatches
  rw [hm]
  by_cases hc : specLcs cmd term = maxLcs suf term
  · rw [List.filter_cons_of_pos (by simpa using hc),
      List.dedup_cons_of_mem (List.mem_filter.mpr ⟨hin, by simpa using hc⟩)]
  · rw [List.filter_cons_of_neg (by simpa using hc)]

theorem specBest_eq_new (cmd : Str) (suf : List Str) (term : Str) (hnin : cmd ∉ suf)
    (h : specLcs cmd term = maxLcs suf term) (h2 : specLcs cmd term > 2) :
    maxLcs (cmd :: suf) term = maxLcs suf term ∧
      specBestMatches (cmd :: suf) term = specBestMatches suf term ++ [cmd] := by
  have hm : maxLcs (cmd :: suf) term = maxLcs suf term := by
    rw [maxLcs_cons, h]; exact max_self _
  refine ⟨hm, ?_⟩
  unfold specBestMatches
  rw [hm, if_neg (by omega), if_neg (by omega), List.filter_cons_of_pos (by simpa using h),
    List.dedup_cons_of_not_mem (fun hc => hnin (List.mem_filter.mp hc).1), List.reverse_cons]

theorem bestSubstringLoop_spec (term : Str) (rest : List Str) :
    ∀ (suf results seen : List Str) (bestLen : Nat),
      bestLen = maxLcs suf term → results = specBestMatches suf term →
      (∀ x ∈ seen, x ∈ suf) → (∀ x ∈ results, x ∈ seen) →
      bestSubstringLoop term rest results seen bestLen =
        specBestMatches (rest.reverse ++ suf) term := by
  induction rest with
  | nil => intro suf results seen bestLen _ hres _ _; simpa [bestSubstringLoop] using hres
  | cons cmd rest ih =>
    intro suf results seen bestLen hbest hres hseen hsub
    have hsuf : (cmd :: rest).reverse ++ suf = rest.reverse ++ (cmd :: suf) := by simp
    have hseen2 : ∀ x ∈ seen, x ∈ cmd :: suf := fun x hx => List.mem_cons_of_mem _ (hseen x hx)
    rw [hsuf, bestSubstringLoop]
    simp only [lcs_substr_len_eq_specLcs]
    by_cases h1 : cmd ∈ seen
    · rw [if_pos h1]
      obtain ⟨e1, e2⟩ := specBest_mem cmd suf term (hseen cmd h1)
      exact ih _ _ _ _ (by rw [e1]; exact hbest) (by rw [e2]; exact hres) hseen2 hsub
    rw [if_neg h1]
    by_cases h2 : min cmd.length term.length < bestLen
    · rw [if_pos h2]
      have hlt : specLcs cmd term < maxLcs suf term := by
        rw [← hbest]; exact lt_of_le_of_lt (specLcs_le_min cmd term) h2
      obtain ⟨e1, e2⟩ := specBest_lt cmd suf term hlt
      exact ih _ _ _ _ (by rw [e1]; exact hbest) (by rw [e2]; exact hres) hseen2 hsub
    rw [if_neg h2]
    by_cases h3 : specLcs cmd term > bestLen
    · rw [if_pos h3]
      obtain ⟨e1, e2⟩ := specBest_gt cmd suf term (by rw [← hbest]; exact h3)
      by_cases h4 : specLcs cmd term > 2
      · rw [if_pos h4]
        rw [if_pos h4] at e2
        refine ih _ _ _ _ e1.symm e2.symm ?_ ?_
        · intro x hx
          rcases List.mem_cons.mp hx with h | h
          · rw [h]; exact List.mem_cons_self _ _
          · exact hseen2 x h
        · intro x hx
          rw [List.mem_singleton.mp hx]; exact List.mem_cons_self _ _
      · rw [if_neg h4]
        rw [if_neg h4] at e2
        exact ih _ _ _ _ e1.symm e2.symm hseen2 (by simp)
    rw [if_neg h3]
    by_cases h4 : (specLcs cmd term == bestLen && decide (specLcs cmd term > 2)) = true
    · rw [if_pos h4]
      have h5 : specLcs cmd term = bestLen ∧ specLcs cmd term > 2 := by simpa using h4
      have hnin : cmd ∉ suf := by
        intro hin
        have := mem_specBest cmd suf term hin (by rw [← hbest]; exact h5.1) h5.2
        rw [← hres] at this
        exact h1 (hsub cmd this)
      obtain ⟨e1, e2⟩ := specBest_eq_new cmd suf term hnin (by rw [← hbest]; exact h5.1) h5.2
      refine ih _ _ _ _ (by rw [e1]; exact hbest) (by rw [e2, hres]) ?_ ?_
      · intro x hx
        rcases List.mem_cons.mp hx with h | h
        · rw [h]; exact List.mem_cons_self _ _
        · exact hseen2 x h
      · intro x hx
        rcases List.mem_append.mp hx with h | h
        · exact List.mem_cons_of_mem _ (hsub x h)
        · rw [List.mem_singleton.mp h]; exact List.mem_cons_self _ _
    · rw [if_neg h4]
      have h5 : ¬ (specLcs cmd term = bestLen ∧ specLcs cmd term > 2) := by simpa using h4
      by_cases h6 : specLcs cmd term = bestLen
      · have h7 : specLcs cmd term ≤ 2 := by
          by_contra hc; exact h5 ⟨h6, by omega⟩
        obtain ⟨e1, e2⟩ := specBest_eq_small cmd suf term (by rw [← hbest]; exact h6) h7
        exact ih _ _ _ _ (by rw [e1]; exact hbest) (by rw [e2]; exact hres) hseen2 hsub
      · have hlt : specLcs cmd term < maxLcs suf term := by rw [← hbest]; omega
        obtain ⟨e1, e2⟩ := specBest_lt cmd suf term hlt
        exact ih _ _ _ _ (by rw [e1]; exact hbest) (by rw [e2]; exact hres) hseen2 hsub

/-- C24. For every history (of fewer than 2^31 entries) and every non-empty term, with `M` the
maximum over the entries of the longest-common-substring length with the term (`maxLcs`, over
`specLcs`): `bestSubstringMatches` is empty when `M <= 2`, and otherwise the distinct entries
whose longest-common-substring length with the term is `M`, each once, the most recent
occurrence first (`specBestMatches`).  The function `lcs_substr_len` it relies on is the
longest-common-substring length, and it never exceeds `min(|entry|, |term|)`, so the early skip
drops no entry that reaches `M`. -/
theorem bestSubstringMatches_spec (h : History) (term : Str) (hlen : h.h_.length < 2 ^ 31)
    (hterm : term ≠ []) :
    h.bestSubstringMatches term = specBestMatches h.h_ term ∧
    (maxLcs h.h_ term ≤ 2 → h.bestSubstringMatches term = []) ∧
    (2 < maxLcs h.h_ term →
      h.bestSubstringMatches term =
        ((h.h_.filter (fun e => specLcs e term == maxLcs h.h_ term)).dedup).reverse) ∧
    (∀ e, lcs_substr_len e term = specLcs e term ∧ IsLcsLen e term (specLcs e term) ∧
      specLcs e term ≤ min e.length term.length) := by
  have hmain : h.bestSubstringMatches term = specBestMatches h.h_ term := by
    unfold History.bestSubstringMatches
    have hemp : term.isEmpty = false := by cases term <;> simp_all
    rw [hemp, toInt32_of_lt _ hlen, List.take_length]
    simp only [Bool.false_eq_true, if_false]
    have := bestSubstringLoop_spec term h.h_.reverse [] [] [] 0 (by simp [maxLcs])
      (by simp [specBestMatches, maxLcs]) (by simp) (by simp)
    simpa using this
  refine ⟨hmain, ?_, ?_, fun e => ⟨lcs_substr_len_eq_specLcs e term, specLcs_isLcsLen e term,
    specLcs_le_min e term⟩⟩
  · intro hM
    rw [hmain, specBestMatches, if_pos hM]
  · intro hM
    rw [hmain, specBestMatches, if_neg (by omega)]

/-- C24, instance: in the history `abcd`, `ls`, `xbcd`, `abcd`, the term `bcd` is contained
in `abcd` and in `xbcd` (`M = 3`): the matches are `abcd` and `xbcd`, in this order. -/
theorem bestSubstringMatches_spec_witness :
    ({ h_ := ["abcd".toList, "ls".toList, "xbcd".toList, "abcd".toList] } :
        History).bestSubstringMatches "bcd".toList = ["abcd".toList, "xbcd".toList] ∧
    maxLcs ["abcd".toList, "ls".toList, "xbcd".toList, "abcd".toList] "bcd".toList = 3 := by
  have h := bestSubstringMatches_spec
    { h_ := ["abcd".toList, "ls".toList, "xbcd".toList, "abcd".toList] } "bcd".toList
    (by decide) (by decide)
  have hM : maxLcs ["abcd".toList, "ls".toList, "xbcd".toList, "abcd".toList] "bcd".toList
      = 3 := by
    simp only [maxLcs, List.map_cons, List.map_nil, ← lcs_substr_len_eq_specLcs]
    decide
  refine ⟨?_, hM⟩
  rw [h.2.2.1 (by rw [hM]; decide), hM]
  simp only [← lcs_substr_len_eq_specLcs]
  decide

/-! ## Framing in the `poll` loop of the watch supervisor -/

@[simp] theorem printHeader_fd (ch : WatchChan) (hdr : Str) : (ch.printHeader hdr).fd = ch.fd := by
  unfold WatchChan.printHeader; split_ifs <;> rfl

@[simp] theorem printHeader_closed (ch : WatchChan) (hdr : Str) :
    (ch.printHeader hdr).closed = ch.closed := by
  unfold WatchChan.printHeader; split_ifs <;> rfl

@[simp] theorem printHeader_reads (ch : WatchChan) (hdr : Str) :
    (ch.printHeader hdr).reads = ch.reads := by
  unfold WatchChan.printHeader; split_ifs <;> rfl

@[simp] theorem printTrailer_fd (ch : WatchChan) : ch.printTrailer.fd = ch.fd := by
  unfold WatchChan.printTrailer; split_ifs <;> rfl

@[simp] theorem printTrailer_closed (ch : WatchChan) : ch.printTrailer.closed = ch.closed := by
  unfold WatchChan.printTrailer; split_ifs <;> rfl

@[simp] theorem printTrailer_reads (ch : WatchChan) : ch.printTrailer.reads = ch.reads := by
  unfold WatchChan.printTrailer; split_ifs <;> rfl

theorem printHeader_unframed (ch : WatchChan) (hdr : Str) (h : Blank ch ∨ Headed ch) :
    Headed (ch.printHeader hdr) := by
  unfold WatchChan.printHeader
  rcases h with ⟨h1, h2, h3⟩ | ⟨h1, h2, h3⟩
  · simp only [h1, Bool.not_false, if_true]
    exact ⟨rfl, h2, 0, by simp [h3]⟩
  · simp only [h1, Bool.not_true, Bool.false_eq_true, if_false]
    exact ⟨h1, h2, h3⟩

theorem printHeader_trailed (ch : WatchChan) (hdr : Str) (h : Trailed ch) :
    ch.printHeader hdr = ch := by
  unfold WatchChan.printHeader
  simp [h.1]

theorem printTrailer_headed (ch : WatchChan) (h : Headed ch) : Trailed ch.printTrailer := by
  unfold WatchChan.printTrailer
  obtain ⟨h1, h2, n, h3⟩ := h
  simp only [h2, Bool.not_false, if_true]
  exact ⟨h1, rfl, n, by simp [h3]⟩

theorem printTrailer_trailed (ch : WatchChan) (h : Trailed ch) : ch.printTrailer = ch := by
  unfold WatchChan.printTrailer
  simp [h.2.1]

theorem headed_data (ch : WatchChan) (bytes : Str) (h : Headed ch) :
    Headed { ch with written := ch.written ++ [(WatchKind.data, bytes)] } := by
  obtain ⟨h1, h2, n, h3⟩ := h
  refine ⟨h1, h2, n + 1, ?_⟩
  simp [h3, List.replicate_succ']

theorem watchDrainLoop_spec (cmd : Str) (now : Int) (reads : List ReadResult) :
    ∀ ch : WatchChan, (Blank ch ∨ Headed ch) →
      (Blank (watchDrainLoop cmd now reads ch) ∨ Headed (watchDrainLoop cmd now reads ch)) ∧
      (watchDrainLoop cmd now reads ch).fd = ch.fd ∧
      (watchDrainLoop cmd now reads ch).closed = ch.closed ∧
      (watchDrainLoop cmd now reads ch).reads <:+ reads := by
  induction reads with
  | nil => intro ch h; exact ⟨h, rfl, rfl, List.suffix_refl _⟩
  | cons r rest ih =>
    intro ch h
    cases r with
    | data bytes =>
      rw [watchDrainLoop]
      by_cases hb : bytes.isEmpty = true
      · rw [if_pos hb]; exact ⟨h, rfl, rfl, List.suffix_cons _ _⟩
      · rw [if_neg hb]
        obtain ⟨i1, i2, i3, i4⟩ := ih _ (Or.inr (headed_data _ bytes
          (printHeader_unframed ch (watchHeaderDrain cmd now) h)))
        exact ⟨i1, by simpa using i2, by simpa using i3, i4.trans (List.suffix_cons _ _)⟩
    | eof => exact ⟨h, rfl, rfl, List.suffix_cons _ _⟩
    | again => exact ⟨h, rfl, rfl, List.suffix_cons _ _⟩
    | error => exact ⟨h, rfl, rfl, List.suffix_cons _ _⟩

theorem watchDrainLoop_closure (cmd : Str) (now : Int) (reads : List ReadResult) :
    ∀ ch : WatchChan, (watchDrainLoop cmd now reads ch).fd = ch.fd ∧
      (watchDrainLoop cmd now reads ch).closed = ch.closed := by
  induction reads with
  | nil => intro ch; exact ⟨rfl, rfl⟩
  | cons r rest ih =>
    intro ch
    cases r with
    | data bytes =>
      rw [watchDrainLoop]
      by_cases hb : bytes.isEmpty = true
      · rw [if_pos hb]; exact ⟨rfl, rfl⟩
      · rw [if_neg hb]
        obtain ⟨i2, i3⟩ := ih { (ch.printHeader (watchHeaderDrain cmd now)) with
          written := (ch.printHeader (watchHeaderDrain cmd now)).written ++
            [(WatchKind.data, bytes)] }
        exact ⟨by simpa using i2, by simpa using i3⟩
    | eof => exact ⟨rfl, rfl⟩
    | again => exact ⟨rfl, rfl⟩
    | error => exact ⟨rfl, rfl⟩

/-- The complete block written when a channel is closed at end of file or hang-up. -/
theorem close_framed (ch : WatchChan) (hdr : Str) (hcl : ch.closed = [])
    (h : Blank ch ∨ Headed ch) :
    (((ch.printHeader hdr).printTrailer).shut true).fd < 0 ∧
    (((ch.printHeader hdr).printTrailer).shut true).closed.length = 1 ∧
    Trailed (((ch.printHeader hdr).printTrailer).shut true) := by
  have ht := printTrailer_headed _ (printHeader_unframed ch hdr h)
  refine ⟨by simp [WatchChan.shut], by simp [WatchChan.shut, hcl], ?_⟩
  exact ⟨ht.1, ht.2.1, ht.2.2⟩

theorem watchPollin_framed (cmd : Str) (now : Int) (ch : WatchChan) (hfd : ch.fd ≥ 0)
    (hcl : ch.closed = []) (h : Blank ch ∨ Headed ch)
    (hne : ch.reads.headD ReadResult.again ≠ ReadResult.error) :
    (watchPollin cmd now ch).reads <:+ ch.reads ∧
    (((watchPollin cmd now ch).fd ≥ 0 ∧ (watchPollin cmd now ch).closed = [] ∧
        (Blank (watchPollin cmd now ch) ∨ Headed (watchPollin cmd now ch))) ∨
      ((watchPollin cmd now ch).fd < 0 ∧ (watchPollin cmd now ch).closed.length = 1 ∧
        Trailed (watchPollin cmd now ch))) := by
  have hsuf : ch.reads.drop 1 <:+ ch.reads := List.drop_suffix 1 ch.reads
  have h1 : Blank { ch with reads := ch.reads.drop 1 } ∨
      Headed { ch with reads := ch.reads.drop 1 } := h
  unfold watchPollin
  dsimp only
  cases hr : ch.reads.headD ReadResult.again with
  | data bytes =>
    dsimp only
    by_cases hb : bytes.isEmpty = true
    · rw [if_pos hb]
      have := close_framed { ch with reads := ch.reads.drop 1 } (watchHeader cmd now) hcl h1
      exact ⟨by simpa [WatchChan.shut] using hsuf, Or.inr this⟩
    · rw [if_neg hb]
      refine ⟨by simpa using hsuf, Or.inl ⟨by simpa using hfd, by simpa using hcl, Or.inr ?_⟩⟩
      exact headed_data _ bytes (printHeader_unframed _ (watchHeader cmd now) h1)
  | eof =>
    have := close_framed { ch with reads := ch.reads.drop 1 } (watchHeader cmd now) hcl h1
    exact ⟨by simpa [WatchChan.shut] using hsuf, Or.inr this⟩
  | again => exact ⟨hsuf, Or.inl ⟨hfd, hcl, h1⟩⟩
  | error => exact absurd hr hne

theorem watchHup_framed (cmd : Str) (now : Int) (ch : WatchChan)
    (h : (ch.fd ≥ 0 ∧ ch.closed = [] ∧ (Blank ch ∨ Headed ch)) ∨
      (ch.fd < 0 ∧ ch.closed.length = 1 ∧ Trailed ch)) :
    (watchHup cmd now ch).reads <:+ ch.reads ∧
    (watchHup cmd now ch).fd < 0 ∧ (watchHup cmd now ch).closed.length = 1 ∧
      Trailed (watchHup cmd now ch) := by
  unfold watchHup
  dsimp only
  rcases h with ⟨hfd, hcl, hu⟩ | ⟨hfd, hcl, ht⟩
  · rw [show (if ch.fd < 0 then ch else watchDrainLoop cmd now ch.reads ch) =
      watchDrainLoop cmd now ch.reads ch from if_neg (by omega)]
    obtain ⟨d1, d2, d3, d4⟩ := watchDrainLoop_spec cmd now ch.reads ch hu
    have hfd2 : (watchDrainLoop cmd now ch.reads ch).fd ≥ 0 := by rw [d2]; exact hfd
    rw [if_pos (by simpa using hfd2)]
    have := close_framed _ (watchHeader cmd now) (by rw [d3]; exact hcl) d1
    exact ⟨by simpa [WatchChan.shut] using d4, this⟩
  · rw [show (if ch.fd < 0 then ch else watchDrainLoop cmd now ch.reads ch) = ch from
      if_pos hfd, printHeader_trailed ch _ ht, printTrailer_trailed ch ht, if_neg (by omega)]
    exact ⟨List.suffix_refl _, hfd, hcl, ht⟩

theorem watchPollin_closedOnce (cmd : Str) (now : Int) (ch : WatchChan) (hfd : ch.fd ≥ 0)
    (hcl : ch.closed = []) : ClosedOnce (watchPollin cmd now ch) := by
  unfold watchPollin ClosedOnce
  dsimp only
  cases ch.reads.headD ReadResult.again with
  | data bytes =>
    dsimp only
    by_cases hb : bytes.isEmpty = true
    · rw [if_pos hb]; right; simp [WatchChan.shut, hcl]
    · rw [if_neg hb]; left; simpa using ⟨hfd, hcl⟩
  | eof => right; simp [WatchChan.shut, hcl]
  | again => left; exact ⟨hfd, hcl⟩
  | error => right; simp [WatchChan.shut, hcl]

theorem watchHup_closedOnce (cmd : Str) (now : Int) (ch : WatchChan) (h : ClosedOnce ch) :
    ClosedOnce (watchHup cmd now ch) := by
  unfold watchHup
  dsimp only
  rcases h with ⟨hfd, hcl⟩ | ⟨hfd, hcl⟩
  · rw [show (if ch.fd < 0 then ch else watchDrainLoop cmd now ch.reads ch) =
      watchDrainLoop cmd now ch.reads ch from if_neg (by omega)]
    obtain ⟨d2, d3⟩ := watchDrainLoop_closure cmd now ch.reads ch
    rw [if_pos (by simpa [d2] using hfd)]
    right
    simp [WatchChan.shut, d3, hcl]
  · rw [show (if ch.fd < 0 then ch else watchDrainLoop cmd now ch.reads ch) = ch from
      if_pos hfd, if_neg (by simpa using hfd)]
    right
    simpa using ⟨hfd, hcl⟩

theorem watchHandleFd_closedOnce (cmd : Str) (now : Int) (pollin pollhup : Bool)
    (ch : WatchChan) (h : ClosedOnce ch) :
    ClosedOnce (watchHandleFd cmd now pollin pollhup ch) := by
  unfold watchHandleFd
  dsimp only
  by_cases hfd : ch.fd < 0
  · rw [if_pos hfd]; exact h
  · rw [if_neg hfd]
    have hcl : ch.closed = [] := by
      rcases h with ⟨_, h2⟩ | ⟨h1, _⟩
      · exact h2
      · exact absurd h1 hfd
    have h1 : ClosedOnce (if pollin = true then watchPollin cmd now ch else ch) := by
      cases pollin
      · exact h
      · exact watchPollin_closedOnce cmd now ch (by omega) hcl
    cases pollhup
    · exact h1
    · exact watchHup_closedOnce cmd now _ h1

theorem watchHandleFd_framed (cmd : Str) (now : Int) (pollin pollhup : Bool) (ch : WatchChan)
    (hc : ClosedOnce ch) (hf : Framed ch) (hne : ReadResult.error ∉ ch.reads) :
    (watchHandleFd cmd now pollin pollhup ch).reads <:+ ch.reads ∧
      Framed (watchHandleFd cmd now pollin pollhup ch) := by
  unfold watchHandleFd
  dsimp only
  by_cases hfd : ch.fd < 0
  · rw [if_pos hfd]; exact ⟨List.suffix_refl _, hf⟩
  · rw [if_neg hfd]
    have hcl : ch.closed = [] := by
      rcases hc with ⟨_, h2⟩ | ⟨h1, _⟩
      · exact h2
      · exact absurd h1 hfd
    have hu : Blank ch ∨ Headed ch := by
      rcases hf with ⟨_, h2⟩ | ⟨h1, _⟩
      · exact h2
      · exact absurd h1 hfd
    have hhead : ch.reads.headD ReadResult.again ≠ ReadResult.error := by
      cases hr : ch.reads with
      | nil => simp
      | cons r rest =>
        rw [hr] at hne
        simp only [List.headD_cons]
        exact fun h => hne (h ▸ List.mem_cons_self _ _)
    have h1 : (if pollin = true then watchPollin cmd now ch else ch).reads <:+ ch.reads ∧
        (((if pollin = true then watchPollin cmd now ch else ch).fd ≥ 0 ∧
            (if pollin = true then watchPollin cmd now ch else ch).closed = [] ∧
            (Blank (if pollin = true then watchPollin cmd now ch else ch) ∨
              Headed (if pollin = true then watchPollin cmd now ch else ch))) ∨
          ((if pollin = true then watchPollin cmd now ch else ch).fd < 0 ∧
            (if pollin = true then watchPollin cmd now ch else ch).closed.length = 1 ∧
            Trailed (if pollin = true then watchPollin cmd now ch else ch))) := by
      cases pollin
      · exact ⟨List.suffix_refl _, Or.inl ⟨by simpa using hfd, hcl, hu⟩⟩
      · exact watchPollin_framed cmd now ch (by omega) hcl hu hhead
    generalize (if pollin = true then watchPollin cmd now ch else ch) = ch1 at h1 ⊢
    cases pollhup
    · refine ⟨h1.1, ?_⟩
      rcases h1.2 with ⟨a, _, c⟩ | ⟨a, _, c⟩
      · exact Or.inl ⟨a, c⟩
      · exact Or.inr ⟨a, c⟩
    · obtain ⟨g1, g2, _, g4⟩ := watchHup_framed cmd now ch1 h1.2
      exact ⟨g1.trans h1.1, Or.inr ⟨g2, g4⟩⟩

theorem watchHandleFd_reads (cmd : Str) (now : Int) (pollin pollhup : Bool) (ch : WatchChan) :
    (watchHandleFd cmd now pollin pollhup ch).reads <:+ ch.reads := by
  have hp : (if pollin = true then watchPollin cmd now ch else ch).reads <:+ ch.reads := by
    cases pollin
    · exact List.suffix_refl _
    · have hsuf : ch.reads.drop 1 <:+ ch.reads := List.drop_suffix 1 ch.reads
      simp only [if_true]
      unfold watchPollin
      dsimp only
      cases ch.reads.headD ReadResult.again with
      | data bytes =>
        dsimp only
        by_cases hb : bytes.isEmpty = true
        · rw [if_pos hb]; simpa [WatchChan.shut] using hsuf
        · rw [if_neg hb]; simpa using hsuf
      | eof => simpa [WatchChan.shut] using hsuf
      | again => exact hsuf
      | error => simpa [WatchChan.shut] using hsuf
  unfold watchHandleFd
  dsimp only
  by_cases hfd : ch.fd < 0
  · rw [if_pos hfd]
  · rw [if_neg hfd]
    generalize (if pollin = true then watchPollin cmd now ch else ch) = ch1 at hp ⊢
    cases pollhup
    · exact hp
    · refine List.IsSuffix.trans ?_ hp
      simp only [if_true]
      unfold watchHup
      dsimp only
      have hd : (if ch1.fd < 0 then ch1 else watchDrainLoop cmd now ch1.reads ch1).reads <:+
          ch1.reads := by
        by_cases h : ch1.fd < 0
        · rw [if_pos h]
        · rw [if_neg h]
          have : ∀ (reads : List ReadResult) (c : WatchChan),
              (watchDrainLoop cmd now reads c).reads <:+ reads := by
            intro reads
            induction reads with
            | nil => intro c; exact List.suffix_refl _
            | cons r rest ih =>
              intro c
              cases r with
              | data bytes =>
                rw [watchDrainLoop]
                by_cases hb : bytes.isEmpty = true
                · rw [if_pos hb]; exact List.suffix_cons _ _
                · rw [if_neg hb]; exact (ih _).trans (List.suffix_cons _ _)
              | eof => exact List.suffix_cons _ _
              | again => exact List.suffix_cons _ _
              | error => exact List.suffix_cons _ _
          exact this _ _
      generalize (if ch1.fd < 0 then ch1 else watchDrainLoop cmd now ch1.reads ch1) = ch2 at hd ⊢
      split_ifs
      · simpa [WatchChan.shut] using hd
      · simpa using hd

theorem tracks_step (now : Int) (pollin pollhup : Bool) (c0 c : Str × WatchChan)
    (h : Tracks c0 c) : Tracks c0 (c.1, watchHandleFd c.1 now pollin pollhup c.2) := by
  obtain ⟨h1, h2, h3, h4⟩ := h
  refine ⟨h1, (watchHandleFd_reads c.1 now pollin pollhup c.2).trans h2,
    watchHandleFd_closedOnce c.1 now pollin pollhup c.2 h3, ?_⟩
  intro hne
  have hne2 : ReadResult.error ∉ c.2.reads := fun hin => hne (h2.subset hin)
  exact (watchHandleFd_framed c.1 now pollin pollhup c.2 h3 (h4 hne) hne2).2

theorem tracks_handleAll (now : Int) (init cur : List (Str × WatchChan))
    (h : List.Forall₂ Tracks init cur) :
    ∀ revs, List.Forall₂ Tracks init (watchHandleAll now cur revs) := by
  induction h with
  | nil => intro revs; exact List.Forall₂.nil
  | cons hxy _ ih =>
    intro revs
    exact List.Forall₂.cons (tracks_step now _ _ _ _ hxy) (ih revs.tail)

theorem length_watchHandleAll (now : Int) (cur : List (Str × WatchChan)) :
    ∀ revs, (watchHandleAll now cur revs).length = cur.length := by
  induction cur with
  | nil => intro revs; rfl
  | cons c rest ih => intro revs; simp [watchHandleAll, ih]

theorem closeCount_add_open (init cur : List (Str × WatchChan))
    (h : List.Forall₂ Tracks init cur) :
    closeCount cur + (cur.filter (fun c => decide (c.2.fd ≥ 0))).length = cur.length := by
  induction h with
  | nil => rfl
  | @cons x y l1 l2 hxy _ ih =>
    have hc : closeCount (y :: l2) = y.2.closed.length + closeCount l2 := by
      simp [closeCount]
    rw [hc]
    rcases hxy.2.2.1 with ⟨h1, h2⟩ | ⟨h1, h2⟩
    · rw [List.filter_cons_of_pos (by simpa using h1), h2]
      simp only [List.length_nil, List.length_cons]
      omega
    · rw [List.filter_cons_of_neg (by simp only [decide_eq_true_eq]; omega), h2]
      simp only [List.length_cons]
      omega

theorem all_closed_of_count (init cur : List (Str × WatchChan))
    (h : List.Forall₂ Tracks init cur) (hcount : cur.length ≤ closeCount cur) :
    ∀ c ∈ cur, c.2.fd < 0 := by
  have h1 := closeCount_add_open init cur h
  have h2 : (cur.filter (fun c => decide (c.2.fd ≥ 0))).length = 0 := by omega
  have h3 := List.filter_eq_nil_iff.mp (List.length_eq_zero.mp h2)
  intro c hc
  have := h3 c hc
  simp only [decide_eq_true_eq] at this
  omega

theorem watchPollLoop_inv (init : List (Str × WatchChan)) (polls : List PollResult) :
    ∀ st : WatchRound, List.Forall₂ Tracks init st.chans →
      st.openCount + (closeCount st.chans : Int) = (st.chans.length : Int) →
      List.Forall₂ Tracks init (watchPollLoop polls st).1.chans ∧
      (watchPollLoop polls st).1.openCount + (closeCount (watchPollLoop polls st).1.chans : Int)
        = ((watchPollLoop polls st).1.chans.length : Int) ∧
      ((watchPollLoop polls st).2 = LoopExit.conditionFalse →
        ¬ ((watchPollLoop polls st).1.openCount > 0 ∧ (watchPollLoop polls st).1.chans ≠ [])) := by
  induction polls with
  | nil =>
    intro st h1 h2
    rw [watchPollLoop]
    refine ⟨h1, h2, ?_⟩
    dsimp only
    by_cases hc : st.openCount > 0 ∧ st.chans ≠ []
    · rw [if_pos hc]; intro h; cases h
    · intro _; exact hc
  | cons p rest ih =>
    intro st h1 h2
    by_cases hc : st.openCount > 0 ∧ st.chans ≠ []
    · cases p with
      | eintr => rw [watchPollLoop, if_pos hc]; exact ih st h1 h2
      | failed => rw [watchPollLoop, if_pos hc]; exact ⟨h1, h2, fun h => by cases h⟩
      | timeout => rw [watchPollLoop, if_pos hc]; exact ih st h1 h2
      | ready now revents =>
        rw [watchPollLoop, if_pos hc]
        refine ih (st.handle now revents) (tracks_handleAll now init st.chans h1 revents) ?_
        simp only [WatchRound.handle, length_watchHandleAll]
        omega
    · cases p <;> rw [watchPollLoop, if_neg hc] <;> exact ⟨h1, h2, fun _ => hc⟩

theorem fresh_chans (inputs : List WatchInput) :
    ∀ x ∈ (WatchRound.fresh inputs).chans, x.2.fd ≥ 0 ∧ x.2.closed = [] ∧ Blank x.2 := by
  have hz : ∀ (labels : List Str) (pfds : List WatchInput), (∀ c ∈ pfds, c.rfd ≥ 0) →
      ∀ x ∈ List.zipWith
        (fun l c => (l, ({ fd := c.rfd, reads := c.reads } : WatchChan))) labels pfds,
        x.2.fd ≥ 0 ∧ x.2.closed = [] ∧ Blank x.2 := by
    intro labels
    induction labels with
    | nil => intro pfds _ x hx; simp at hx
    | cons l ls ih =>
      intro pfds hp x hx
      cases pfds with
      | nil => simp at hx
      | cons c cs =>
        simp only [List.zipWith_cons_cons, List.mem_cons] at hx
        rcases hx with hx | hx
        · subst hx
          exact ⟨hp c (List.mem_cons_self _ _), rfl, rfl, rfl, rfl⟩
        · exact ih cs (fun d hd => hp d (List.mem_cons_of_mem _ hd)) x hx
  intro x hx
  refine hz _ _ ?_ x hx
  intro c hc
  have := (List.mem_filter.mp hc).2
  simp only [Bool.and_eq_true, decide_eq_true_eq] at this
  exact this.2

theorem tracks_fresh (inputs : List WatchInput) :
    List.Forall₂ Tracks (WatchRound.fresh inputs).chans (WatchRound.fresh inputs).chans := by
  rw [List.forall₂_same]
  intro x hx
  obtain ⟨h1, h2, h3⟩ := fresh_chans inputs x hx
  exact ⟨rfl, List.suffix_refl _, Or.inl ⟨h1, h2⟩, fun _ => Or.inl ⟨h1, Or.inl h3⟩⟩

theorem fresh_count (inputs : List WatchInput) :
    (WatchRound.fresh inputs).openCount + (closeCount (WatchRound.fresh inputs).chans : Int) =
      ((WatchRound.fresh inputs).chans.length : Int) := by
  have hcc : closeCount (WatchRound.fresh inputs).chans = 0 := by
    unfold closeCount
    apply List.sum_eq_zero
    intro n hn
    obtain ⟨c, hc, hcn⟩ := List.mem_map.mp hn
    rw [← hcn, (fresh_chans inputs c hc).2.1]
    rfl
  have hle : (inputs.filter (fun c => c.forked && decide (c.rfd ≥ 0))).length ≤
      (inputs.filter (fun c => c.forked)).length := by
    have : inputs.filter (fun c => c.forked && decide (c.rfd ≥ 0)) =
        (inputs.filter (fun c => c.forked)).filter (fun c => decide (c.rfd ≥ 0)) := by
      rw [List.filter_filter]
      congr 1
      funext c
      exact Bool.and_comm _ _
    rw [this]
    exact List.length_filter_le _ _
  rw [hcc]
  simp only [WatchRound.fresh, List.length_zipWith, List.length_map]
  omega

/-- C21, as amended. In every round of the supervisor's multiplex loop, at every point the
loop can reach along any sequence of results of `poll` and `read`, for every channel that was
opened: the channel is open and was never closed, or it is closed and was closed, with the
decrement of `openCount`, exactly once; `openCount` is the number of open channels; provided no
read of the channel fails with an error, while it is open its writes are nothing or the header,
the separator and then data only, and once it is closed they are the header and the separator
once, the data, and the trailing separator once at the end (`Tracks`).  When the loop ends by
its condition every channel is closed (it can also end by `break` when `poll` fails). -/
theorem watch_round_framing (inputs : List WatchInput) (polls : List PollResult) :
    List.Forall₂ Tracks (WatchRound.fresh inputs).chans
      (watchPollLoop polls (WatchRound.fresh inputs)).1.chans ∧
    (watchPollLoop polls (WatchRound.fresh inputs)).1.openCount =
      (((watchPollLoop polls (WatchRound.fresh inputs)).1.chans.filter
        (fun c => decide (c.2.fd ≥ 0))).length : Int) ∧
    ((watchPollLoop polls (WatchRound.fresh inputs)).2 = LoopExit.conditionFalse →
      ∀ c ∈ (watchPollLoop polls (WatchRound.fresh inputs)).1.chans, c.2.fd < 0) := by
  have hinit := fresh_count inputs
  obtain ⟨h1, h2, h3⟩ := watchPollLoop_inv _ polls _ (tracks_fresh inputs) hinit
  have h4 := closeCount_add_open _ _ h1
  refine ⟨h1, by omega, ?_⟩
  intro hexit c hc
  have hcond := h3 hexit
  by_cases hnil : (watchPollLoop polls (WatchRound.fresh inputs)).1.chans = []
  · rw [hnil] at hc; simp at hc
  · have hle : (watchPollLoop polls (WatchRound.fresh inputs)).1.openCount ≤ 0 := by
      by_contra hgt
      exact hcond ⟨by omega, hnil⟩
    exact all_closed_of_count _ _ h1 (by omega) c hc

/-- C21, instance: `date` yields `a`, then `b` and the end of file at the hang-up; `ls` hangs
up without output.  Both channels end closed, each with one complete block, and the loop ends
by its condition. -/
theorem watch_round_framing_witness :
    (watchPollLoop
      [PollResult.ready 0 [(true, false), (true, true)], PollResult.timeout,
        PollResult.ready 1 [(true, true)]]
      (WatchRound.fresh
        [{ cmd := "date".toList, rfd := 5,
           reads := [ReadResult.data "a".toList, ReadResult.data "b".toList, ReadResult.eof] },
         { cmd := "ls".toList, rfd := 6 }])).1.chans.map
        (fun c => (c.2.fd, c.2.closed, c.2.written.map Prod.fst)) =
      [(-1, [5], [WatchKind.header, WatchKind.separator, WatchKind.data, WatchKind.data,
          WatchKind.separator]),
        (-1, [6], [WatchKind.header, WatchKind.separator, WatchKind.separator])] ∧
    ∀ c ∈ (watchPollLoop
      [PollResult.ready 0 [(true, false), (true, true)], PollResult.timeout,
        PollResult.ready 1 [(true, true)]]
      (WatchRound.fresh
        [{ cmd := "date".toList, rfd := 5,
           reads := [ReadResult.data "a".toList, ReadResult.data "b".toList, ReadResult.eof] },
         { cmd := "ls".toList, rfd := 6 }])).1.chans, c.2.fd < 0 :=
  ⟨by decide,
    (watch_round_framing
      [{ cmd := "date".toList, rfd := 5,
         reads := [ReadResult.data "a".toList, ReadResult.data "b".toList, ReadResult.eof] },
       { cmd := "ls".toList, rfd := 6 }]
      [PollResult.ready 0 [(true, false), (true, true)], PollResult.timeout,
        PollResult.ready 1 [(true, true)]]).2.2 (by decide)⟩

/-- C21, counterexample to the claim as worded.  When `poll` fails (with an error other than
`EINTR`) the loop is left by `break` although the channel of `date` is still open.  And when
the read on `POLLIN` fails with an error, the channel is closed, and the loop ends, with
neither a header nor a trailing separator written for it. -/
theorem watch_loop_leaves_channel :
    watchPollLoop [PollResult.failed] (WatchRound.fresh [{ cmd := "date".toList, rfd := 5 }]) =
      ({ chans := [("date".toList, { fd := 5 })], openCount := 1 }, LoopExit.pollFailed) ∧
    watchPollLoop [PollResult.ready 0 [(true, false)]]
        (WatchRound.fresh [{ cmd := "date".toList, rfd := 5, reads := [ReadResult.error] }]) =
      ({ chans := [("date".toList, { fd := -1, closed := [5] })], openCount := 0 },
        LoopExit.conditionFalse) := by
  refine ⟨by decide, by decide⟩

/-! ## Where a chunk boundary is harmless -/

theorem sanitizeStep_lookahead (c : Char) (next : Option Char) (t : Tab)
    (h : c ≠ '\r' ∨ next ≠ some '\n') : sanitizeStep c next t = sanitizeStep c none t := by
  unfold sanitizeStep
  rcases h with h | h
  · cases t.ansiState <;> simp [h]
  · cases t.ansiState <;> simp [h]

/-- Cutting the input into the chunks `a` and `b` changes nothing unless `a` ends with a CR and
`b` begins with an LF. -/
theorem sanitizeLoop_append (a : Str) :
    ∀ (b : Str) (t : Tab) (out : Str), (a.getLast? ≠ some '\r' ∨ b.head? ≠ some '\n') →
      sanitizeLoop (a ++ b) t out =
        sanitizeLoop b (sanitizeLoop a t out).1 (sanitizeLoop a t out).2 := by
  induction a with
  | nil => intro b t out _; rfl
  | cons c rest ih =>
    intro b t out h
    cases rest with
    | nil =>
      have hs : sanitizeStep c b.head? t = sanitizeStep c none t := by
        apply sanitizeStep_lookahead
        rcases h with h | h
        · left; simpa using h
        · right; exact h
      show sanitizeLoop (c :: b) t out = _
      rw [sanitizeLoop, hs]
      rfl
    | cons d rest2 =>
      have h2 : (d :: rest2).getLast? ≠ some '\r' ∨ b.head? ≠ some '\n' := by
        rcases h with h | h
        · left; simpa [List.getLast?_cons_cons] using h
        · right; exact h
      have := ih b (sanitizeStep c (some d) t).1 (out ++ (sanitizeStep c (some d) t).2) h2
      simpa [sanitizeLoop] using this

/-- C12, failing input: `kill 4294967317` while the pipeline 20/21 and the job 30 are in the
background.  The token is accepted and `strtol` gives `p = 4294967317`; no background job has
that number as pid or pgid, so the signal should go to the single process `p`.  The conversion
`(pid_t)v` makes it 21, the look-up finds the job of pid 21, and the one signal sent is
`killpg(20, SIGTERM)`: a process group that was not named is signalled, and its job is removed
from `backgroundJobs`. -/
theorem kill_narrowed_pid_hits_job :
    validPidArg "4294967317".toList = true ∧
    (strtol (c_str "4294967317".toList)).1 = 4294967317 ∧
    (∀ j ∈ killExample.tab.backgroundJobs, j.pid ≠ 4294967317 ∧ j.pgid ≠ 4294967317) ∧
    signalsSent (executeLineInternal killExample "kill 4294967317".toList false).log =
      [Event.killpg 20 15] ∧
    (executeLineInternal killExample "kill 4294967317".toList false).tab.backgroundJobs.map
        (fun j => j.pid) = [30] := by
  refine ⟨by decide, by decide, by decide, by decide, by decide⟩

/-- Below 2^31 the conversion `(pid_t)v` changes nothing: the process id is the number
typed. -/
theorem pidOfArg_of_lt (spid : Str) (h0 : 0 ≤ (strtol (c_str spid)).1)
    (h : (strtol (c_str spid)).1 < 2 ^ 31) : pidOfArg spid = (strtol (c_str spid)).1 := by
  unfold pidOfArg toPidT
  rw [Int.emod_eq_of_lt (by omega) (by omega)]
  omega

/-! ## Escape sequences are forwarded -/

theorem sanitizeLoop_acc (s : Str) :
    ∀ (t : Tab) (out : Str),
      sanitizeLoop s t out = ((sanitizeLoop s t []).1, out ++ (sanitizeLoop s t []).2) := by
  induction s with
  | nil => intro t out; simp [sanitizeLoop]
  | cons c rest ih =>
    intro t out
    rw [sanitizeLoop, sanitizeLoop, ih _ (out ++ _), ih _ ([] ++ _)]
    simp

theorem sanitizeLoop_params (params : Str) :
    ∀ (t : Tab) (out more : Str), t.ansiState = AnsiState.ANSI_CSI →
      (∀ c ∈ params, isCsiParam c = true) →
      sanitizeLoop (params ++ more) t out =
        sanitizeLoop more { t with ansiSeq := t.ansiSeq ++ params } out := by
  induction params with
  | nil => intro t out more _ _; simp
  | cons c rest ih =>
    intro t out more ht hp
    have hc := hp c (List.mem_cons_self _ _)
    have hr : ∀ d ∈ rest, isCsiParam d = true := fun d hd => hp d (List.mem_cons_of_mem _ hd)
    simp only [isCsiParam, isCsiFinal, Bool.and_eq_true, Bool.not_eq_true', beq_eq_false_iff_ne,
      ne_eq] at hc
    have hstep : sanitizeStep c (rest ++ more).head? t =
        ({ t with ansiSeq := t.ansiSeq ++ [c] }, []) := by
      unfold sanitizeStep
      rw [ht]
      simp only [beq_iff_eq, hc.2, if_false, hc.1, Bool.false_eq_true]
    rw [List.cons_append, sanitizeLoop, hstep]
    dsimp only
    rw [List.append_nil, ih _ out more (by exact ht) hr]
    simp

theorem sanitizeLoop_csi (t : Tab) (params rest out : Str) (final : Char)
    (ht : t.ansiState = AnsiState.ANSI_TEXT) (hparams : ∀ c ∈ params, isCsiParam c = true)
    (hfinal : isCsiFinal final = true)
    (hJ : final = 'J' → '2' ∈ params → params = ['2']) :
    sanitizeLoop (ESC :: '[' :: (params ++ final :: rest)) t out =
      sanitizeLoop rest (afterSequence t (final == 'J' && params == ['2']))
        (out ++ (ESC :: '[' :: (params ++ [final]))) := by
  have hf : ('@'.toNat ≤ final.toNat ∧ final.toNat ≤ '~'.toNat) := by
    simpa [isCsiFinal] using hfinal
  have hbel : ¬ final.toNat = 0x07 := by
    have : '@'.toNat = 64 := by decide
    omega
  rw [sanitizeLoop, sanitizeLoop]
  have h1 : sanitizeStep ESC ('[' :: (params ++ final :: rest)).head? t =
      ({ t with ansiState := AnsiState.ANSI_ESC, ansiSeq := [ESC] }, []) := by
    unfold sanitizeStep
    rw [ht]
    simp [ESC]
  rw [h1]
  dsimp only
  have h2 : sanitizeStep '[' (params ++ final :: rest).head?
      { t with ansiState := AnsiState.ANSI_ESC, ansiSeq := [ESC] } =
      ({ t with ansiSeq := [ESC, '['], ansiState := AnsiState.ANSI_CSI }, []) := by
    simp [sanitizeStep]
  rw [h2]
  dsimp only
  rw [sanitizeLoop_params params _ _ _ rfl hparams, sanitizeLoop]
  dsimp only
  have hesc : ¬ '2' = ESC := by decide
  have h3 : sanitizeStep final rest.head?
      { t with ansiSeq := [ESC, '['] ++ params, ansiState := AnsiState.ANSI_CSI } =
      (afterSequence t (final == 'J' && params == ['2']),
        ESC :: '[' :: (params ++ [final])) := by
    unfold sanitizeStep
    dsimp only
    simp only [beq_iff_eq, hbel, if_false, hf.1, hf.2, decide_True, Bool.and_self, if_true]
    refine Prod.ext ?_ (by simp)
    dsimp only
    by_cases hfj : final = 'J'
    · subst hfj
      by_cases h2p : '2' ∈ params
      · have hp := hJ rfl h2p
        subst hp
        simp [afterSequence, clearScreen]
      · have hne : params ≠ ['2'] := fun h => h2p (by rw [h]; exact List.mem_singleton.mpr rfl)
        simp [afterSequence, hesc, h2p, hne]
    · simp [afterSequence, hfj]
  rw [h3]
  simp

theorem sanitizeLoop_esc2 (t : Tab) (rest out : Str) (c : Char)
    (ht : t.ansiState = AnsiState.ANSI_TEXT) (hc : c ≠ '[') :
    sanitizeLoop (ESC :: c :: rest) t out =
      sanitizeLoop rest (afterSequence t false) (out ++ [ESC, c]) := by
  rw [sanitizeLoop, sanitizeLoop]
  have h1 : sanitizeStep ESC (c :: rest).head? t =
      ({ t with ansiState := AnsiState.ANSI_ESC, ansiSeq := [ESC] }, []) := by
    unfold sanitizeStep
    rw [ht]
    simp [ESC]
  rw [h1]
  dsimp only
  have h2 : sanitizeStep c rest.head?
      { t with ansiState := AnsiState.ANSI_ESC, ansiSeq := [ESC] } =
      (afterSequence t false, [ESC, c]) := by
    simp [sanitizeStep, hc, afterSequence]
  rw [h2]
  simp

/-- C18, as amended. Escape sequences are forwarded in the returned text, not stripped.  For
every tab in the state `ANSI_TEXT` and every chunk made of text without ESC, a CSI sequence
(ESC, `[`, bytes that are neither final bytes nor BEL, a final byte in `@`..`~`) and a rest: the
string returned is the normalised text, then the bytes of the sequence unchanged, then what
the rest returns from the state `ANSI_TEXT`; the sequence has no effect on the tab unless it is
CSI 2 J, which clears the scrollback.  (A sequence ending in `J` whose other bytes contain a
`2` without being `2` is left out.)  An ESC followed by a byte other than `[` is forwarded with
that byte in the same way. -/
theorem sanitize_forwards_sequences (t : Tab) (pre params rest : Str) (final c : Char)
    (ht : t.ansiState = AnsiState.ANSI_TEXT) (hpre : ∀ d ∈ pre, d.toNat ≠ 0x1B)
    (hparams : ∀ d ∈ params, isCsiParam d = true) (hfinal : isCsiFinal final = true)
    (hJ : final = 'J' → '2' ∈ params → params = ['2']) (hc : c ≠ '[') :
    sanitizeAndApplyANSI t (pre ++ ESC :: '[' :: (params ++ final :: rest)) =
      ((sanitizeAndApplyANSI (afterSequence t (final == 'J' && params == ['2'])) rest).1,
        specNormalize pre ++ (ESC :: '[' :: (params ++ [final])) ++
          (sanitizeAndApplyANSI (afterSequence t (final == 'J' && params == ['2'])) rest).2) ∧
    sanitizeAndApplyANSI t (pre ++ ESC :: c :: rest) =
      ((sanitizeAndApplyANSI (afterSequence t false) rest).1,
        specNormalize pre ++ [ESC, c] ++ (sanitizeAndApplyANSI (afterSequence t false) rest).2) ∧
    (afterSequence t true).scrollback = [] ∧
    (afterSequence t false).scrollback = t.scrollback := by
  have hhead : ∀ more : Str, pre.getLast? ≠ some '\r' ∨ (ESC :: more).head? ≠ some '\n' :=
    fun more => Or.inr (by simp [ESC])
  refine ⟨?_, ?_, by simp [afterSequence, clearScreen], by simp [afterSequence]⟩
  · unfold sanitizeAndApplyANSI
    rw [sanitizeLoop_append pre _ t [] (hhead _), sanitizeLoop_text pre t [] ht hpre]
    dsimp only
    rw [sanitizeLoop_csi t params rest _ final ht hparams hfinal hJ, sanitizeLoop_acc]
    simp
  · unfold sanitizeAndApplyANSI
    rw [sanitizeLoop_append pre _ t [] (hhead _), sanitizeLoop_text pre t [] ht hpre]
    dsimp only
    rw [sanitizeLoop_esc2 t rest _ c ht hc, sanitizeLoop_acc]
    simp

/-- C18, instance: `ok`, the colour sequence `ESC [ 3 1 m` and `red` are returned as they
are, the tab unchanged; after `old` the sequence `ESC [ 2 J` is returned too and the scrollback
is empty. -/
theorem sanitize_forwards_sequences_witness :
    sanitizeAndApplyANSI {} ("ok".toList ++ ESC :: '[' :: ("31".toList ++ 'm' :: "red".toList)) =
      ({}, "ok".toList ++ ESC :: '[' :: ("31".toList ++ 'm' :: "red".toList)) ∧
    sanitizeAndApplyANSI { scrollback := "old\n".toList }
        ([] ++ ESC :: '[' :: ("2".toList ++ 'J' :: [])) =
      ({}, ESC :: '[' :: "2J".toList) :=
  ⟨((sanitize_forwards_sequences {} "ok".toList "31".toList "red".toList 'm' 'c' rfl
      (by decide) (by decide) (by decide) (by decide) (by decide)).1).trans (by decide),
    ((sanitize_forwards_sequences { scrollback := "old\n".toList } [] "2".toList [] 'J' 'c' rfl
      (by decide) (by decide) (by decide) (by decide) (by decide)).1).trans (by decide)⟩

/-! ## Failure of `execvp` -/

@[simp] theorem close_log (w : World) (fd : Int) :
    (w.close fd).log = w.log ++ [Event.close fd] := rfl

@[simp] theorem emit_log (w : World) (e : Event) : (w.emit e).log = w.log ++ [e] := rfl

@[simp] theorem appendOutput_log (w : World) (s : Str) : (w.appendOutput s).log = w.log := rfl

@[simp] theorem sep_log (w : World) : (append_sep_if_queued w).log = w.log := by
  unfold append_sep_if_queued; split <;> simp

@[simp] theorem pipe_log (w : World) :
    w.pipe.1.log = w.log ++ [Event.pipe (w.sys.pipes.headD none)] := rfl

@[simp] theorem openpty_log (w : World) :
    w.openpty.1.log = w.log ++ [Event.openpty (w.sys.ptys.headD none)] := rfl

@[simp] theorem fork_log (w : World) (c : Child) :
    (w.fork c).1.log = w.log ++ [Event.fork c (w.fork c).2] := rfl

theorem Forks.same (P : Child → Prop) (w : World) : Forks P w w :=
  ⟨[], by simp, by simp⟩

theorem Forks.chain {P : Child → Prop} {u v w : World} (h1 : Forks P u v) (h2 : Forks P v w) :
    Forks P u w := by
  obtain ⟨e1, l1, p1⟩ := h1
  obtain ⟨e2, l2, p2⟩ := h2
  refine ⟨e1 ++ e2, by rw [l2, l1, List.append_assoc], ?_⟩
  intro c hc
  rcases List.mem_append.mp hc with h | h
  · exact p1 c h
  · exact p2 c h

theorem Forks.of_eq {P : Child → Prop} {w v : World}
    (h : forkedChildren v.log = forkedChildren w.log) : Forks P w v :=
  ⟨[], by simp [h], by simp⟩

theorem Forks.fork {P : Child → Prop} (w : World) (c : Child) (h : P c) :
    Forks P w (w.fork c).1 :=
  ⟨[c], by simp [forkedChildren_append, forkedChildren], by simpa using h⟩

theorem Forks.forkedBy {P : Child → Prop} {w v : World} (h : Forks P w v) :
    ∀ c ∈ forkedBy w v, P c := by
  obtain ⟨cs, hl, hp⟩ := h
  intro c hc
  unfold MyTerm.forkedBy at hc
  rw [hl, List.drop_left] at hc
  exact hp c hc

theorem forkedChildren_closeAll (fds : List Int) :
    ∀ w : World, forkedChildren (closeAll w fds).log = forkedChildren w.log := by
  unfold closeAll
  induction fds with
  | nil => intro w; rfl
  | cons fd rest ih =>
    intro w
    rw [List.foldl_cons, ih]
    split_ifs <;> simp [forkedChildren_append, forkedChildren]

theorem forks_makePipes (P : Child → Prop) (k : Nat) :
    ∀ (w : World) (acc : List Int), Forks P w (makePipes k w acc).1 := by
  induction k with
  | zero => intro w acc; exact Forks.same P w
  | succ k ih =>
    intro w acc
    have hp : Forks P w w.pipe.1 := Forks.of_eq (by simp [forkedChildren_append, forkedChildren])
    unfold makePipes
    split
    · exact hp.chain (ih _ _)
    · exact hp.chain (Forks.of_eq rfl)

theorem forks_spawnStages (all : List Str) (n : Nat) (hs : Bool) (rd : Int)
    (pipesFD : List Int) (ow ew : Int) (stages : List Str) :
    ∀ (i : Nat) (w : World) (fp lp : Int), (∀ st ∈ stages, st ∈ all) →
      Forks (RunsStage all) w (spawnStages n hs rd pipesFD ow ew stages i w fp lp).1 := by
  induction stages with
  | nil => intro i w fp lp _; exact Forks.same _ w
  | cons st rest ih =>
    intro i w fp lp hall
    unfold spawnStages
    dsimp only
    by_cases hemp : (parseCmdWithRedir st {}).1.isEmpty = true
    · rw [if_pos hemp]; exact Forks.of_eq rfl
    · rw [if_neg hemp]
      have hne : (parseCmdWithRedir st {}).1 ≠ [] := fun h => hemp (by rw [h]; rfl)
      have hP : RunsStage all (stageChild n hs rd pipesFD ow ew fp i (parseCmdWithRedir st {}).1
          (parseCmdWithRedir st {}).2) :=
        ⟨st, hall st (List.mem_cons_self _ _), hne, Or.inr ⟨_, _, _, _, _, rfl⟩⟩
      have hf := Forks.fork w _ hP
      generalize stageChild n hs rd pipesFD ow ew fp i (parseCmdWithRedir st {}).1
        (parseCmdWithRedir st {}).2 = c at hf ⊢
      by_cases hlt : (w.fork c).2 < 0
      · rw [if_pos hlt]; exact hf.chain (Forks.of_eq rfl)
      · rw [if_neg hlt]
        exact hf.chain (ih _ _ _ _ (fun s hs => hall s (List.mem_cons_of_mem _ hs)))

theorem forks_registerJob (P : Child → Prop) (w : World) (cmd_line : Str) (background : Bool)
    (pipesFD : List Int) (sp : Option (Int × Int)) (o e : Int × Int) (fp lp : Int) :
    Forks P w (registerJob w cmd_line background pipesFD sp o e fp lp).1 := by
  have hc := forkedChildren_closeAll pipesFD w
  apply Forks.of_eq
  unfold registerJob
  dsimp only
  cases sp <;> dsimp only <;> split_ifs <;>
    simp [forkedChildren_append, forkedChildren, hc]

theorem forks_ptyAttempt (all : List Str) (w : World) (st : Str) (hst : st ∈ all)
    (hne : (parseCmdWithRedir st {}).1 ≠ []) :
    Forks (RunsStage all) w (ptyAttempt w (parseCmdWithRedir st {}).1).1 := by
  have ho : Forks (RunsStage all) w w.openpty.1 :=
    Forks.of_eq (by simp [forkedChildren_append, forkedChildren])
  unfold ptyAttempt
  dsimp only
  split
  · rename_i fds _
    have hf := Forks.fork w.openpty.1 (Child.pty (parseCmdWithRedir st {}).1 fds.2)
      (P := RunsStage all) ⟨st, hst, hne, Or.inl ⟨_, rfl⟩⟩
    split_ifs
    · exact ho.chain (hf.chain
        (Forks.of_eq (by simp [forkedChildren_append, forkedChildren])))
    · exact ho.chain (hf.chain
        (Forks.of_eq (by simp [forkedChildren_append, forkedChildren])))
  · exact ho

theorem forks_pipesExec (w : World) (stages : List Str) (cmd_line : Str) (background : Bool) :
    Forks (RunsStage stages) w (pipesExec w stages cmd_line background).1 := by
  have hpipe : ∀ v : World, Forks (RunsStage stages) v v.pipe.1 := fun v =>
    Forks.of_eq (by simp [forkedChildren_append, forkedChildren])
  have hfail : ∀ (v : World) (fds : List Int), Forks (RunsStage stages) v
      (closeAll (v.appendOutput "pipe() failed\n".toList) fds) := fun v fds =>
    Forks.of_eq (by rw [forkedChildren_closeAll]; rfl)
  unfold pipesExec
  dsimp only
  have hmp := forks_makePipes (RunsStage stages) (stages.length - 1) w []
  generalize makePipes (stages.length - 1) w [] = mp at hmp
  split
  · exact hmp
  · refine Forks.chain hmp ?_
    have hsp : Forks (RunsStage stages) mp.1
        (if (parseCmdWithRedir (stages.headD []) {}).2.in.isEmpty = true
          then mp.1.pipe else (mp.1, none)).1 := by
      split_ifs
      · exact hpipe _
      · exact Forks.same _ _
    generalize (if (parseCmdWithRedir (stages.headD []) {}).2.in.isEmpty = true
        then mp.1.pipe else (mp.1, none)) = sp at hsp
    refine Forks.chain hsp ?_
    split
    · exact (hpipe _).chain (hfail _ _)
    · refine Forks.chain (hpipe sp.1) ?_
      split
      · exact (hpipe _).chain (hfail _ _)
      · refine Forks.chain (hpipe sp.1.pipe.1) ?_
        split
        · exact forks_spawnStages stages _ _ _ _ _ _ stages _ _ _ _ (fun _ h => h)
        · exact (forks_spawnStages stages _ _ _ _ _ _ stages _ _ _ _ (fun _ h => h)).chain
            (forks_registerJob _ _ _ _ _ _ _ _ _ _)

theorem forks_pipelineExec (w : World) (cmd_line : Str) (background : Bool) :
    Forks (RunsStage (splitPipeline cmd_line)) w (pipelineExec w cmd_line background).1 := by
  unfold pipelineExec
  dsimp only
  have h0 : Forks (RunsStage (splitPipeline cmd_line)) w (if w.tab.inFdWrite ≥ 0 then
      { (w.close w.tab.inFdWrite) with tab := { w.tab with inFdWrite := -1 } } else w) := by
    split_ifs
    · exact Forks.of_eq (by simp [forkedChildren_append, forkedChildren])
    · exact Forks.same _ _
  generalize (if w.tab.inFdWrite ≥ 0 then
      { (w.close w.tab.inFdWrite) with tab := { w.tab with inFdWrite := -1 } } else w) = v at h0
  refine Forks.chain h0 ?_
  by_cases hemp : (splitPipeline cmd_line).isEmpty = true
  · rw [if_pos hemp]; exact Forks.same _ _
  · rw [if_neg hemp]
    by_cases hpty : ((splitPipeline cmd_line).length == 1 &&
        !(parseCmdWithRedir ((splitPipeline cmd_line).headD []) {}).1.isEmpty &&
        (parseCmdWithRedir ((splitPipeline cmd_line).headD []) {}).2.in.isEmpty &&
        (parseCmdWithRedir ((splitPipeline cmd_line).headD []) {}).2.out.isEmpty) = true
    · rw [if_pos hpty]
      have hmem : (splitPipeline cmd_line).headD [] ∈ splitPipeline cmd_line := by
        cases hs : splitPipeline cmd_line with
        | nil => rw [hs] at hemp; simp at hemp
        | cons a l => simp
      have hne : (parseCmdWithRedir ((splitPipeline cmd_line).headD []) {}).1 ≠ [] := by
        intro h
        rw [h] at hpty
        simp at hpty
      have ha := forks_ptyAttempt (splitPipeline cmd_line) v _ hmem hne
      split_ifs
      · exact ha
      · exact ha.chain (forks_pipesExec _ _ _ _)
    · rw [if_neg hpty]
      exact forks_pipesExec _ _ _ _

theorem forks_spawnProcess (w : World) (argv : List Str) :
    Forks (fun c => argv ≠ [] ∧ ∃ i o e g j, c = Child.stage argv i o e g j) w
      (spawnProcess w argv) := by
  have hpipe : ∀ v : World,
      Forks (fun c => argv ≠ [] ∧ ∃ i o e g j, c = Child.stage argv i o e g j) v v.pipe.1 :=
    fun v => Forks.of_eq (by simp [forkedChildren_append, forkedChildren])
  unfold spawnProcess
  by_cases hemp : argv.isEmpty = true
  · rw [if_pos hemp]; exact Forks.same _ _
  · rw [if_neg hemp]
    have hne : argv ≠ [] := fun h => hemp (by rw [h]; rfl)
    dsimp only
    split
    · exact (hpipe _).chain (Forks.of_eq rfl)
    · refine (hpipe w).chain ?_
      split
      · exact (hpipe _).chain (Forks.of_eq rfl)
      · refine (hpipe w.pipe.1).chain ?_
        split
        · exact (hpipe _).chain (Forks.of_eq rfl)
        · refine (hpipe w.pipe.1.pipe.1).chain ?_
          rename_i _ o1 _ _ e1 _ _ i1 _
          have hf := Forks.fork
            (P := fun c => argv ≠ [] ∧ ∃ i o e g j, c = Child.stage argv i o e g j)
            w.pipe.1.pipe.1.pipe.1
            (Child.stage argv (Wire.fd i1.1) (Wire.fd o1.2) (Wire.fd e1.2) true (-1))
            ⟨hne, _, _, _, _, _, rfl⟩
          refine hf.chain ?_
          split_ifs <;>
            exact Forks.of_eq (by simp [forkedChildren_append, forkedChildren])

theorem runToExit_block (fd : Int) (msg : Str) (status : Int) (after : List ProcEvent) :
    runToExit ([ProcEvent.write fd msg, ProcEvent.exited status] ++ after) =
      [ProcEvent.write fd msg, ProcEvent.exited status] := rfl

theorem execChildFails_cons (sys : Sys) (strerror : Int → Str) (e : Int)
    (after : List ProcEvent) (prog : Str) (rest : List Str) :
    execChildFails sys strerror e after (prog :: rest) =
      some [ProcEvent.write 2 (specProgram sys prog ++ ": ".toList ++
          (if e = ENOENT then "command not found".toList else strerror e) ++ ['\n']),
        ProcEvent.exited 127] := by
  unfold execChildFails expandGlobs specProgram
  rw [List.flatMap_cons]
  cases hl : sys.globs.lookup (c_str prog) with
  | none => simp [execFailedBlock, runToExit]
  | some ms =>
    cases ms with
    | nil => simp [execFailedBlock, runToExit]
    | cons m ms => simp [execFailedBlock, runToExit]

theorem c_str_of_no_nul (s : Str) (h : Char.ofNat 0 ∉ s) : c_str s = s := by
  unfold c_str
  rw [List.takeWhile_eq_self_iff]
  intro c hc
  have : c ≠ Char.ofNat 0 := fun hcz => h (hcz ▸ hc)
  simpa using this

/-- C22. At each of the three spawn sites, for every child that is forked (by `spawnProcess`
for any `argv`, by the PTY path or by the stage loop for any line), every error `e` of
`execvp` and whatever code follows the block: the child has a program word (`cargv[0]` is
never null), it writes to its stderr exactly `p: command not found` and a newline when `e` is
`ENOENT`, and `p: `, the platform's error string of `e` and a newline otherwise, `p` being the
program it tried to execute (`specProgram`: the program word as typed when `glob` has no match
for it and it holds no NUL), then ends with exit status 127, and nothing that follows the exit
is executed. -/
theorem exec_failure_report (w : World) (strerror : Int → Str) (e : Int)
    (after : List ProcEvent) :
    (∀ argv, ∀ c ∈ forkedBy w (spawnProcess w argv),
      ∃ prog rest, argv = prog :: rest ∧
        c.execFails w.sys strerror e after =
          some [ProcEvent.write 2 (specProgram w.sys prog ++ ": ".toList ++
              (if e = ENOENT then "command not found".toList else strerror e) ++ ['\n']),
            ProcEvent.exited 127]) ∧
    (∀ line background, ∀ c ∈ forkedBy w (pipelineExec w line background).1,
      ∃ st ∈ splitPipeline line, ∃ prog rest, (parseCmdWithRedir st {}).1 = prog :: rest ∧
        c.execFails w.sys strerror e after =
          some [ProcEvent.write 2 (specProgram w.sys prog ++ ": ".toList ++
              (if e = ENOENT then "command not found".toList else strerror e) ++ ['\n']),
            ProcEvent.exited 127]) ∧
    (∀ prog : Str, w.sys.globs.lookup prog = none → Char.ofNat 0 ∉ prog →
      specProgram w.sys prog = prog) := by
  refine ⟨?_, ?_, ?_⟩
  · intro argv c hc
    obtain ⟨hne, i, o, er, g, j, hcs⟩ := (forks_spawnProcess w argv).forkedBy c hc
    cases argv with
    | nil => exact absurd rfl hne
    | cons prog rest =>
      refine ⟨prog, rest, rfl, ?_⟩
      rw [hcs]
      exact execChildFails_cons w.sys strerror e after prog rest
  · intro line background c hc
    obtain ⟨st, hst, hne, hkind⟩ := (forks_pipelineExec w line background).forkedBy c hc
    cases hargv : (parseCmdWithRedir st {}).1 with
    | nil => exact absurd hargv hne
    | cons prog rest =>
      refine ⟨st, hst, prog, rest, hargv, ?_⟩
      rcases hkind with ⟨slave, hcs⟩ | ⟨i, o, er, g, j, hcs⟩
      · rw [hcs, hargv]
        exact execChildFails_cons w.sys strerror e after prog rest
      · rw [hcs, hargv]
        exact execChildFails_cons w.sys strerror e after prog rest
  · intro prog hl hnul
    unfold specProgram
    rw [c_str_of_no_nul prog hnul, hl]

/-- C22, instances at the three sites.  For the line `nosuchprog | cat` two children are
forked; should `execvp` fail with `ENOENT`, the first writes `nosuchprog: command not found`
and both end with status 127, whatever follows in the code.  The single child of the PTY path
for `nosuchprog -x`, with error 13, writes `nosuchprog: Permission denied`; the child of
`spawnProcess` for `nosuchprog` writes `nosuchprog: command not found`. -/
theorem exec_failure_report_witness :
    (forkedBy ptyExample (pipelineExec ptyExample "nosuchprog -x".toList false).1).map
        (Child.execFails ptyExample.sys (fun _ => "Permission denied".toList) 13
          [ProcEvent.write 1 "next".toList]) =
      [some [ProcEvent.write 2 "nosuchprog: Permission denied\n".toList,
        ProcEvent.exited 127]] ∧
    (forkedBy pipesExample (spawnProcess pipesExample ["nosuchprog".toList])).map
        (Child.execFails pipesExample.sys (fun _ => "Permission denied".toList) ENOENT
          [ProcEvent.write 1 "next".toList]) =
      [some [ProcEvent.write 2 "nosuchprog: command not found\n".toList,
        ProcEvent.exited 127]] ∧
    (forkedBy pipesExample (pipelineExec pipesExample "nosuchprog | cat".toList false).1).map
        (Child.execFails pipesExample.sys (fun _ => "Permission denied".toList) ENOENT
          [ProcEvent.write 1 "next".toList]) =
      [some [ProcEvent.write 2 "nosuchprog: command not found\n".toList, ProcEvent.exited 127],
        some [ProcEvent.write 2 "cat: command not found\n".toList, ProcEvent.exited 127]] ∧
    ∀ c ∈ forkedBy pipesExample (pipelineExec pipesExample "nosuchprog | cat".toList false).1,
      ∃ st ∈ splitPipeline "nosuchprog | cat".toList, ∃ prog rest,
        (parseCmdWithRedir st {}).1 = prog :: rest ∧
        c.execFails pipesExample.sys (fun _ => "Permission denied".toList) 13
            [ProcEvent.write 1 "next".toList] =
          some [ProcEvent.write 2 (specProgram pipesExample.sys prog ++ ": ".toList ++
              (if (13 : Int) = ENOENT then "command not found".toList
                else "Permission denied".toList) ++ ['\n']),
            ProcEvent.exited 127] :=
  ⟨by decide, by decide, by decide,
    (exec_failure_report pipesExample (fun _ => "Permission denied".toList) 13
      [ProcEvent.write 1 "next".toList]).2.1 "nosuchprog | cat".toList false⟩

end MyTerm
